import Mathlib

/-!
# gup: a verification development of `main.go`

`gup` is a single `main` function that resolves a Go release name, downloads
the archive, stores it in a scratch directory, unpacks it there and replaces
the installation directory (`goroot`) by the unpacked `go/` tree.

The embedding is shallow.  The program's effects are made explicit:

* the network is an oracle `String → HttpResult` (`fasthttp.Get`);
* the file system is a finite map from absolute paths to nodes, with the
  `os` / `io/ioutil` / `path/filepath` calls of `main.go` as functions on it;
* `log.Fatal*` is an `Except`-style early exit that keeps the file system
  reached so far.

Go `string` and `[]byte` values are byte sequences; a byte is modelled by a
`Char`, so `string(b)` is `String.mk b`.  The spinner and the `Printf` calls
are presentational and are left out.
-/

deriving instance DecidableEq for Except

namespace Gup

/-! ## Strings and lexical paths (`strings`, `path/filepath`) -/

/-- Byte sequences (`[]byte`). -/
abbrev Bytes := List Char

/-- Cut a character list at every `/`; the result is never empty. -/
def splitChars : List Char → List (List Char)
  | [] => [[]]
  | c :: cs =>
    match splitChars cs with
    | [] => [[]]
    | hd :: tl => if c = '/' then [] :: hd :: tl else (c :: hd) :: tl

/-- The `/`-separated elements of a path string (empty elements included). -/
def splitSlash (s : String) : List String :=
  (splitChars s.data).map String.mk

/-- A path string starts with the separator. -/
def isRooted (s : String) : Bool :=
  match s.data with
  | c :: _ => c == '/'
  | [] => false

/-- Elements joined by `/`, with a leading `/` for every element
(`"/a/b"` for `["a", "b"]`, `""` for `[]`). -/
def renderRel : List String → String
  | [] => ""
  | c :: cs => "/" ++ c ++ renderRel cs

/-- Elements joined by `/` without a leading separator. -/
def joinSlash : List String → String
  | [] => ""
  | [c] => c
  | c :: cs => c ++ "/" ++ joinSlash cs

/-- The element pass of `filepath.Clean`: empty and `.` elements are dropped,
`..` removes the element before it, is dropped at the root of a rooted path and
is kept at the start of a relative path.  `acc` is the output so far, last
element first. -/
def cleanComps (rooted : Bool) : List String → List String → List String
  | acc, [] => acc.reverse
  | acc, c :: rest =>
    if c = "" ∨ c = "." then cleanComps rooted acc rest
    else if c = ".." then
      match acc with
      | [] => if rooted then cleanComps rooted [] rest else cleanComps rooted [c] rest
      | top :: acc' =>
        if top = ".." then cleanComps rooted (c :: acc) rest
        else cleanComps rooted acc' rest
    else cleanComps rooted (c :: acc) rest

/-- Unix `filepath.Clean`. -/
def filepathClean (s : String) : String :=
  if s = "" then "."
  else
    let comps := cleanComps (isRooted s) [] (splitSlash s)
    let out := (if isRooted s then "/" else "") ++ joinSlash comps
    if out = "" then "." else out

/-- Unix `filepath.Join`: the elements from the first non-empty one on are joined
with `/` and cleaned; no non-empty element gives `""`. -/
def filepathJoin : List String → String
  | [] => ""
  | e :: es => if e = "" then filepathJoin es else filepathClean (joinSlash (e :: es))

/-- Character-list worker of `stringsReplace1`. -/
def replaceFirst (old new : List Char) : List Char → List Char
  | [] => if old = [] then new else []
  | c :: cs =>
    if old.isPrefixOf (c :: cs) then new ++ (c :: cs).drop old.length
    else c :: replaceFirst old new cs

/-- The call `strings.Replace(s, old, new, 1)`: the first occurrence of `old` in
`s` is replaced by `new`. -/
def stringsReplace1 (s old new : String) : String :=
  String.mk (replaceFirst old.data new.data s.data)

/-! ## Constants of `main.go` -/

def latestURL : String := "https://golang.org/VERSION"
def linuxTar : String := ".linux-amd64.tar.gz"
def downloadURL : String := "https://dl.google.com/go/"

/-! ## The network -/

/-- The three results of `fasthttp.Get(nil, url)`: status code, body, and the
transport error if there is one. -/
structure HttpResult where
  sc : Int
  body : Bytes
  err : Option String
deriving DecidableEq, Repr

/-- The guard `err != nil || sc >= 400` used after both requests. -/
def HttpResult.failed (r : HttpResult) : Bool :=
  r.err.isSome || decide (r.sc ≥ 400)

/-- The sites at which `main` calls `log.Fatal*`, with a run-time panic added. -/
inductive Fatal where
  | latestVersion
  | tempDir
  | makeTempDir
  | download
  | store
  | openTar
  | gzipReader
  | readEntry
  | makeTarDir
  | openFile
  | writeFile
  | removeFiles
  | recreateGoroot
  | walking
  | panic
deriving DecidableEq, Repr

/-- The call `fasthttp.Get(nil, url)` as an operation on a state `ν` of the
network side: the state after the request, and the three results. -/
abbrev Getter (ν : Type) := ν → String → ν × HttpResult

/-- Requests answered by the oracle `http`, nothing recorded. -/
def plainGet (http : String → HttpResult) : Getter Unit :=
  fun _ url => ((), http url)

/-- Requests answered by the oracle `http`, the state being the list of the
URLs requested so far. -/
def loggingGet (http : String → HttpResult) : Getter (List String) :=
  fun log url => (log ++ [url], http url)

/-- Lines 35-43: the archive file name `n`. -/
def resolveNameG {ν : Type} (get : Getter ν) (net : ν) (wv : String) :
    ν × Except Fatal String :=
  if wv = "latest" then
    match get net latestURL with
    | (net1, r) =>
      if r.failed then (net1, .error .latestVersion)
      else (net1, .ok (String.mk r.body ++ linuxTar))
  else (net, .ok ("go" ++ wv ++ linuxTar))

/-- Lines 35-43 over the oracle `http`. -/
def resolveName (http : String → HttpResult) (wv : String) : Except Fatal String :=
  (resolveNameG (plainGet http) () wv).2

/-! ## The file system (`os`, `io/ioutil`)

Absolute paths are lists of element names; the root directory is `[]` and always
exists.  There are directories and regular files only (the program never creates
anything else), and access permissions are not checked: the process is taken to
run with the rights it needs (replacing a Go installation under `/usr/local`
normally means running as root).  A file records its nine permission bits, which
are the bits asked for at creation with those of the process's umask cleared.
Limits of the real system that only turn a run into a fatal one are left out:
the length of names and paths, and the space on the disk. -/

abbrev Path := List String

inductive Node where
  | dir
  | file (mode : Nat) (data : Bytes)
deriving DecidableEq, Repr, Inhabited

def Node.isDir : Node → Bool
  | .dir => true
  | .file _ _ => false

/-- The error numbers the model distinguishes. -/
inductive Errno where
  | ENOENT
  | EEXIST
  | ENOTDIR
  | EISDIR
  | EINVAL
  | EBUSY
deriving DecidableEq, Repr

/-- A file system as the process sees it: its working directory, its umask, and
the nodes below the root. -/
structure FS where
  cwd : Path
  umask : Nat
  nodes : List (Path × Node)
deriving DecidableEq, Repr

/-- The permission bits of a file created with `perm` under `umask`: the nine
low bits of `perm` (`FileMode.Perm`) without the bits of the umask. -/
def fileMode (umask perm : Nat) : Nat :=
  (perm % 512) &&& (511 - umask % 512)

/-- First binding of `p` in an association list. -/
def lookupNode (p : Path) : List (Path × Node) → Option Node
  | [] => none
  | (q, n) :: rest => if q = p then some n else lookupNode p rest

/-- The node at an absolute path, if there is one. -/
def FS.get (fs : FS) (p : Path) : Option Node :=
  if p = [] then some .dir else lookupNode p fs.nodes

/-- Bind `p` to `n`, replacing an earlier binding. -/
def FS.set (fs : FS) (p : Path) (n : Node) : FS :=
  { fs with nodes := (p, n) :: fs.nodes.filter (fun e => !decide (e.1 = p)) }

/-- Drop `p` and everything below it. -/
def FS.removeTree (fs : FS) (p : Path) : FS :=
  { fs with nodes := fs.nodes.filter (fun e => !(p.isPrefixOf e.1)) }

/-- Path walk of the kernel over the elements of a path string, starting in
directory `cur`: every directory that is searched must exist and be a
directory; `""` and `.` stay, `..` goes to the parent (the root is its own
parent).  The result is the location named; it need not exist. -/
def namei (fs : FS) : Path → List String → Except Errno Path
  | cur, [] => .ok cur
  | cur, c :: rest =>
    match fs.get cur with
    | none => .error .ENOENT
    | some (.file _ _) => .error .ENOTDIR
    | some .dir =>
      if c = "" ∨ c = "." then namei fs cur rest
      else if c = ".." then namei fs cur.dropLast rest
      else namei fs (cur ++ [c]) rest

/-- Resolve a path string: absolute strings start at the root, others at the
working directory; the empty string names nothing. -/
def FS.resolve (fs : FS) (s : String) : Except Errno Path :=
  if s = "" then .error .ENOENT
  else namei fs (if isRooted s then [] else fs.cwd) (splitSlash s)

/-- `os.Stat` (and `os.Lstat`: there are no symbolic links). -/
def FS.stat (fs : FS) (s : String) : Except Errno Node :=
  match fs.resolve s with
  | .error e => .error e
  | .ok p =>
    match fs.get p with
    | none => .error .ENOENT
    | some n => .ok n

/-- Remove the empty elements at the end of an element list (trailing slashes). -/
def dropTrailingEmpty (cs : List String) : List String :=
  (cs.reverse.dropWhile (fun c => c = "")).reverse

/-- Create a node at a resolved location: the location must be free and its
parent must be a directory. -/
def FS.createAt (fs : FS) (p : Path) (n : Node) : Except Errno FS :=
  match fs.get p with
  | some _ => .error .EEXIST
  | none =>
    match fs.get p.dropLast with
    | none => .error .ENOENT
    | some (.file _ _) => .error .ENOTDIR
    | some .dir => .ok (fs.set p n)

/-- `os.Mkdir`: trailing slashes are accepted; the parent must exist and the
name must be free. -/
def FS.mkdir (fs : FS) (s : String) : Except Errno FS :=
  if s = "" then .error .ENOENT
  else
    match namei fs (if isRooted s then [] else fs.cwd) (dropTrailingEmpty (splitSlash s)) with
    | .error e => .error e
    | .ok p => fs.createAt p .dir

/-- Element pass of `os.MkdirAll`: every missing directory on the way is made;
a regular file on the way is `ENOTDIR`. -/
def mkdirAllFrom : FS → Path → List String → Except Errno FS
  | fs, _, [] => .ok fs
  | fs, cur, c :: rest =>
    if c = "" ∨ c = "." then mkdirAllFrom fs cur rest
    else if c = ".." then mkdirAllFrom fs cur.dropLast rest
    else
      match fs.get (cur ++ [c]) with
      | some (.file _ _) => .error .ENOTDIR
      | some .dir => mkdirAllFrom fs (cur ++ [c]) rest
      | none => mkdirAllFrom (fs.set (cur ++ [c]) .dir) (cur ++ [c]) rest

/-- `os.MkdirAll`. -/
def FS.mkdirAll (fs : FS) (s : String) : Except Errno FS :=
  if s = "" then .error .ENOENT
  else
    match fs.get (if isRooted s then [] else fs.cwd) with
    | some .dir => mkdirAllFrom fs (if isRooted s then [] else fs.cwd) (splitSlash s)
    | some (.file _ _) => .error .ENOTDIR
    | none => .error .ENOENT

/-- `os.OpenFile(name, os.O_CREATE|os.O_RDWR, mode)`: an existing regular file is
opened as it is (not truncated, mode unchanged), a missing one is created empty
with the permission bits of `mode` under the umask; the open file is identified
by its location. -/
def FS.openFile (fs : FS) (s : String) (mode : Nat) : Except Errno (FS × Path) :=
  match fs.resolve s with
  | .error e => .error e
  | .ok p =>
    match fs.get p with
    | some .dir => .error .EISDIR
    | some (.file _ _) => .ok (fs, p)
    | none =>
      match fs.createAt p (.file (fileMode fs.umask mode) []) with
      | .error e => .error e
      | .ok fs1 => .ok (fs1, p)

/-- Writing `data` at offset 0 of an open file (`io.Copy` into a fresh
descriptor): the first `data.length` bytes are overwritten, bytes of the old
content beyond them stay. -/
def FS.writeAt0 (fs : FS) (p : Path) (data : Bytes) : FS :=
  match fs.get p with
  | some (.file m old) => fs.set p (.file m (data ++ old.drop data.length))
  | _ => fs

/-- `os.WriteFile` / `ioutil.WriteFile` (`O_WRONLY|O_CREATE|O_TRUNC`): the file
holds exactly `data` afterwards; an existing file keeps its mode, a new one gets
the permission bits of `perm` under the umask. -/
def FS.writeFile (fs : FS) (s : String) (data : Bytes) (perm : Nat) : Except Errno FS :=
  match fs.resolve s with
  | .error e => .error e
  | .ok p =>
    match fs.get p with
    | some .dir => .error .EISDIR
    | some (.file m _) => .ok (fs.set p (.file m data))
    | none => fs.createAt p (.file (fileMode fs.umask perm) data)

/-- `ioutil.ReadFile`. -/
def FS.readFile (fs : FS) (s : String) : Except Errno Bytes :=
  match fs.resolve s with
  | .error e => .error e
  | .ok p =>
    match fs.get p with
    | none => .error .ENOENT
    | some .dir => .error .EISDIR
    | some (.file _ data) => .ok data

/-- The test `endsWithDot` of `os.RemoveAll`. -/
def endsWithDot (s : String) : Bool :=
  match s.data.reverse with
  | ['.'] => true
  | '.' :: '/' :: _ => true
  | _ => false

/-- Drop everything below `p`, keeping `p` itself. -/
def FS.removeBelow (fs : FS) (p : Path) : FS :=
  { fs with nodes := fs.nodes.filter (fun e => !(p.isPrefixOf e.1) || decide (e.1 = p)) }

/-- `os.RemoveAll`: `""` and a missing path are no-ops, a path ending in `.` is
rejected, otherwise the named node and everything below it are removed.  For
the root directory and for a path whose last element is `..` the contents of the
directory named are removed and the call then fails, the directory itself being
in use.  A failed call returns the error with the file system it leaves. -/
def FS.removeAll (fs : FS) (s : String) : Except (Errno × FS) FS :=
  if s = "" then .ok fs
  else if endsWithDot s then .error (.EINVAL, fs)
  else
    match fs.resolve s with
    | .error .ENOENT => .ok fs
    | .error e => .error (e, fs)
    | .ok p =>
      if p = [] ∨ (dropTrailingEmpty (splitSlash s)).getLast? = some ".." then
        .error (.EBUSY, fs.removeBelow p)
      else .ok (fs.removeTree p)

/-- Byte-wise lexicographic order, the order of `sort.Strings`. -/
def ltChars : List Char → List Char → Bool
  | _, [] => false
  | [], _ :: _ => true
  | a :: as, b :: bs => if a.toNat < b.toNat then true else if a = b then ltChars as bs else false

/-- Insert a name into a sorted list of names, before the first greater one. -/
def insertSorted (n : String) : List String → List String
  | [] => [n]
  | m :: ms => if ltChars n.data m.data then n :: m :: ms else m :: insertSorted n ms

/-- Add a name to a sorted list of names unless it is there already. -/
def insertName (n : String) (l : List String) : List String :=
  if n ∈ l then l else insertSorted n l

/-- The names bound directly below `p`, sorted and without repetition. -/
def childNames (p : Path) : List (Path × Node) → List String
  | [] => []
  | (q, _) :: rest =>
    match q.getLast? with
    | none => childNames p rest
    | some n => if q.dropLast = p then insertName n (childNames p rest) else childNames p rest

/-- The helper `readDirNames` of `filepath.Walk`: the sorted names in a
directory. -/
def FS.readDirNames (fs : FS) (s : String) : Except Errno (List String) :=
  match fs.resolve s with
  | .error e => .error e
  | .ok p =>
    match fs.get p with
    | none => .error .ENOENT
    | some (.file _ _) => .error .ENOTDIR
    | some .dir => .ok (childNames p fs.nodes)

/-! ## `filepath.Walk` -/

/-- What the callback of `main` can return (or do instead of returning). -/
inductive WalkErr where
  | mkdir (e : Errno)
  | read (e : Errno)
  | write (e : Errno)
  | nilInfo
deriving DecidableEq, Repr

/-- A `filepath.WalkFunc` as a state transformer: state, path, `info` (`none` is
the nil interface), the error handed in by the walker.  The callback of `main`
never returns `filepath.SkipDir`, so the walker's special cases for it are left
out. -/
abbrev WalkFunc (σ : Type) := σ → String → Option Node → Option Errno → σ × Option WalkErr

/-- The loop `for _, name := range names` of `filepath.walk`, over the recursive
call `rec`.  `none` means that the recursion ran out of fuel. -/
def walkNames {σ : Type} (fsOf : σ → FS) (fn : WalkFunc σ)
    (rec : σ → String → Node → Option (σ × Option WalkErr)) (path : String) :
    σ → List String → Option (σ × Option WalkErr)
  | st, [] => some (st, none)
  | st, name :: rest =>
    let filename := filepathJoin [path, name]
    match (fsOf st).stat filename with
    | .error e =>
      match fn st filename none (some e) with
      | (st1, some err) => some (st1, some err)
      | (st1, none) => walkNames fsOf fn rec path st1 rest
    | .ok fileInfo =>
      match rec st filename fileInfo with
      | none => none
      | some (st1, some err) => some (st1, some err)
      | some (st1, none) => walkNames fsOf fn rec path st1 rest

/-- The function `walk` of `path/filepath`: a non-directory is handed to the
callback; for a directory the names are read first, the callback is called with
the read error, and the names are walked if neither failed. -/
def walk {σ : Type} (fsOf : σ → FS) (fn : WalkFunc σ) :
    Nat → σ → String → Node → Option (σ × Option WalkErr)
  | 0, _, _, _ => none
  | fuel + 1, st, path, info =>
    if !info.isDir then some (fn st path (some info) none)
    else
      match (fsOf st).readDirNames path with
      | .error e =>
        some (fn st path (some info) (some e))
      | .ok names =>
        match fn st path (some info) none with
        | (st1, some err1) => some (st1, some err1)
        | (st1, none) => walkNames fsOf fn (walk fsOf fn fuel) path st1 names

/-- `filepath.Walk(root, fn)`: if `Lstat(root)` fails the callback gets the error
and a nil `info`, and what it returns is the result. -/
def filepathWalk {σ : Type} (fsOf : σ → FS) (fn : WalkFunc σ) (fuel : Nat) (st : σ)
    (root : String) : Option (σ × Option WalkErr) :=
  match (fsOf st).stat root with
  | .error e => some (fn st root none (some e))
  | .ok info => walk fsOf fn fuel st root info

/-! ## The stages of `main` -/

/-- `tar.TypeReg` and `tar.TypeDir`. -/
def TypeReg : Char := '0'
def TypeDir : Char := '5'

/-- The fields of `tar.Header` that `main` reads. -/
structure Header where
  name : String
  typeflag : Char
  mode : Nat
deriving DecidableEq, Repr

/-- An archive entry: header and the bytes that `io.Copy` reads for it. -/
structure Entry where
  header : Header
  data : Bytes
deriving DecidableEq, Repr

/-- How a damaged archive ends the loop: `tr.Next()` returns an error, or it
returns a last header whose body cannot be read in full, `written` being the
bytes that `io.Copy` gets from it before the read fails. -/
inductive ReadErr where
  | next
  | body (header : Header) (written : Bytes)
deriving DecidableEq, Repr

/-- What the tar reader yields over the whole run: the entries that are read in
full, and then `io.EOF` (`err = none`) or a read error. -/
structure TarStream where
  entries : List Entry
  err : Option ReadErr
deriving DecidableEq, Repr

/-- The environment of a run. -/
structure Env where
  /-- The call `fasthttp.Get(nil, url)`. -/
  http : String → HttpResult
  /-- The value of `os.TempDir()`. -/
  tmpRoot : String
  /-- The random suffixes `ioutil.TempDir` tries, in order. -/
  suffixes : List String
  /-- The function `gzip.NewReader` followed by `tar.NewReader` on the stored
  archive; `none` is a bad gzip header. -/
  decode : Bytes → Option TarStream

/-- Final state of a run: the file system, and the `log.Fatal*` site if the run
did not reach the end of `main`. -/
structure Outcome where
  fs : FS
  fatal : Option Fatal
deriving DecidableEq, Repr

/-- `ioutil.TempDir(dir, "gup")`: the first candidate `dir/gup<suffix>` that
`Mkdir` does not report as existing. -/
def tempDir (dir : String) : FS → List String → Except Errno (FS × String)
  | _, [] => .error .EEXIST
  | fs, r :: rs =>
    let name := (if dir.data.getLast? = some '/' then dir else dir ++ "/") ++ "gup" ++ r
    match fs.mkdir name with
    | .ok fs1 => .ok (fs1, name)
    | .error .EEXIST => tempDir dir fs rs
    | .error e => .error e

/-- Lines 101-120: one pass of the extraction loop body, for an entry whose body
is read in full (a body that cannot be read is in `extract`; writes do not
fail, see the file system). -/
def extractEntry (td : String) (fs : FS) (e : Entry) : Except Fatal FS :=
  let target := filepathJoin [td ++ "/", e.header.name]
  if e.header.typeflag = TypeDir then
    match fs.stat target with
    | .ok _ => .ok fs
    | .error _ =>
      match fs.mkdirAll target with
      | .error _ => .error .makeTarDir
      | .ok fs1 => .ok fs1
  else if e.header.typeflag = TypeReg then
    match fs.openFile target e.header.mode with
    | .error _ => .error .openFile
    | .ok (fs1, f) => .ok (fs1.writeAt0 f e.data)
  else .ok fs

/-- Lines 89-121 over the entries that `tr.Next()` delivers (`tr.Next()` never
returns a nil header without an error, so the `continue` of line 98 is dead). -/
def extractEntries (td : String) : FS → List Entry → Outcome
  | fs, [] => ⟨fs, none⟩
  | fs, e :: es =>
    match extractEntry td fs e with
    | .error f => ⟨fs, some f⟩
    | .ok fs1 => extractEntries td fs1 es

/-- Lines 88-121: the loop, ended by `io.EOF` or by a read error.  A header
whose body cannot be read is processed like any other; for a regular file the
bytes read are written and the error of `io.Copy` is fatal, for other types the
body is not read and the next `tr.Next()` fails. -/
def extract (td : String) (fs : FS) (ts : TarStream) : Outcome :=
  match extractEntries td fs ts.entries with
  | ⟨fs1, some f⟩ => ⟨fs1, some f⟩
  | ⟨fs1, none⟩ =>
    match ts.err with
    | none => ⟨fs1, none⟩
    | some .next => ⟨fs1, some .readEntry⟩
    | some (.body header written) =>
      match extractEntry td fs1 ⟨header, written⟩ with
      | .error f => ⟨fs1, some f⟩
      | .ok fs2 =>
        if header.typeflag = TypeReg then ⟨fs2, some .writeFile⟩
        else ⟨fs2, some .readEntry⟩

/-- Lines 134-151: the callback handed to `filepath.Walk`.  The parameter `err`
is not looked at; `info.IsDir()` on a nil `info` panics. -/
def installFn (td goroot : String) : WalkFunc FS :=
  fun fs path info _err =>
    let relPath := stringsReplace1 path (td ++ "/go") ""
    if relPath = "" then (fs, none)
    else
      match info with
      | none => (fs, some .nilInfo)
      | some info =>
        if info.isDir then
          match fs.mkdir (filepathJoin [goroot ++ "/", relPath]) with
          | .error e => (fs, some (.mkdir e))
          | .ok fs1 => (fs1, none)
        else
          match fs.readFile (filepathJoin [td ++ "/go", relPath]) with
          | .error e => (fs, some (.read e))
          | .ok data =>
            match fs.writeFile (filepathJoin [goroot ++ "/", relPath]) data 0o777 with
            | .error e => (fs, some (.write e))
            | .ok fs1 => (fs1, none)

/-- Lines 124-154: the installer.  `none` means that the walk ran out of fuel. -/
def install (td goroot : String) (fuel : Nat) (fs : FS) : Option Outcome :=
  match fs.removeAll goroot with
  | .error (_, fs1) => some ⟨fs1, some .removeFiles⟩
  | .ok fs1 =>
    match fs1.mkdir goroot with
    | .error _ => some ⟨fs1, some .recreateGoroot⟩
    | .ok fs2 =>
      match filepathWalk id (installFn td goroot) fuel fs2 (td ++ "/go") with
      | none => none
      | some (fs3, some .nilInfo) => some ⟨fs3, some .panic⟩
      | some (fs3, some _) => some ⟨fs3, some .walking⟩
      | some (fs3, none) => some ⟨fs3, none⟩

/-- Lines 45-73: scratch directory, download, store.  On success the scratch
path is returned with the file system. -/
def fetchAndStoreG {ν : Type} (get : Getter ν) (net : ν) (env : Env) (n : String) (fs : FS) :
    ν × Except Outcome (FS × String) :=
  match tempDir env.tmpRoot fs env.suffixes with
  | .error _ => (net, .error ⟨fs, some .tempDir⟩)
  | .ok (fs1, td) =>
    match (match fs1.stat td with
           | .ok _ => Except.ok fs1
           | .error _ => fs1.mkdirAll td) with
    | .error _ => (net, .error ⟨fs1, some .makeTempDir⟩)
    | .ok fs2 =>
      match get net (downloadURL ++ n) with
      | (net1, r) =>
        if r.failed then (net1, .error ⟨fs2, some .download⟩)
        else
          match fs2.writeFile (td ++ "/" ++ n) r.body 0o644 with
          | .error _ => (net1, .error ⟨fs2, some .store⟩)
          | .ok fs3 => (net1, .ok (fs3, td))

/-- Lines 45-73 over the oracle `env.http`. -/
def fetchAndStore (env : Env) (n : String) (fs : FS) : Except Outcome (FS × String) :=
  (fetchAndStoreG (plainGet env.http) () env n fs).2

/-- Lines 75-122: open the stored archive, decode it, run the extraction loop.
The archive is read as it was stored. -/
def openAndExtract (env : Env) (td n : String) (fs : FS) : Outcome :=
  match fs.stat (td ++ "/" ++ n) with
  | .error _ => ⟨fs, some .openTar⟩
  | .ok .dir => ⟨fs, some .gzipReader⟩
  | .ok (.file _ data) =>
    match env.decode data with
    | none => ⟨fs, some .gzipReader⟩
    | some ts => extract td fs ts

/-- The function `main` with flags `--version wv --goroot goroot`, every request
going through `get`. -/
def mainG {ν : Type} (get : Getter ν) (net : ν) (env : Env) (wv goroot : String) (fuel : Nat)
    (fs : FS) : ν × Option Outcome :=
  match resolveNameG get net wv with
  | (net1, .error f) => (net1, some ⟨fs, some f⟩)
  | (net1, .ok n) =>
    match fetchAndStoreG get net1 env n fs with
    | (net2, .error out) => (net2, some out)
    | (net2, .ok (fs1, td)) =>
      match openAndExtract env td n fs1 with
      | ⟨fs2, some f⟩ => (net2, some ⟨fs2, some f⟩)
      | ⟨fs2, none⟩ => (net2, install td goroot fuel fs2)

/-- The function `main` over the oracle `env.http`. -/
def main (env : Env) (wv goroot : String) (fuel : Nat) (fs : FS) : Option Outcome :=
  (mainG (plainGet env.http) () env wv goroot fuel fs).2

/-- The URLs that a run of `main` hands to `fasthttp.Get`, in order. -/
def mainRequests (env : Env) (wv goroot : String) (fuel : Nat) (fs : FS) : List String :=
  (mainG (loggingGet env.http) [] env wv goroot fuel fs).1

/-! ## Concrete data used by the closed statements -/

/-- A response with the given status and body and no transport error. -/
def httpOk (sc : Int) (body : String) : HttpResult := ⟨sc, body.data, none⟩

/-- A file system with `/tmp` and an old installation in `/usr/go`. -/
def fsOld : FS :=
  { cwd := [], umask := 0o022,
    nodes := [(["tmp"], .dir), (["usr"], .dir), (["usr", "go"], .dir),
      (["usr", "go", "old"], .file 0o644 ['o'])] }

/-- An environment whose download endpoint answers 404. -/
def envDown404 : Env :=
  { http := fun _ => httpOk 404 ""
    tmpRoot := "/tmp"
    suffixes := ["1"]
    decode := fun _ => none }

/-- Every node of `fs` is a node of `fs1`. -/
def FS.Sub (fs fs1 : FS) : Prop :=
  ∀ q n, fs.get q = some n → fs1.get q = some n

/-- A file system in which the scratch directory `/tmp/gup1` was just made. -/
def fsScratch : FS :=
  { cwd := [], umask := 0o022,
    nodes := [(["tmp", "gup1"], .dir), (["tmp"], .dir), (["usr"], .dir), (["usr", "go"], .dir),
      (["usr", "go", "old"], .file 0o644 ['o'])] }

/-- The two entry types the loop body acts on. -/
def isDirOrReg (e : Entry) : Bool :=
  e.header.typeflag = TypeDir || e.header.typeflag = TypeReg

/-- An environment whose archive holds the single file `README`. -/
def envNoGo : Env :=
  { http := fun _ => httpOk 200 "Z"
    tmpRoot := "/tmp"
    suffixes := ["1"]
    decode := fun _ => some ⟨[⟨⟨"README", TypeReg, 0o644⟩, ['r']⟩], none⟩ }

/-- A name that can stand in a directory: not empty, not `.` or `..`, no `/`. -/
def ValidName (c : String) : Prop :=
  c ≠ "" ∧ c ≠ "." ∧ c ≠ ".." ∧ '/' ∉ c.data

/-- Every proper ancestor of `p` is a directory. -/
def FS.DirsAbove (fs : FS) (p : Path) : Prop :=
  ∀ q, q <+: p → q ≠ p → fs.get q = some .dir

/-- A call of the walk callback: its arguments `path` and `info`, and the file
system at the moment of the call. -/
structure Call where
  path : String
  info : Option Node
  fs : FS
deriving DecidableEq, Repr

/-- A callback that also records each of its calls. -/
def logged (fn : WalkFunc FS) : WalkFunc (FS × List Call) :=
  fun st path info err =>
    (((fn st.1 path info err).1, st.2 ++ [⟨path, info, st.1⟩]), (fn st.1 path info err).2)

/-- Forget the record of calls. -/
def dropLog (r : (FS × List Call) × Option WalkErr) : FS × Option WalkErr :=
  (r.1.1, r.2)

/-- The installer with its callback recording the calls: the outcome of the
walk together with the calls made. -/
def walkLogged (td goroot : String) (fuel : Nat) (fs : FS) :
    Option ((FS × List Call) × Option WalkErr) :=
  filepathWalk Prod.fst (logged (installFn td goroot)) fuel (fs, []) (td ++ "/go")

/-- What the installer makes of a node under umask `u`: a directory stays a
directory, a file keeps its bytes and gets the mode that `ioutil.WriteFile`
gives a new file for `0777`. -/
def copyNode (u : Nat) : Node → Node
  | .dir => .dir
  | .file _ d => .file (fileMode u 0o777) d

/-- The setting of the installer walk, for a scratch directory `td` with
elements `tdc` and an installation directory `goroot` with elements `g`, in
file system `base`: both are clean absolute paths, neither of `td/go` and
`goroot` lies in the other, `td/go` is a directory whose ancestors are
directories, and in the tree below it every node has a valid name and a
directory as parent. -/
structure WalkCtx (tdc g : Path) (base : FS) : Prop where
  td_valid : ∀ c ∈ tdc, ValidName c
  g_valid : ∀ c ∈ g, ValidName c
  g_ne : g ≠ []
  not_in : ¬ g <+: tdc ++ ["go"]
  not_over : ¬ (tdc ++ ["go"]) <+: g
  src_dir : base.get (tdc ++ ["go"]) = some .dir
  src_above : base.DirsAbove (tdc ++ ["go"])
  src_tree : ∀ (s : List String) (n : String), base.get (tdc ++ ["go"] ++ s ++ [n]) ≠ none →
    base.get (tdc ++ ["go"] ++ s) = some .dir ∧ ValidName n

/-- A call of the callback is as it should be: it is for a node `td/go/r` of the
source tree; and if `r` is not empty, the relative path computed is `/r`, the
path read is the walked path itself, the destination is `goroot/r`, the parent
of the destination is a directory, the destination does not exist, and the
callback returns nil. -/
def CallOK (tdc g : Path) (base : FS) (c : Call) : Prop :=
  ∃ r : List String,
    c.path = renderRel (tdc ++ ["go"] ++ r) ∧
    c.info = base.get (tdc ++ ["go"] ++ r) ∧ c.info ≠ none ∧
    (r ≠ [] →
      stringsReplace1 c.path (renderRel tdc ++ "/go") "" = renderRel r ∧
      filepathJoin [renderRel tdc ++ "/go", renderRel r] = c.path ∧
      filepathJoin [renderRel g ++ "/", renderRel r] = renderRel (g ++ r) ∧
      c.fs.resolve (renderRel (g ++ r)) = .ok (g ++ r) ∧
      c.fs.get (g ++ r).dropLast = some .dir ∧
      c.fs.get (g ++ r) = none ∧
      (installFn (renderRel tdc) (renderRel g) c.fs c.path c.info none).2 = none)

/-- The walk of the node `td/go/r` with enough fuel, from a state that differs
from the base only below `goroot` and has nothing at `goroot/r`: it succeeds,
changes nothing outside `goroot/r`, leaves there the copy of the subtree at
`td/go/r`, and all its calls are as they should be. -/
def NodeSpec (tdc g : Path) (base : FS) (fuel : Nat) : Prop :=
  ∀ (r : List String) (nd : Node) (st : FS) (log : List Call),
    r ≠ [] → (∀ c ∈ r, ValidName c) → base.get (tdc ++ ["go"] ++ r) = some nd →
    (∀ s, base.get (tdc ++ ["go"] ++ r ++ s) ≠ none → s.length < fuel) →
    (∀ q, ¬ g <+: q → st.get q = base.get q) → st.umask = base.umask →
    st.DirsAbove (g ++ r) → (∀ s, st.get (g ++ r ++ s) = none) →
    ∃ st1 log1,
      walk Prod.fst (logged (installFn (renderRel tdc) (renderRel g))) fuel (st, log)
          (renderRel (tdc ++ ["go"] ++ r)) nd = some ((st1, log ++ log1), none) ∧
      (∀ q, ¬ (g ++ r) <+: q → st1.get q = st.get q) ∧ st1.umask = base.umask ∧
      (∀ s, st1.get (g ++ r ++ s)
        = (base.get (tdc ++ ["go"] ++ r ++ s)).map (copyNode base.umask)) ∧
      ∀ c ∈ log1, CallOK tdc g base c

/-- A well-formed file system: whatever exists has a directory as parent and a
valid name. -/
def FS.WF (fs : FS) : Prop :=
  ∀ (p : Path) (n : String), fs.get (p ++ [n]) ≠ none → fs.get p = some .dir ∧ ValidName n

/-- A number above the length of every path of the file system. -/
def depthBound (fs : FS) : Nat :=
  (fs.nodes.map (fun e => e.1.length)).foldr max 0 + 1

instance (c : String) : Decidable (ValidName c) :=
  inferInstanceAs (Decidable (c ≠ "" ∧ c ≠ "." ∧ c ≠ ".." ∧ '/' ∉ c.data))

/-- The test for `FS.WF` on the list of nodes. -/
def wfCheck (fs : FS) : Bool :=
  fs.nodes.all (fun e =>
    match e.1.getLast? with
    | none => true
    | some n => decide (fs.get e.1.dropLast = some .dir) && decide (ValidName n))

/-- The file system after the archive `go/`, `go/bin/`, `go/bin/tool`,
`go/VERSION` was unpacked in `/tmp/gup1`, with an old installation in `/usr/go`. -/
def fsExtracted : FS :=
  { cwd := [], umask := 0o022,
    nodes := [(["tmp", "gup1", "go", "VERSION"], .file 0o644 ['1']),
      (["tmp", "gup1", "go", "bin", "tool"], .file 0o755 ['X']),
      (["tmp", "gup1", "go", "bin"], .dir),
      (["tmp", "gup1", "go"], .dir),
      (["tmp", "gup1"], .dir),
      (["tmp"], .dir), (["usr"], .dir), (["usr", "go"], .dir),
      (["usr", "go", "old"], .file 0o644 ['o'])] }

/-- The file system `fsExtracted` after the installer ran for `/usr/go`. -/
def fsInstalled : FS :=
  { cwd := [], umask := 0o022,
    nodes := [(["usr", "go", "bin", "tool"], .file 0o755 ['X']),
      (["usr", "go", "bin"], .dir),
      (["usr", "go", "VERSION"], .file 0o755 ['1']),
      (["usr", "go"], .dir),
      (["tmp", "gup1", "go", "VERSION"], .file 0o644 ['1']),
      (["tmp", "gup1", "go", "bin", "tool"], .file 0o755 ['X']),
      (["tmp", "gup1", "go", "bin"], .dir),
      (["tmp", "gup1", "go"], .dir),
      (["tmp", "gup1"], .dir),
      (["tmp"], .dir), (["usr"], .dir)] }

/-- The file system `fsExtracted` with `/usr/go` removed and made anew. -/
def fsFresh : FS :=
  { cwd := [], umask := 0o022,
    nodes := [(["usr", "go"], .dir),
      (["tmp", "gup1", "go", "VERSION"], .file 0o644 ['1']),
      (["tmp", "gup1", "go", "bin", "tool"], .file 0o755 ['X']),
      (["tmp", "gup1", "go", "bin"], .dir),
      (["tmp", "gup1", "go"], .dir),
      (["tmp", "gup1"], .dir),
      (["tmp"], .dir), (["usr"], .dir)] }

/-- The test that nothing lies below `g`. -/
def emptyCheck (fs : FS) (g : Path) : Bool :=
  fs.nodes.all (fun e => !(g.isPrefixOf e.1) || decide (e.1 = g))

/-- The clean absolute path string of a list of names: `/` for the root. -/
def absString (comps : List String) : String :=
  if comps = [] then "/" else renderRel comps

/-- The target of an entry, line 101. -/
def target (td : String) (e : Entry) : String :=
  filepathJoin [td ++ "/", e.header.name]

/-- The file system `fsScratch` after the entries `go/bin/` (directory) and
`go/bin/tool` (regular file, mode 0755, content `X`) were unpacked. -/
def fsTool : FS :=
  { cwd := [], umask := 0o022,
    nodes := [(["tmp", "gup1", "go", "bin", "tool"], .file 0o755 ['X']),
      (["tmp", "gup1", "go", "bin"], .dir),
      (["tmp", "gup1", "go"], .dir),
      (["tmp", "gup1"], .dir), (["tmp"], .dir), (["usr"], .dir), (["usr", "go"], .dir),
      (["usr", "go", "old"], .file 0o644 ['o'])] }

/-- Two regular-file entries with the same name. -/
def dupStream : List Entry :=
  [⟨⟨"a", TypeReg, 0o644⟩, ['X', 'Y']⟩, ⟨⟨"a", TypeReg, 0o600⟩, ['Z']⟩]

/-- A regular-file entry followed by a directory entry of the same name. -/
def fileThenDir : List Entry :=
  [⟨⟨"a", TypeReg, 0o644⟩, ['X', 'Y']⟩, ⟨⟨"a/", TypeDir, 0o755⟩, []⟩]

/-! ## Theorems -/

/-! ### The stages over the oracle -/

theorem resolveName_eq (http : String → HttpResult) (wv : String) :
    resolveName http wv =
      if wv = "latest" then
        if (http latestURL).failed then .error .latestVersion
        else .ok (String.mk (http latestURL).body ++ linuxTar)
      else .ok ("go" ++ wv ++ linuxTar) := by
  unfold resolveName resolveNameG plainGet
  by_cases h : wv = "latest"
  · simp only [if_pos h]
    cases (http latestURL).failed <;> rfl
  · simp only [if_neg h]

theorem fetchAndStore_eq (env : Env) (n : String) (fs : FS) :
    fetchAndStore env n fs =
      match tempDir env.tmpRoot fs env.suffixes with
      | .error _ => .error ⟨fs, some .tempDir⟩
      | .ok (fs1, td) =>
        match (match fs1.stat td with
               | .ok _ => Except.ok fs1
               | .error _ => fs1.mkdirAll td) with
        | .error _ => .error ⟨fs1, some .makeTempDir⟩
        | .ok fs2 =>
          if (env.http (downloadURL ++ n)).failed then .error ⟨fs2, some .download⟩
          else
            match fs2.writeFile (td ++ "/" ++ n) (env.http (downloadURL ++ n)).body 0o644 with
            | .error _ => .error ⟨fs2, some .store⟩
            | .ok fs3 => .ok (fs3, td) := by
  unfold fetchAndStore fetchAndStoreG plainGet
  cases tempDir env.tmpRoot fs env.suffixes with
  | error e => rfl
  | ok r =>
    obtain ⟨fs1, td⟩ := r
    simp only
    cases (match fs1.stat td with
           | .ok _ => Except.ok fs1
           | .error _ => fs1.mkdirAll td) with
    | error e => rfl
    | ok fs2 =>
      simp only
      cases (env.http (downloadURL ++ n)).failed with
      | true => rfl
      | false =>
        simp only [Bool.false_eq_true, if_false]
        cases fs2.writeFile (td ++ "/" ++ n) (env.http (downloadURL ++ n)).body 0o644 <;> rfl

theorem main_eq (env : Env) (wv goroot : String) (fuel : Nat) (fs : FS) :
    main env wv goroot fuel fs =
      match resolveName env.http wv with
      | .error f => some ⟨fs, some f⟩
      | .ok n =>
        match fetchAndStore env n fs with
        | .error out => some out
        | .ok (fs1, td) =>
          match openAndExtract env td n fs1 with
          | ⟨fs2, some f⟩ => some ⟨fs2, some f⟩
          | ⟨fs2, none⟩ => install td goroot fuel fs2 := by
  unfold main mainG resolveName fetchAndStore
  rcases resolveNameG (plainGet env.http) () wv with ⟨net1, f | n⟩
  · rfl
  · simp only
    rcases fetchAndStoreG (plainGet env.http) net1 env n fs with ⟨net2, out | ⟨fs1, td⟩⟩
    · rfl
    · simp only
      rcases openAndExtract env td n fs1 with ⟨fs2, _ | f⟩ <;> rfl

/-! ### Basic facts about the file system -/

theorem lookupNode_filter_ne (p q : Path) (hq : q ≠ p) (l : List (Path × Node)) :
    lookupNode q (l.filter (fun e => !decide (e.1 = p))) = lookupNode q l := by
  induction l with
  | nil => rfl
  | cons e l ih =>
    obtain ⟨k, n⟩ := e
    by_cases hk : k = p
    · subst hk
      have hkq : ¬ k = q := fun h => hq h.symm
      simp [List.filter, lookupNode, hkq, ih]
    · by_cases hkq : k = q
      · subst hkq
        simp [List.filter, lookupNode, hk]
      · simp [List.filter, lookupNode, hk, hkq, ih]

theorem get_nil (fs : FS) : fs.get [] = some .dir := by
  simp [FS.get]

theorem get_set_self (fs : FS) (p : Path) (n : Node) (hp : p ≠ []) :
    (fs.set p n).get p = some n := by
  simp [FS.get, FS.set, lookupNode, hp]

theorem get_set_ne (fs : FS) (p q : Path) (n : Node) (hq : q ≠ p) :
    (fs.set p n).get q = fs.get q := by
  by_cases hnil : q = []
  · simp [FS.get, hnil]
  · have hpq : ¬ p = q := fun h => hq h.symm
    simp [FS.get, FS.set, lookupNode, hnil, hpq, lookupNode_filter_ne p q hq]

theorem sub_refl (fs : FS) : fs.Sub fs := fun _ _ h => h

theorem sub_trans {a b c : FS} (h1 : a.Sub b) (h2 : b.Sub c) : a.Sub c :=
  fun q n h => h2 q n (h1 q n h)

theorem sub_set_of_free (fs : FS) (p : Path) (n : Node) (hfree : fs.get p = none) :
    fs.Sub (fs.set p n) := by
  intro q m hq
  have hne : q ≠ p := by
    intro h
    rw [h, hfree] at hq
    cases hq
  rw [get_set_ne fs p q n hne]
  exact hq

theorem namei_cons (fs : FS) (cur : Path) (c : String) (rest : List String) :
    namei fs cur (c :: rest) =
      match fs.get cur with
      | none => .error .ENOENT
      | some (.file _ _) => .error .ENOTDIR
      | some .dir =>
        if c = "" ∨ c = "." then namei fs cur rest
        else if c = ".." then namei fs cur.dropLast rest
        else namei fs (cur ++ [c]) rest := by
  rw [namei]

theorem namei_mono {fs fs1 : FS} (hsub : fs.Sub fs1) :
    ∀ (cs : List String) (cur p : Path), namei fs cur cs = .ok p → namei fs1 cur cs = .ok p := by
  intro cs
  induction cs with
  | nil => intro cur p h; exact h
  | cons c rest ih =>
    intro cur p h
    rw [namei_cons] at h ⊢
    cases hg : fs.get cur with
    | none => rw [hg] at h; cases h
    | some nd =>
      rw [hg] at h
      rw [hsub cur nd hg]
      cases nd with
      | file m d => cases h
      | dir =>
        simp only at h ⊢
        split at h
        · rename_i hc
          rw [if_pos hc]
          exact ih _ _ h
        · rename_i hc
          rw [if_neg hc]
          split at h
          · rename_i hc2
            rw [if_pos hc2]
            exact ih _ _ h
          · rename_i hc2
            rw [if_neg hc2]
            exact ih _ _ h

theorem namei_append (fs : FS) :
    ∀ (as bs : List String) (cur p : Path), namei fs cur as = .ok p →
      namei fs cur (as ++ bs) = namei fs p bs := by
  intro as
  induction as with
  | nil => intro bs cur p h; simp only [namei] at h; cases h; rfl
  | cons c rest ih =>
    intro bs cur p h
    rw [List.cons_append, namei_cons]
    rw [namei_cons] at h
    cases hg : fs.get cur with
    | none => rw [hg] at h; cases h
    | some nd =>
      rw [hg] at h
      cases nd with
      | file m d => cases h
      | dir =>
        simp only at h ⊢
        split at h
        · rename_i hc
          rw [if_pos hc]
          exact ih _ _ _ h
        · rename_i hc
          rw [if_neg hc]
          split at h
          · rename_i hc2
            rw [if_pos hc2]
            exact ih _ _ _ h
          · rename_i hc2
            rw [if_neg hc2]
            exact ih _ _ _ h

theorem namei_empties (fs : FS) (p : Path) (hdir : fs.get p = some .dir) :
    ∀ k : Nat, namei fs p (List.replicate k "") = .ok p := by
  intro k
  induction k with
  | zero => rfl
  | succ k ih =>
    rw [List.replicate_succ]
    rw [namei_cons, hdir]
    simp [ih]

theorem dropWhile_empty_split (l : List String) :
    ∃ k, l = List.replicate k "" ++ l.dropWhile (fun c => decide (c = "")) := by
  induction l with
  | nil => exact ⟨0, rfl⟩
  | cons c l ih =>
    by_cases hc : c = ""
    · obtain ⟨k, hk⟩ := ih
      refine ⟨k + 1, ?_⟩
      subst hc
      rw [List.dropWhile_cons_of_pos (by simp), List.replicate_succ, List.cons_append, ← hk]
    · exact ⟨0, by rw [List.dropWhile_cons_of_neg (by simp [hc])]; rfl⟩

theorem dropTrailingEmpty_split (l : List String) :
    ∃ k, l = dropTrailingEmpty l ++ List.replicate k "" := by
  obtain ⟨k, hk⟩ := dropWhile_empty_split l.reverse
  refine ⟨k, ?_⟩
  have := congrArg List.reverse hk
  rw [List.reverse_reverse, List.reverse_append, List.reverse_replicate] at this
  exact this

/-! ### The scratch directory and the download -/

theorem createAt_ok {fs fs1 : FS} {p : Path} {n : Node} (h : fs.createAt p n = .ok fs1) :
    fs.get p = none ∧ fs.get p.dropLast = some .dir ∧ fs1 = fs.set p n := by
  unfold FS.createAt at h
  cases hg : fs.get p with
  | some x => rw [hg] at h; cases h
  | none =>
    rw [hg] at h
    cases hd : fs.get p.dropLast with
    | none => rw [hd] at h; cases h
    | some x =>
      rw [hd] at h
      cases x with
      | file m d => cases h
      | dir => simp only [Except.ok.injEq] at h; exact ⟨rfl, rfl, h.symm⟩

theorem mkdir_ok {fs fs1 : FS} {s : String} (h : fs.mkdir s = .ok fs1) :
    ∃ p, namei fs (if isRooted s then [] else fs.cwd) (dropTrailingEmpty (splitSlash s)) = .ok p ∧
      fs.get p = none ∧ fs.get p.dropLast = some .dir ∧ fs1 = fs.set p .dir ∧ s ≠ "" := by
  unfold FS.mkdir at h
  by_cases hs : s = ""
  · rw [if_pos hs] at h; cases h
  · rw [if_neg hs] at h
    cases hn : namei fs (if isRooted s then [] else fs.cwd) (dropTrailingEmpty (splitSlash s)) with
    | error e => rw [hn] at h; cases h
    | ok p =>
      rw [hn] at h
      obtain ⟨h1, h2, h3⟩ := createAt_ok h
      exact ⟨p, rfl, h1, h2, h3, hs⟩

theorem set_cwd (fs : FS) (p : Path) (n : Node) : (fs.set p n).cwd = fs.cwd := rfl

theorem stat_after_mkdir {fs fs1 : FS} {s : String} (h : fs.mkdir s = .ok fs1) :
    fs1.stat s = .ok .dir := by
  obtain ⟨p, hn, hfree, _, hset, hs⟩ := mkdir_ok h
  have hp : p ≠ [] := by
    intro hp
    rw [hp, get_nil] at hfree
    cases hfree
  have hsub : fs.Sub fs1 := hset ▸ sub_set_of_free fs p .dir hfree
  have hdir : fs1.get p = some .dir := hset ▸ get_set_self fs p .dir hp
  have hcwd : fs1.cwd = fs.cwd := hset ▸ set_cwd fs p .dir
  obtain ⟨k, hk⟩ := dropTrailingEmpty_split (splitSlash s)
  have hn1 := namei_mono hsub _ _ _ hn
  have hres : fs1.resolve s = .ok p := by
    unfold FS.resolve
    rw [if_neg hs, hcwd, hk, namei_append fs1 _ _ _ _ hn1]
    exact namei_empties fs1 p hdir k
  unfold FS.stat
  rw [hres]
  simp only [hdir]

theorem tempDir_ok (dir : String) :
    ∀ (sufs : List String) (fs fs1 : FS) (td : String),
      tempDir dir fs sufs = .ok (fs1, td) →
      (∃ p, fs.get p = none ∧ fs.get p.dropLast = some .dir ∧ fs1 = fs.set p .dir) ∧
        fs1.stat td = .ok .dir := by
  intro sufs
  induction sufs with
  | nil => intro fs fs1 td h; cases h
  | cons r rs ih =>
    intro fs fs1 td h
    unfold tempDir at h
    simp only at h
    cases hm : fs.mkdir ((if dir.data.getLast? = some '/' then dir else dir ++ "/") ++ "gup" ++ r) with
    | ok fs2 =>
      rw [hm] at h
      simp only [Except.ok.injEq, Prod.mk.injEq] at h
      obtain ⟨h1, h2⟩ := h
      subst h1 h2
      obtain ⟨p, _, hfree, hpar, hset, _⟩ := mkdir_ok hm
      exact ⟨⟨p, hfree, hpar, hset⟩, stat_after_mkdir hm⟩
    | error e =>
      rw [hm] at h
      cases e <;> first | (exact ih _ _ _ h) | cases h

/-- When the scratch directory was made, the outcome of the download stage
is decided by the guard alone, and a failed download leaves the file system as
it was after the scratch directory was made. -/
theorem fetchAndStore_download (env : Env) (n : String) (fs fs1 : FS) (td : String)
    (htd : tempDir env.tmpRoot fs env.suffixes = .ok (fs1, td)) :
    ((env.http (downloadURL ++ n)).failed = true →
      fetchAndStore env n fs = .error ⟨fs1, some .download⟩) ∧
    ((env.http (downloadURL ++ n)).failed = false →
      ∀ out, fetchAndStore env n fs = .error out → out.fatal = some .store ∧ out.fs = fs1) := by
  have hstat := (tempDir_ok _ _ _ _ _ htd).2
  constructor
  · intro hf
    simp only [fetchAndStore_eq, htd, hstat, hf, if_true]
  · intro hf out hout
    simp only [fetchAndStore_eq, htd, hstat, hf] at hout
    cases hw : fs1.writeFile (td ++ "/" ++ n) (env.http (downloadURL ++ n)).body 0o644 with
    | error e =>
      rw [hw] at hout
      simp at hout
      subst hout
      exact ⟨rfl, rfl⟩
    | ok fs3 =>
      rw [hw] at hout
      simp at hout

theorem failed_iff (r : HttpResult) : r.failed = true ↔ (r.err ≠ none ∨ 400 ≤ r.sc) := by
  cases hr : r.err <;> simp [HttpResult.failed, hr]

/-! ### Version resolution and the download request -/

theorem resolveName_explicit (http : String → HttpResult) (v : String) (hv : v ≠ "latest") :
    resolveName http v = .ok ("go" ++ v ++ ".linux-amd64.tar.gz") := by
  simp [resolveName_eq, hv, linuxTar]

theorem fetchAndStore_congr (env env' : Env) (n : String) (fs : FS)
    (hroot : env.tmpRoot = env'.tmpRoot) (hsuf : env.suffixes = env'.suffixes)
    (hhttp : env.http (downloadURL ++ n) = env'.http (downloadURL ++ n)) :
    fetchAndStore env n fs = fetchAndStore env' n fs := by
  simp only [fetchAndStore_eq, hroot, hsuf, hhttp]

theorem openAndExtract_congr (env env' : Env) (td n : String) (fs : FS)
    (hdec : env.decode = env'.decode) :
    openAndExtract env td n fs = openAndExtract env' td n fs := by
  simp only [openAndExtract, hdec]

theorem namei_mono_dirs {fs fs1 : FS} (hdirs : ∀ q, fs.get q = some .dir → fs1.get q = some .dir) :
    ∀ (cs : List String) (cur p : Path), namei fs cur cs = .ok p → namei fs1 cur cs = .ok p := by
  intro cs
  induction cs with
  | nil => intro cur p h; exact h
  | cons c rest ih =>
    intro cur p h
    rw [namei_cons] at h ⊢
    cases hg : fs.get cur with
    | none => rw [hg] at h; cases h
    | some nd =>
      rw [hg] at h
      cases nd with
      | file m d => cases h
      | dir =>
        rw [hdirs cur hg]
        simp only at h ⊢
        split at h
        · rename_i hc
          rw [if_pos hc]
          exact ih _ _ h
        · rename_i hc
          rw [if_neg hc]
          split at h
          · rename_i hc2
            rw [if_pos hc2]
            exact ih _ _ h
          · rename_i hc2
            rw [if_neg hc2]
            exact ih _ _ h

/-- What `WriteFile` has written can be read back under the same name. -/
theorem readFile_after_writeFile (fs fs1 : FS) (s : String) (data : Bytes) (perm : Nat)
    (h : fs.writeFile s data perm = .ok fs1) : fs1.readFile s = .ok data := by
  unfold FS.writeFile at h
  cases hr : fs.resolve s with
  | error e => rw [hr] at h; cases h
  | ok p =>
    rw [hr] at h
    simp only at h
    have key : ∀ n : Node, fs.get p ≠ some .dir → p ≠ [] → fs1 = fs.set p n →
        fs1.resolve s = .ok p := by
      intro n hnd hp hfs1
      have hdirs : ∀ q, fs.get q = some .dir → fs1.get q = some .dir := by
        intro q hq
        have hqp : q ≠ p := fun hqp => hnd (hqp ▸ hq)
        rw [hfs1, get_set_ne fs p q n hqp]
        exact hq
      unfold FS.resolve at hr ⊢
      by_cases hs : s = ""
      · rw [if_pos hs] at hr; cases hr
      · rw [if_neg hs] at hr ⊢
        have hcwd : fs1.cwd = fs.cwd := by rw [hfs1]; rfl
        rw [hcwd]
        exact namei_mono_dirs hdirs _ _ _ hr
    cases hg : fs.get p with
    | none =>
      rw [hg] at h
      have hp : p ≠ [] := by
        intro hp; rw [hp, get_nil] at hg; cases hg
      obtain ⟨_, _, hset⟩ := createAt_ok h
      have hres := key _ (by rw [hg]; simp) hp hset
      subst hset
      simp only [FS.readFile, hres, get_set_self fs p _ hp]
    | some nd =>
      rw [hg] at h
      cases nd with
      | dir => cases h
      | file m old =>
        have hp : p ≠ [] := by
          intro hp; rw [hp, get_nil] at hg; cases hg
        simp only [Except.ok.injEq] at h
        have hres := key _ (by rw [hg]; simp) hp h.symm
        subst h
        simp only [FS.readFile, hres, get_set_self fs p _ hp]

theorem resolveNameG_logging (http : String → HttpResult) (log : List String) (wv : String) :
    resolveNameG (loggingGet http) log wv
      = (log ++ (if wv = "latest" then [latestURL] else []), resolveName http wv) := by
  rw [resolveName_eq]
  unfold resolveNameG loggingGet
  by_cases h : wv = "latest"
  · simp only [if_pos h]
    cases (http latestURL).failed <;> rfl
  · simp only [if_neg h, List.append_nil]

theorem fetchAndStoreG_logging (env : Env) (log : List String) (n : String) (fs : FS) :
    (fetchAndStoreG (loggingGet env.http) log env n fs).2 = fetchAndStore env n fs ∧
    ((∃ e, tempDir env.tmpRoot fs env.suffixes = .error e) →
      (fetchAndStoreG (loggingGet env.http) log env n fs).1 = log) ∧
    (∀ fs1 td, tempDir env.tmpRoot fs env.suffixes = .ok (fs1, td) →
      (fetchAndStoreG (loggingGet env.http) log env n fs).1 = log ++ [downloadURL ++ n]) := by
  rw [fetchAndStore_eq]
  unfold fetchAndStoreG loggingGet
  cases htd : tempDir env.tmpRoot fs env.suffixes with
  | error e =>
    refine ⟨rfl, fun _ => rfl, fun fs1 td h => by cases h⟩
  | ok r =>
    obtain ⟨fs1, td⟩ := r
    have hstat := (tempDir_ok _ _ _ _ _ htd).2
    simp only [hstat]
    refine ⟨?_, ?_, fun _ _ _ => ?_⟩
    rotate_left
    · rintro ⟨e, he⟩
      cases he
    · cases (env.http (downloadURL ++ n)).failed with
      | true => rfl
      | false =>
        simp only [Bool.false_eq_true, if_false]
        cases fs1.writeFile (td ++ "/" ++ n) (env.http (downloadURL ++ n)).body 0o644 <;> rfl
    · cases (env.http (downloadURL ++ n)).failed with
      | true => rfl
      | false =>
        simp only [Bool.false_eq_true, if_false]
        cases fs1.writeFile (td ++ "/" ++ n) (env.http (downloadURL ++ n)).body 0o644 <;> rfl

/-- The run with the requests recorded, for an explicit version. -/
theorem mainG_logging_explicit (env : Env) (v goroot : String) (fuel : Nat) (fs : FS)
    (hv : v ≠ "latest") :
    (mainG (loggingGet env.http) [] env v goroot fuel fs).2 = main env v goroot fuel fs ∧
    (mainG (loggingGet env.http) [] env v goroot fuel fs).1
      = (fetchAndStoreG (loggingGet env.http) [] env ("go" ++ v ++ linuxTar) fs).1 := by
  have hres : resolveNameG (loggingGet env.http) [] v = ([], .ok ("go" ++ v ++ linuxTar)) := by
    rw [resolveNameG_logging, resolveName_eq, if_neg hv, if_neg hv]
    rfl
  have hname : resolveName env.http v = .ok ("go" ++ v ++ linuxTar) := by
    rw [resolveName_eq, if_neg hv]
  have h2 := (fetchAndStoreG_logging env [] ("go" ++ v ++ linuxTar) fs).1
  rw [main_eq, hname]
  unfold mainG
  rw [hres]
  simp only
  rw [← h2]
  rcases fetchAndStoreG (loggingGet env.http) [] env ("go" ++ v ++ linuxTar) fs
    with ⟨net2, out | ⟨fs1, td⟩⟩
  · exact ⟨rfl, rfl⟩
  · simp only
    rcases openAndExtract env td ("go" ++ v ++ linuxTar) fs1 with ⟨fs2, _ | f⟩ <;> exact ⟨rfl, rfl⟩

/-- C1: for a version `v` other than `latest` the archive name is
`"go" ++ v ++ ".linux-amd64.tar.gz"`, whatever `v` is.  A run makes no request
before the scratch directory exists, and once it exists the one URL handed to
`fasthttp.Get` is `"https://dl.google.com/go/"` followed by that name; the bytes
stored in the scratch directory are the body answered for that URL, and the run
depends on the network through the answer for that URL alone. -/
theorem C1_explicit_version_name_and_url (v : String) (hv : v ≠ "latest") :
    (∀ http, resolveName http v = .ok ("go" ++ v ++ ".linux-amd64.tar.gz")) ∧
    (∀ (env : Env) (goroot : String) (fuel : Nat) (fs : FS),
      (mainG (loggingGet env.http) [] env v goroot fuel fs).2 = main env v goroot fuel fs ∧
      ((∃ e, tempDir env.tmpRoot fs env.suffixes = .error e) →
        mainRequests env v goroot fuel fs = []) ∧
      (∀ fs1 td, tempDir env.tmpRoot fs env.suffixes = .ok (fs1, td) →
        mainRequests env v goroot fuel fs
          = ["https://dl.google.com/go/" ++ ("go" ++ v ++ ".linux-amd64.tar.gz")])) ∧
    (∀ (env : Env) (fs fs3 : FS) (td : String),
      fetchAndStore env ("go" ++ v ++ ".linux-amd64.tar.gz") fs = .ok (fs3, td) →
      fs3.readFile (td ++ "/" ++ ("go" ++ v ++ ".linux-amd64.tar.gz"))
        = .ok (env.http
            ("https://dl.google.com/go/" ++ ("go" ++ v ++ ".linux-amd64.tar.gz"))).body) ∧
    (∀ (env env' : Env) (goroot : String) (fuel : Nat) (fs : FS),
      env.tmpRoot = env'.tmpRoot → env.suffixes = env'.suffixes → env.decode = env'.decode →
      env.http ("https://dl.google.com/go/" ++ ("go" ++ v ++ ".linux-amd64.tar.gz"))
        = env'.http ("https://dl.google.com/go/" ++ ("go" ++ v ++ ".linux-amd64.tar.gz")) →
      main env v goroot fuel fs = main env' v goroot fuel fs) := by
  refine ⟨fun http => resolveName_explicit http v hv, ?_, ?_, ?_⟩
  · intro env goroot fuel fs
    obtain ⟨hmain, hreq⟩ := mainG_logging_explicit env v goroot fuel fs hv
    obtain ⟨_, hnone, hone⟩ := fetchAndStoreG_logging env [] ("go" ++ v ++ linuxTar) fs
    refine ⟨hmain, fun he => ?_, fun fs1 td htd => ?_⟩
    · unfold mainRequests
      rw [hreq, hnone he]
    · unfold mainRequests
      rw [hreq, hone fs1 td htd]
      rfl
  · intro env fs fs3 td h
    rw [fetchAndStore_eq] at h
    cases htd : tempDir env.tmpRoot fs env.suffixes with
    | error e => rw [htd] at h; cases h
    | ok r =>
      obtain ⟨fs1, td1⟩ := r
      have hstat := (tempDir_ok _ _ _ _ _ htd).2
      rw [htd] at h
      simp only [hstat] at h
      split at h
      · cases h
      · cases hw : fs1.writeFile (td1 ++ "/" ++ ("go" ++ v ++ ".linux-amd64.tar.gz"))
            (env.http (downloadURL ++ ("go" ++ v ++ ".linux-amd64.tar.gz"))).body 0o644 with
        | error e => rw [hw] at h; cases h
        | ok fsw =>
          rw [hw] at h
          simp only [Except.ok.injEq, Prod.mk.injEq] at h
          obtain ⟨h1, h2⟩ := h
          subst h1 h2
          exact readFile_after_writeFile _ _ _ _ _ hw
  · intro env env' goroot fuel fs hroot hsuf hdec hhttp
    have hfs := fetchAndStore_congr env env' ("go" ++ v ++ ".linux-amd64.tar.gz") fs hroot hsuf hhttp
    simp only [main_eq, resolveName_explicit _ v hv, hfs]
    cases fetchAndStore env' ("go" ++ v ++ ".linux-amd64.tar.gz") fs with
    | error out => rfl
    | ok r =>
      obtain ⟨fs1, td⟩ := r
      simp only [openAndExtract_congr env env' td _ fs1 hdec]

theorem C1_witness :
    "1.21.0" ≠ "latest" ∧
    resolveName envDown404.http "1.21.0" = .ok "go1.21.0.linux-amd64.tar.gz" ∧
    mainRequests envDown404 "1.21.0" "/usr/go" 0 fsOld
      = ["https://dl.google.com/go/go1.21.0.linux-amd64.tar.gz"] :=
  have h := C1_explicit_version_name_and_url "1.21.0" (by decide)
  ⟨by decide, h.1 envDown404.http,
    (h.2.1 envDown404 "/usr/go" 0 fsOld).2.2 (fsOld.set ["tmp", "gup1"] .dir) "/tmp/gup1"
      (by decide)⟩

/-- C2: for the version `latest`, when the lookup has no transport error and a
status below 400, the archive name is the response body followed by
`".linux-amd64.tar.gz"`, the body being used as it is; the body `go1.21.0`
gives `go1.21.0.linux-amd64.tar.gz`. -/
theorem C2_latest_name_is_body_plus_suffix (http : String → HttpResult)
    (herr : (http "https://golang.org/VERSION").err = none)
    (hsc : (http "https://golang.org/VERSION").sc < 400) :
    resolveName http "latest"
        = .ok (String.mk (http "https://golang.org/VERSION").body ++ ".linux-amd64.tar.gz") ∧
    ((http "https://golang.org/VERSION").body = "go1.21.0".data →
      resolveName http "latest" = .ok "go1.21.0.linux-amd64.tar.gz") := by
  have h : resolveName http "latest"
      = .ok (String.mk (http "https://golang.org/VERSION").body ++ ".linux-amd64.tar.gz") := by
    have hnot : ¬ (400 ≤ (http "https://golang.org/VERSION").sc) := not_le.mpr hsc
    simp [resolveName_eq, latestURL, linuxTar, HttpResult.failed, herr, hnot]
  refine ⟨h, fun hb => ?_⟩
  rw [h, hb]
  rfl

theorem C2_witness :
    ((fun _ => httpOk 200 "go1.21.0") "https://golang.org/VERSION").err = none ∧
    ((fun _ => httpOk 200 "go1.21.0") "https://golang.org/VERSION").sc < 400 ∧
    resolveName (fun _ => httpOk 200 "go1.21.0") "latest" = .ok "go1.21.0.linux-amd64.tar.gz" :=
  ⟨rfl, by decide,
    (C2_latest_name_is_body_plus_suffix (fun _ => httpOk 200 "go1.21.0") rfl (by decide)).2 rfl⟩

/-- C3: each of the two requests is fatal exactly when it has a transport error
or a status of 400 or more (400 is fatal, 399 is not); and when the download
fails in this way the run ends in a fatal error with a file system that is the
initial one, or the initial one with one new empty directory (the scratch
directory): no file was written and no existing node was changed. -/
theorem C3_request_failure_is_fatal (env : Env) :
    ((∃ f, resolveName env.http "latest" = .error f) ↔
      ((env.http "https://golang.org/VERSION").err ≠ none ∨
        400 ≤ (env.http "https://golang.org/VERSION").sc)) ∧
    (∀ (n : String) (fs fs1 : FS) (td : String),
      tempDir env.tmpRoot fs env.suffixes = .ok (fs1, td) →
      ((∃ fs2, fetchAndStore env n fs = .error ⟨fs2, some .download⟩) ↔
        ((env.http ("https://dl.google.com/go/" ++ n)).err ≠ none ∨
          400 ≤ (env.http ("https://dl.google.com/go/" ++ n)).sc))) ∧
    (∀ b : String, (httpOk 400 b).failed = true ∧ (httpOk 399 b).failed = false) ∧
    (∀ (wv goroot n : String) (fuel : Nat) (fs : FS),
      resolveName env.http wv = .ok n →
      ((env.http ("https://dl.google.com/go/" ++ n)).err ≠ none ∨
          400 ≤ (env.http ("https://dl.google.com/go/" ++ n)).sc) →
      ∃ out, main env wv goroot fuel fs = some out ∧
        (out.fatal = some .tempDir ∨ out.fatal = some .download) ∧
        (out.fs = fs ∨ ∃ p, fs.get p = none ∧ out.fs = fs.set p .dir) ∧
        (∀ q m d, out.fs.get q = some (.file m d) → fs.get q = some (.file m d)) ∧
        (∀ q nd, fs.get q = some nd → out.fs.get q = some nd)) := by
  refine ⟨?_, ?_, ?_, ?_⟩
  · rw [← failed_iff]
    show (∃ f, resolveName env.http "latest" = .error f) ↔ (env.http latestURL).failed = true
    cases hf : (env.http latestURL).failed <;> simp [resolveName_eq, hf]
  · intro n fs fs1 td htd
    rw [← failed_iff]
    obtain ⟨h1, h2⟩ := fetchAndStore_download env n fs fs1 td htd
    show _ ↔ (env.http (downloadURL ++ n)).failed = true
    cases hf : (env.http (downloadURL ++ n)).failed
    · simp only [Bool.false_eq_true, iff_false, not_exists]
      intro fs2 hfs2
      have := (h2 hf _ hfs2).1
      simp at this
    · simp only [iff_true]
      exact ⟨fs1, h1 hf⟩
  · intro b
    constructor <;> simp [httpOk, HttpResult.failed]
  · intro wv goroot n fuel fs hn hcond
    have hf : (env.http (downloadURL ++ n)).failed = true := (failed_iff _).mpr hcond
    cases htd : tempDir env.tmpRoot fs env.suffixes with
    | error e =>
      refine ⟨⟨fs, some .tempDir⟩, ?_, Or.inl rfl, Or.inl rfl, fun _ _ _ h => h, fun _ _ h => h⟩
      simp only [main_eq, hn, fetchAndStore_eq, htd]
    | ok r =>
      obtain ⟨fs1, td⟩ := r
      obtain ⟨⟨p, hfree, _, hset⟩, _⟩ := tempDir_ok _ _ _ _ _ htd
      have hmain : main env wv goroot fuel fs = some ⟨fs1, some .download⟩ := by
        simp only [main_eq, hn, (fetchAndStore_download env n fs fs1 td htd).1 hf]
      refine ⟨⟨fs1, some .download⟩, hmain, Or.inr rfl, Or.inr ⟨p, hfree, hset⟩, ?_, ?_⟩
      · intro q m d hq
        simp only at hq
        rw [hset] at hq
        by_cases hqp : q = p
        · subst hqp
          by_cases hnil : q = []
          · subst hnil; rw [get_nil] at hfree; cases hfree
          · rw [get_set_self fs q .dir hnil] at hq; cases hq
        · rw [get_set_ne fs p q .dir hqp] at hq; exact hq
      · intro q nd hq
        simp only
        rw [hset]
        exact sub_set_of_free fs p .dir hfree q nd hq

theorem C3_witness :
    ∃ out, main envDown404 "1" "/usr/go" 0 fsOld = some out ∧
      (out.fatal = some .tempDir ∨ out.fatal = some .download) ∧
      (out.fs = fsOld ∨ ∃ p, fsOld.get p = none ∧ out.fs = fsOld.set p .dir) ∧
      (∀ q m d, out.fs.get q = some (.file m d) → fsOld.get q = some (.file m d)) ∧
      (∀ q nd, fsOld.get q = some nd → out.fs.get q = some nd) :=
  (C3_request_failure_is_fatal envDown404).2.2.2 "1" "/usr/go" "go1.linux-amd64.tar.gz" 0 fsOld
    (by decide) (Or.inr (by decide))

/-! ### The extraction loop: entry types and target paths -/

theorem extractEntry_other (td : String) (fs : FS) (e : Entry)
    (hd : e.header.typeflag ≠ TypeDir) (hr : e.header.typeflag ≠ TypeReg) :
    extractEntry td fs e = .ok fs := by
  simp [extractEntry, hd, hr]

theorem extractEntries_filter (td : String) :
    ∀ (es : List Entry) (fs : FS),
      extractEntries td fs (es.filter isDirOrReg) = extractEntries td fs es := by
  intro es
  induction es with
  | nil => intro fs; rfl
  | cons e es ih =>
    intro fs
    by_cases hk : isDirOrReg e = true
    · rw [List.filter_cons_of_pos hk]
      simp only [extractEntries]
      cases extractEntry td fs e with
      | error f => rfl
      | ok fs1 => exact ih fs1
    · rw [List.filter_cons_of_neg hk]
      have hd : e.header.typeflag ≠ TypeDir := fun h => hk (by simp [isDirOrReg, h])
      have hr : e.header.typeflag ≠ TypeReg := fun h => hk (by simp [isDirOrReg, h])
      simp only [extractEntries, extractEntry_other td fs e hd hr]
      exact ih fs

/-- C7: an entry that is neither a directory nor a regular file is a no-op of
the loop body (no error, same file system), the loop goes on with the entries
after it, and extracting a stream equals extracting it with all such entries
removed. -/
theorem C7_other_entry_types_are_skipped (td : String) (fs : FS) :
    (∀ e : Entry, e.header.typeflag ≠ TypeDir → e.header.typeflag ≠ TypeReg →
      extractEntry td fs e = .ok fs ∧
      ∀ es, extractEntries td fs (e :: es) = extractEntries td fs es) ∧
    (∀ ts : TarStream,
      extract td fs { ts with entries := ts.entries.filter isDirOrReg } = extract td fs ts) := by
  constructor
  · intro e hd hr
    refine ⟨extractEntry_other td fs e hd hr, fun es => ?_⟩
    simp only [extractEntries, extractEntry_other td fs e hd hr]
  · intro ts
    simp only [extract, extractEntries_filter]

theorem C7_witness :
    extractEntry "/tmp/gup1" fsScratch ⟨⟨"go/link", '2', 0o777⟩, []⟩ = .ok fsScratch ∧
    ∀ es, extractEntries "/tmp/gup1" fsScratch (⟨⟨"go/link", '2', 0o777⟩, []⟩ :: es)
      = extractEntries "/tmp/gup1" fsScratch es :=
  (C7_other_entry_types_are_skipped "/tmp/gup1" fsScratch).1 ⟨⟨"go/link", '2', 0o777⟩, []⟩
    (by decide) (by decide)

/-! ### The walk callback and errors handed to it -/

theorem replaceFirst_self (old new : List Char) : replaceFirst old new old = new := by
  cases old with
  | nil => simp [replaceFirst]
  | cons c cs => simp [replaceFirst]

theorem stringsReplace1_self (s : String) : stringsReplace1 s s "" = "" := by
  simp only [stringsReplace1, replaceFirst_self]

/-- At the walk root the callback returns nil whatever `info` and `err` are. -/
theorem installFn_root (td goroot : String) (fs : FS) (info : Option Node) (err : Option Errno) :
    installFn td goroot fs (td ++ "/go") info err = (fs, none) := by
  simp only [installFn, stringsReplace1_self, if_true]

/-- When `Lstat` of the walk root fails, `filepath.Walk` returns nil. -/
theorem filepathWalk_root_error (td goroot : String) (fuel : Nat) (fs : FS) (e : Errno)
    (h : fs.stat (td ++ "/go") = .error e) :
    filepathWalk id (installFn td goroot) fuel fs (td ++ "/go") = some (fs, none) := by
  simp only [filepathWalk, id, h, installFn_root]

theorem install_root_error (td goroot : String) (fuel : Nat) (fs fs1 fs2 : FS) (e : Errno)
    (h1 : fs.removeAll goroot = .ok fs1) (h2 : fs1.mkdir goroot = .ok fs2)
    (h : fs2.stat (td ++ "/go") = .error e) :
    install td goroot fuel fs = some ⟨fs2, none⟩ := by
  simp only [install, h1, h2, filepathWalk_root_error td goroot fuel fs2 e h]

/-- C8 (the code at the failing input): the archive holds one file `README` and
no `go` directory, so the walk root `/tmp/gup1/go` does not exist and `Lstat`
fails with `ENOENT`; the callback is called with that error, returns nil, and
the run ends without a fatal error, the installation directory `/usr/go` having
been emptied.  In general the callback's result does not depend on the error
handed to it. -/
theorem C8_walk_error_is_not_fatal :
    (main envNoGo "1" "/usr/go" 0 fsOld).map
        (fun out => (out.fatal, out.fs.stat "/tmp/gup1/go", out.fs.readDirNames "/usr/go"))
      = some (none, .error .ENOENT, .ok []) ∧
    (∀ (fs : FS) (info : Option Node),
      installFn "/tmp/gup1" "/usr/go" fs "/tmp/gup1/go" info (some .ENOENT) = (fs, none)) ∧
    (∀ (td goroot path : String) (fs : FS) (info : Option Node) (err : Option Errno),
      installFn td goroot fs path info err = installFn td goroot fs path info none) := by
  refine ⟨by decide, fun fs info => ?_, fun _ _ _ _ _ _ => rfl⟩
  exact installFn_root "/tmp/gup1" "/usr/go" fs info (some .ENOENT)

/-! ### Rendered paths: splitting, cleaning, joining, replacing -/

theorem splitChars_ne_nil (l : List Char) : splitChars l ≠ [] := by
  cases l with
  | nil => simp [splitChars]
  | cons c cs =>
    simp only [splitChars]
    split
    · simp
    · split <;> simp

theorem splitChars_slash (l : List Char) : splitChars ('/' :: l) = [] :: splitChars l := by
  simp only [splitChars]
  split
  · rename_i h; exact absurd h (splitChars_ne_nil l)
  · rename_i hd tl h; simp [h]

theorem splitChars_cons_of_ne (a : Char) (ha : a ≠ '/') (l hd : List Char)
    (tl : List (List Char)) (h : splitChars l = hd :: tl) :
    splitChars (a :: l) = (a :: hd) :: tl := by
  simp only [splitChars, h, ha, if_false]

theorem replicate_append_cons {α : Type} (a : α) (k : Nat) (l : List α) :
    List.replicate k a ++ a :: l = a :: (List.replicate k a ++ l) := by
  induction k with
  | zero => rfl
  | succ k ih => rw [List.replicate_succ, List.cons_append, ih, List.cons_append]

theorem splitChars_name (c : List Char) (hc : '/' ∉ c) (y hd : List Char)
    (tl : List (List Char)) (hy : splitChars y = hd :: tl) :
    splitChars (c ++ y) = (c ++ hd) :: tl := by
  induction c with
  | nil => simpa using hy
  | cons a c ih =>
    have ha : a ≠ '/' := fun h => hc (by simp [h])
    have hc1 : '/' ∉ c := fun h => hc (by simp [h])
    rw [List.cons_append, splitChars_cons_of_ne a ha _ _ _ (ih hc1)]
    rfl

theorem renderRel_data_cons (c : String) (cs : List String) :
    (renderRel (c :: cs)).data = '/' :: (c.data ++ (renderRel cs).data) := by
  simp [renderRel, String.data_append]

theorem splitChars_render (g : List String) (hg : ∀ c ∈ g, ValidName c) (y : List Char)
    (tl : List (List Char)) (hy : splitChars y = [] :: tl) :
    splitChars ((renderRel g).data ++ y) = [] :: (g.map String.data ++ tl) := by
  induction g with
  | nil => simpa [renderRel] using hy
  | cons c cs ih =>
    have hcs : ∀ x ∈ cs, ValidName x := fun x hx => hg x (by simp [hx])
    have hc : '/' ∉ c.data := (hg c (by simp)).2.2.2
    rw [renderRel_data_cons, List.cons_append, splitChars_slash, List.append_assoc,
      splitChars_name c.data hc _ _ _ (ih hcs)]
    simp

theorem splitChars_slashes (k : Nat) (y : List Char) :
    splitChars (List.replicate k '/' ++ y) = List.replicate k [] ++ splitChars y := by
  induction k with
  | zero => simp
  | succ k ih => rw [List.replicate_succ, List.cons_append, splitChars_slash, ih]; rfl

theorem map_mk_map_data (l : List String) : (l.map String.data).map String.mk = l := by
  induction l with
  | nil => rfl
  | cons a l ih => simp only [List.map_cons, ih]

/-- The elements of `a`, then `k` slashes, then the elements of `b`. -/
theorem splitSlash_render (a b : List String) (k : Nat) (ha : ∀ c ∈ a, ValidName c)
    (hb : ∀ c ∈ b, ValidName c) :
    splitSlash (renderRel a ++ String.mk (List.replicate k '/') ++ renderRel b)
      = "" :: (a ++ (List.replicate k "" ++ b)) := by
  have hb0 : splitChars (renderRel b).data = [] :: b.map String.data := by
    have := splitChars_render b hb [] [] (by simp [splitChars])
    simpa using this
  have h1 : splitChars (List.replicate k '/' ++ (renderRel b).data)
      = [] :: (List.replicate k [] ++ b.map String.data) := by
    rw [splitChars_slashes, hb0, replicate_append_cons]
  simp only [splitSlash, String.data_append, List.append_assoc]
  rw [splitChars_render a ha _ _ h1]
  simp only [List.map_cons, List.map_append, map_mk_map_data, List.map_replicate]

theorem cleanComps_cons_skip (rooted : Bool) (acc rest : List String) (c : String)
    (h : c = "" ∨ c = ".") :
    cleanComps rooted acc (c :: rest) = cleanComps rooted acc rest := by
  cases acc <;> simp [cleanComps, h]

theorem cleanComps_cons_name (rooted : Bool) (acc rest : List String) (c : String)
    (h : ValidName c) :
    cleanComps rooted acc (c :: rest) = cleanComps rooted (c :: acc) rest := by
  cases acc <;> simp [cleanComps, h.1, h.2.1, h.2.2.1]

theorem cleanComps_valid (rooted : Bool) (a : List String) (ha : ∀ c ∈ a, ValidName c) :
    ∀ (acc rest : List String),
      cleanComps rooted acc (a ++ rest) = cleanComps rooted (a.reverse ++ acc) rest := by
  induction a with
  | nil => intro acc rest; rfl
  | cons c cs ih =>
    intro acc rest
    have hc := ha c (by simp)
    have hcs : ∀ x ∈ cs, ValidName x := fun x hx => ha x (by simp [hx])
    rw [List.cons_append, cleanComps_cons_name rooted acc _ c hc, ih hcs]
    simp

theorem cleanComps_empties (rooted : Bool) (k : Nat) :
    ∀ (acc rest : List String),
      cleanComps rooted acc (List.replicate k "" ++ rest) = cleanComps rooted acc rest := by
  induction k with
  | zero => intro acc rest; rfl
  | succ k ih =>
    intro acc rest
    rw [List.replicate_succ, List.cons_append, cleanComps_cons_skip rooted acc _ "" (Or.inl rfl), ih]

theorem renderRel_append (a b : List String) :
    renderRel (a ++ b) = renderRel a ++ renderRel b := by
  induction a with
  | nil => apply String.ext; simp [renderRel]
  | cons c cs ih =>
    apply String.ext
    simp [renderRel, ih, String.data_append]

theorem slash_joinSlash (c : String) (cs : List String) :
    "/" ++ joinSlash (c :: cs) = renderRel (c :: cs) := by
  induction cs generalizing c with
  | nil => apply String.ext; simp [joinSlash, renderRel]
  | cons d ds ih =>
    have := ih d
    apply String.ext
    have h2 := congrArg String.data this
    simp only [joinSlash, renderRel, String.data_append] at h2 ⊢
    rw [← h2]
    simp

theorem renderRel_ne_empty (c : String) (cs : List String) : renderRel (c :: cs) ≠ "" := by
  intro h
  have := congrArg String.data h
  rw [renderRel_data_cons] at this
  cases this

/-- `filepath.Clean` on rendered elements with slashes in between. -/
theorem filepathClean_render (a b : List String) (k : Nat) (ha : ∀ c ∈ a, ValidName c)
    (hb : ∀ c ∈ b, ValidName c) (hne : a ≠ []) :
    filepathClean (renderRel a ++ String.mk (List.replicate k '/') ++ renderRel b)
      = renderRel (a ++ b) := by
  obtain ⟨c, cs, rfl⟩ := List.exists_cons_of_ne_nil hne
  have hdata : (renderRel (c :: cs) ++ String.mk (List.replicate k '/') ++ renderRel b).data
      = '/' :: (c.data ++ (renderRel cs).data ++ List.replicate k '/' ++ (renderRel b).data) := by
    simp [String.data_append, renderRel_data_cons]
  have hs : renderRel (c :: cs) ++ String.mk (List.replicate k '/') ++ renderRel b ≠ "" := by
    intro h
    have := congrArg String.data h
    rw [hdata] at this
    cases this
  have hr : isRooted (renderRel (c :: cs) ++ String.mk (List.replicate k '/') ++ renderRel b)
      = true := by
    simp [isRooted, hdata]
  have hcomps : cleanComps true []
      (splitSlash (renderRel (c :: cs) ++ String.mk (List.replicate k '/') ++ renderRel b))
        = (c :: cs) ++ b := by
    rw [splitSlash_render (c :: cs) b k ha hb, cleanComps_cons_skip true [] _ "" (Or.inl rfl),
      cleanComps_valid true (c :: cs) ha, cleanComps_empties,
      ← List.append_nil b, cleanComps_valid true b hb]
    simp [cleanComps]
  simp only [filepathClean, if_neg hs, hr, hcomps, if_true]
  rw [List.cons_append, slash_joinSlash, if_neg (renderRel_ne_empty _ _)]

theorem replaceFirst_head (old x : List Char) : replaceFirst old [] (old ++ x) = x := by
  cases h : old ++ x with
  | nil =>
    have h1 : old = [] := (List.append_eq_nil.mp h).1
    have h2 : x = [] := (List.append_eq_nil.mp h).2
    simp [replaceFirst, h1, h2]
  | cons c cs =>
    have hp : old.isPrefixOf (c :: cs) = true := by
      rw [← h]; simp
    simp only [replaceFirst, hp, if_true, List.nil_append]
    rw [← h]
    simp

theorem renderRel_eq_empty (r : List String) : renderRel r = "" ↔ r = [] := by
  cases r with
  | nil => simp [renderRel]
  | cons c cs => simp [renderRel_ne_empty]

theorem render_go (tdc : List String) : renderRel tdc ++ "/go" = renderRel (tdc ++ ["go"]) := by
  rw [renderRel_append]
  apply String.ext
  simp [renderRel, String.data_append]

/-- The child path that `filepath.walk` builds with `Join(path, name)`. -/
theorem join_child (p : List String) (n : String) (hp : ∀ c ∈ p, ValidName c) (hne : p ≠ [])
    (hn : ValidName n) :
    filepathJoin [renderRel p, n] = renderRel (p ++ [n]) := by
  obtain ⟨c, cs, rfl⟩ := List.exists_cons_of_ne_nil hne
  have h := filepathClean_render (c :: cs) [n] 0 hp (by simpa using hn) (by simp)
  have hs : renderRel (c :: cs) ++ "/" ++ n
      = renderRel (c :: cs) ++ String.mk (List.replicate 0 '/') ++ renderRel [n] := by
    apply String.ext
    simp [renderRel, String.data_append]
  simp only [filepathJoin, if_neg (renderRel_ne_empty c cs), joinSlash, hs, h]

/-- The relative path computed by the callback. -/
theorem replace_src (src r : List String) :
    stringsReplace1 (renderRel (src ++ r)) (renderRel src) "" = renderRel r := by
  simp only [stringsReplace1, renderRel_append, String.data_append]
  rw [replaceFirst_head]

/-- The destination path computed by the callback. -/
theorem join_goroot (g r : List String) (hg : ∀ c ∈ g, ValidName c) (hne : g ≠ [])
    (hr : ∀ c ∈ r, ValidName c) :
    filepathJoin [renderRel g ++ "/", renderRel r] = renderRel (g ++ r) := by
  have h := filepathClean_render g r 2 hg hr hne
  have hs : renderRel g ++ "/" ++ "/" ++ renderRel r
      = renderRel g ++ String.mk (List.replicate 2 '/') ++ renderRel r := by
    apply String.ext
    simp [String.data_append, List.replicate]
  have h0 : renderRel g ++ "/" ≠ "" := by
    intro h0
    have := congrArg String.data h0
    simp [String.data_append] at this
  simp only [filepathJoin, if_neg h0, joinSlash, hs, h]

/-- The source path computed by the callback. -/
theorem join_src (p r : List String) (hp : ∀ c ∈ p, ValidName c) (hne : p ≠ [])
    (hr : ∀ c ∈ r, ValidName c) :
    filepathJoin [renderRel p, renderRel r] = renderRel (p ++ r) := by
  obtain ⟨c, cs, rfl⟩ := List.exists_cons_of_ne_nil hne
  have h := filepathClean_render (c :: cs) r 1 hp hr (by simp)
  have hs : renderRel (c :: cs) ++ "/" ++ renderRel r
      = renderRel (c :: cs) ++ String.mk (List.replicate 1 '/') ++ renderRel r := by
    apply String.ext
    simp [String.data_append, List.replicate]
  simp only [filepathJoin, if_neg (renderRel_ne_empty c cs), joinSlash, hs, h]

/-! ### System calls on rendered paths -/

theorem namei_names (fs : FS) (p : List String) (hp : ∀ c ∈ p, ValidName c) :
    ∀ cur : Path, (∀ q, q <+: p → q ≠ p → fs.get (cur ++ q) = some .dir) →
      namei fs cur p = .ok (cur ++ p) := by
  induction p with
  | nil => intro cur _; simp [namei]
  | cons c cs ih =>
    intro cur h
    have hc := hp c (by simp)
    have hcs : ∀ x ∈ cs, ValidName x := fun x hx => hp x (by simp [hx])
    have h0 : fs.get cur = some .dir := by
      have := h [] (by simp) (by simp)
      simpa using this
    have h1 : ¬ (c = "" ∨ c = ".") := fun h => h.elim hc.1 hc.2.1
    rw [namei_cons, h0]
    simp only [if_neg h1, if_neg hc.2.2.1]
    rw [ih hcs (cur ++ [c])]
    · simp
    · intro q hq hne
      have := h (c :: q) (by simpa using hq) (by simpa using hne)
      simpa using this

theorem splitSlash_renderRel (p : List String) (hp : ∀ c ∈ p, ValidName c) :
    splitSlash (renderRel p) = "" :: p := by
  have h := splitSlash_render p [] 0 hp (by simp)
  have hs : renderRel p ++ String.mk (List.replicate 0 '/') ++ renderRel [] = renderRel p := by
    apply String.ext
    simp [String.data_append, renderRel]
  rw [hs] at h
  simpa using h

theorem isRooted_render (c : String) (cs : List String) : isRooted (renderRel (c :: cs)) = true := by
  simp [isRooted, renderRel_data_cons]

theorem resolve_render (fs : FS) (p : List String) (hp : ∀ c ∈ p, ValidName c) (hne : p ≠ [])
    (hd : fs.DirsAbove p) : fs.resolve (renderRel p) = .ok p := by
  obtain ⟨c, cs, rfl⟩ := List.exists_cons_of_ne_nil hne
  simp only [FS.resolve, if_neg (renderRel_ne_empty c cs), isRooted_render, if_true,
    splitSlash_renderRel _ hp]
  rw [namei_cons, get_nil]
  simp only [true_or, if_true]
  have := namei_names fs (c :: cs) hp [] (by simpa using hd)
  simpa using this

theorem dropTrailingEmpty_render (p : List String) (hp : ∀ c ∈ p, ValidName c) (hne : p ≠ []) :
    dropTrailingEmpty ("" :: p) = "" :: p := by
  have hlast : p.getLast hne ≠ "" := (hp _ (List.getLast_mem hne)).1
  have hrev : p.reverse = p.getLast hne :: p.dropLast.reverse := by
    conv_lhs => rw [← List.dropLast_append_getLast hne]
    simp
  simp only [dropTrailingEmpty, List.reverse_cons, hrev, List.cons_append]
  rw [List.dropWhile_cons_of_neg (by simpa using hlast)]
  simp
  have := List.dropLast_append_getLast hne
  exact this

theorem mkdir_render (fs : FS) (p : List String) (hp : ∀ c ∈ p, ValidName c) (hne : p ≠ [])
    (hd : fs.DirsAbove p) : fs.mkdir (renderRel p) = fs.createAt p .dir := by
  obtain ⟨c, cs, rfl⟩ := List.exists_cons_of_ne_nil hne
  simp only [FS.mkdir, if_neg (renderRel_ne_empty c cs), isRooted_render, if_true,
    splitSlash_renderRel _ hp, dropTrailingEmpty_render _ hp hne]
  rw [namei_cons, get_nil]
  simp only [true_or, if_true]
  have := namei_names fs (c :: cs) hp [] (by simpa using hd)
  simp only [List.nil_append] at this
  rw [this]

/-! ### Directory listings -/

theorem mem_insertSorted (n x : String) (l : List String) :
    x ∈ insertSorted n l ↔ x = n ∨ x ∈ l := by
  induction l with
  | nil => simp [insertSorted]
  | cons m ms ih =>
    simp only [insertSorted]
    split
    · simp
    · simp only [List.mem_cons, ih]
      tauto

theorem nodup_insertSorted (n : String) (l : List String) (hn : n ∉ l) (hl : l.Nodup) :
    (insertSorted n l).Nodup := by
  induction l with
  | nil => simp [insertSorted]
  | cons m ms ih =>
    simp only [insertSorted]
    split
    · exact List.nodup_cons.mpr ⟨hn, hl⟩
    · have hm : m ∉ ms := (List.nodup_cons.mp hl).1
      have hms : ms.Nodup := (List.nodup_cons.mp hl).2
      have hn1 : n ∉ ms := fun h => hn (by simp [h])
      have hne : m ≠ n := fun h => hn (by simp [h])
      refine List.nodup_cons.mpr ⟨?_, ih hn1 hms⟩
      rw [mem_insertSorted]
      exact fun h => h.elim hne hm

theorem mem_insertName (n x : String) (l : List String) :
    x ∈ insertName n l ↔ x = n ∨ x ∈ l := by
  unfold insertName
  split
  · rename_i h
    constructor
    · exact Or.inr
    · intro hx
      rcases hx with rfl | hx
      · exact h
      · exact hx
  · exact mem_insertSorted n x l

theorem nodup_insertName (n : String) (l : List String) (hl : l.Nodup) :
    (insertName n l).Nodup := by
  unfold insertName
  split
  · exact hl
  · rename_i h; exact nodup_insertSorted n l h hl

theorem lookupNode_ne_none (q : Path) (l : List (Path × Node)) :
    lookupNode q l ≠ none ↔ ∃ e ∈ l, e.1 = q := by
  induction l with
  | nil => simp [lookupNode]
  | cons e l ih =>
    obtain ⟨k, n⟩ := e
    by_cases hk : k = q
    · simp [lookupNode, hk]
    · simp [lookupNode, hk, ih]

theorem last_parent_iff (q p : Path) (n : String) :
    (q.getLast? = some n ∧ q.dropLast = p) ↔ q = p ++ [n] := by
  constructor
  · rintro ⟨h1, h2⟩
    have hne : q ≠ [] := by
      intro h; rw [h] at h1; cases h1
    have h3 := List.dropLast_append_getLast hne
    rw [List.getLast?_eq_getLast q hne] at h1
    simp only [Option.some.injEq] at h1
    rw [← h3, h1, h2]
  · rintro rfl
    simp

theorem mem_childNames (p : Path) (n : String) (l : List (Path × Node)) :
    n ∈ childNames p l ↔ lookupNode (p ++ [n]) l ≠ none := by
  rw [lookupNode_ne_none]
  induction l with
  | nil => simp [childNames]
  | cons e l ih =>
    obtain ⟨q, nd⟩ := e
    simp only [childNames, List.mem_cons, exists_eq_or_imp]
    cases hq : q.getLast? with
    | none =>
      have hne : ¬ q = p ++ [n] := by
        intro h; rw [h] at hq; simp at hq
      simp only [ih, hne, false_or]
    | some m =>
      simp only
      by_cases hp : q.dropLast = p
      · rw [if_pos hp, mem_insertName, ih]
        have hqm : q = p ++ [m] := (last_parent_iff q p m).mp ⟨hq, hp⟩
        constructor
        · rintro (h | h)
          · left; rw [hqm, h]
          · right; exact h
        · rintro (h | h)
          · left
            rw [hqm] at h
            have := List.append_cancel_left h
            simp only [List.cons.injEq, and_true] at this
            exact this.symm
          · right; exact h
      · rw [if_neg hp, ih]
        have hne : ¬ q = p ++ [n] := by
          intro h; apply hp; rw [h]; simp
        simp only [hne, false_or]

theorem nodup_childNames (p : Path) (l : List (Path × Node)) : (childNames p l).Nodup := by
  induction l with
  | nil => simp [childNames]
  | cons e l ih =>
    obtain ⟨q, nd⟩ := e
    simp only [childNames]
    split
    · exact ih
    · split
      · exact nodup_insertName _ _ ih
      · exact ih

theorem get_append_singleton (fs : FS) (p : Path) (n : String) :
    fs.get (p ++ [n]) = lookupNode (p ++ [n]) fs.nodes := by
  simp [FS.get]

theorem mem_children (fs : FS) (p : Path) (n : String) :
    n ∈ childNames p fs.nodes ↔ fs.get (p ++ [n]) ≠ none := by
  rw [get_append_singleton, mem_childNames]

/-! ### The walker: fuel and logging -/

theorem walkNames_mono {σ : Type} (fsOf : σ → FS) (fn : WalkFunc σ)
    (rec rec1 : σ → String → Node → Option (σ × Option WalkErr))
    (hrec : ∀ st p i x, rec st p i = some x → rec1 st p i = some x) (path : String) :
    ∀ (ns : List String) (st : σ) (x : σ × Option WalkErr),
      walkNames fsOf fn rec path st ns = some x → walkNames fsOf fn rec1 path st ns = some x := by
  intro ns
  induction ns with
  | nil => intro st x h; exact h
  | cons n rest ih =>
    intro st x h
    simp only [walkNames] at h ⊢
    cases hs : (fsOf st).stat (filepathJoin [path, n]) with
    | error e =>
      rw [hs] at h
      simp only at h ⊢
      rcases hf : fn st (filepathJoin [path, n]) none (some e) with ⟨st1, _ | err⟩
      · rw [hf] at h; simp only at h ⊢; exact ih _ _ h
      · rw [hf] at h; exact h
    | ok info =>
      rw [hs] at h
      simp only at h ⊢
      cases hr : rec st (filepathJoin [path, n]) info with
      | none => rw [hr] at h; cases h
      | some y =>
        rw [hr] at h
        rw [hrec _ _ _ _ hr]
        obtain ⟨st1, _ | err⟩ := y
        · simp only at h ⊢; exact ih _ _ h
        · exact h

theorem walk_mono {σ : Type} (fsOf : σ → FS) (fn : WalkFunc σ) :
    ∀ (fuel : Nat) (st : σ) (path : String) (info : Node) (x : σ × Option WalkErr),
      walk fsOf fn fuel st path info = some x → walk fsOf fn (fuel + 1) st path info = some x := by
  intro fuel
  induction fuel with
  | zero => intro st path info x h; cases h
  | succ fuel ih =>
    intro st path info x h
    rw [walk] at h ⊢
    split at h
    · rename_i hd; rw [if_pos hd]; exact h
    · rename_i hd
      rw [if_neg hd]
      cases hn : (fsOf st).readDirNames path with
      | error e => rw [hn] at h; exact h
      | ok names =>
        rw [hn] at h
        simp only at h ⊢
        rcases hf : fn st path (some info) none with ⟨st1, _ | err⟩
        · rw [hf] at h
          simp only at h ⊢
          exact walkNames_mono fsOf fn _ _ ih path names st1 x h
        · rw [hf] at h; exact h

theorem walk_mono_le {σ : Type} (fsOf : σ → FS) (fn : WalkFunc σ) (fuel fuel1 : Nat)
    (hle : fuel ≤ fuel1) (st : σ) (path : String) (info : Node) (x : σ × Option WalkErr)
    (h : walk fsOf fn fuel st path info = some x) :
    walk fsOf fn fuel1 st path info = some x := by
  induction fuel1 with
  | zero =>
    have : fuel = 0 := Nat.le_zero.mp hle
    subst this; exact h
  | succ k ih =>
    rcases Nat.lt_or_ge k fuel with hk | hk
    · have : fuel = k + 1 := by omega
      subst this; exact h
    · exact walk_mono fsOf fn k st path info x (ih hk)

/-- Drop the log from a result of the logging walker. -/
theorem walkNames_logged (fn : WalkFunc FS)
    (rec : FS × List Call → String → Node → Option ((FS × List Call) × Option WalkErr))
    (rec0 : FS → String → Node → Option (FS × Option WalkErr))
    (hrec : ∀ st p i, (rec st p i).map dropLog = rec0 st.1 p i) (path : String) :
    ∀ (ns : List String) (st : FS × List Call),
      (walkNames Prod.fst (logged fn) rec path st ns).map dropLog
        = walkNames id fn rec0 path st.1 ns := by
  intro ns
  induction ns with
  | nil => intro st; rfl
  | cons n rest ih =>
    intro st
    simp only [walkNames, id]
    cases hs : st.1.stat (filepathJoin [path, n]) with
    | error e =>
      simp only [logged]
      rcases hf : fn st.1 (filepathJoin [path, n]) none (some e) with ⟨st1, _ | err⟩
      · simp only; exact ih _
      · rfl
    | ok info =>
      simp only
      have h := hrec st (filepathJoin [path, n]) info
      cases hr : rec st (filepathJoin [path, n]) info with
      | none => rw [hr] at h; rw [← h]; rfl
      | some y =>
        rw [hr] at h
        rw [← h]
        obtain ⟨st1, _ | err⟩ := y
        · simp only [Option.map, dropLog]; exact ih _
        · rfl

theorem walk_logged (fn : WalkFunc FS) :
    ∀ (fuel : Nat) (st : FS × List Call) (path : String) (info : Node),
      (walk Prod.fst (logged fn) fuel st path info).map dropLog = walk id fn fuel st.1 path info := by
  intro fuel
  induction fuel with
  | zero => intro st path info; rfl
  | succ fuel ih =>
    intro st path info
    rw [walk, walk]
    by_cases hd : (!info.isDir) = true
    · rw [if_pos hd, if_pos hd]; rfl
    · rw [if_neg hd, if_neg hd]
      simp only [id]
      cases hn : st.1.readDirNames path with
      | error e => rfl
      | ok names =>
        simp only [logged]
        rcases hf : fn st.1 path (some info) none with ⟨st1, _ | err⟩
        · simp only
          exact walkNames_logged fn _ _ ih path names _
        · rfl

theorem filepathWalk_logged (fn : WalkFunc FS) (fuel : Nat) (st : FS × List Call)
    (root : String) :
    (filepathWalk Prod.fst (logged fn) fuel st root).map dropLog
      = filepathWalk id fn fuel st.1 root := by
  simp only [filepathWalk, id]
  cases hs : st.1.stat root with
  | error e => rfl
  | ok info => exact walk_logged fn fuel st root info

/-! ### The callback on a walked path -/

theorem dirsAbove_parent (fs : FS) (p : Path) (hne : p ≠ []) (hd : fs.DirsAbove p) :
    fs.get p.dropLast = some .dir := by
  apply hd
  · exact List.dropLast_prefix p
  · intro h
    have := congrArg List.length h
    rw [List.length_dropLast] at this
    have : 0 < p.length := List.length_pos.mpr hne
    omega

theorem createAt_free (fs : FS) (p : Path) (n : Node) (hne : p ≠ []) (hd : fs.DirsAbove p)
    (hfree : fs.get p = none) : fs.createAt p n = .ok (fs.set p n) := by
  simp only [FS.createAt, hfree, dirsAbove_parent fs p hne hd]

theorem readFile_render (fs : FS) (p : List String) (hp : ∀ c ∈ p, ValidName c) (hne : p ≠ [])
    (hd : fs.DirsAbove p) (m : Nat) (d : Bytes) (hg : fs.get p = some (.file m d)) :
    fs.readFile (renderRel p) = .ok d := by
  simp only [FS.readFile, resolve_render fs p hp hne hd, hg]

theorem writeFile_render (fs : FS) (p : List String) (hp : ∀ c ∈ p, ValidName c) (hne : p ≠ [])
    (hd : fs.DirsAbove p) (hfree : fs.get p = none) (d : Bytes) (perm : Nat) :
    fs.writeFile (renderRel p) d perm = .ok (fs.set p (.file (fileMode fs.umask perm) d)) := by
  simp only [FS.writeFile, resolve_render fs p hp hne hd, hfree, createAt_free fs p _ hne hd hfree]

theorem stat_render (fs : FS) (p : List String) (hp : ∀ c ∈ p, ValidName c) (hne : p ≠ [])
    (hd : fs.DirsAbove p) (n : Node) (hg : fs.get p = some n) :
    fs.stat (renderRel p) = .ok n := by
  simp only [FS.stat, resolve_render fs p hp hne hd, hg]

theorem readDirNames_render (fs : FS) (p : List String) (hp : ∀ c ∈ p, ValidName c)
    (hne : p ≠ []) (hd : fs.DirsAbove p) (hg : fs.get p = some .dir) :
    fs.readDirNames (renderRel p) = .ok (childNames p fs.nodes) := by
  simp only [FS.readDirNames, resolve_render fs p hp hne hd, hg]

theorem valid_append {a b : List String} (ha : ∀ c ∈ a, ValidName c) (hb : ∀ c ∈ b, ValidName c) :
    ∀ c ∈ a ++ b, ValidName c := by
  intro c hc
  rcases List.mem_append.mp hc with h | h
  · exact ha c h
  · exact hb c h

theorem valid_go : ValidName "go" := by
  refine ⟨by decide, by decide, by decide, by decide⟩

theorem valid_src {tdc : List String} (h : ∀ c ∈ tdc, ValidName c) :
    ∀ c ∈ tdc ++ ["go"], ValidName c :=
  valid_append h (by intro c hc; rw [List.mem_singleton.mp hc]; exact valid_go)

/-- The callback on a regular file of the source tree. -/
theorem installFn_file (tdc g r : List String) (st : FS) (m : Nat) (d : Bytes)
    (htd : ∀ c ∈ tdc, ValidName c) (hg : ∀ c ∈ g, ValidName c) (hgne : g ≠ [])
    (hr : ∀ c ∈ r, ValidName c) (hrne : r ≠ [])
    (hsa : st.DirsAbove (tdc ++ ["go"] ++ r)) (hsf : st.get (tdc ++ ["go"] ++ r) = some (.file m d))
    (hda : st.DirsAbove (g ++ r)) (hfree : st.get (g ++ r) = none) :
    installFn (renderRel tdc) (renderRel g) st (renderRel (tdc ++ ["go"] ++ r))
        (some (.file m d)) none
      = (st.set (g ++ r) (.file (fileMode st.umask 0o777) d), none) := by
  have hrel : ¬ renderRel r = "" := fun h => hrne ((renderRel_eq_empty r).mp h)
  have hsrc := valid_src htd
  simp only [installFn, render_go, replace_src, if_neg hrel, Node.isDir,
    join_src _ r hsrc (by simp) hr, join_goroot g r hg hgne hr,
    readFile_render st _ (valid_append hsrc hr) (by simp) hsa m d hsf,
    writeFile_render st _ (valid_append hg hr) (by simp [hgne]) hda hfree]
  rfl

/-- The callback on a directory of the source tree. -/
theorem installFn_dir (tdc g r : List String) (st : FS)
    (hg : ∀ c ∈ g, ValidName c) (hgne : g ≠ [])
    (hr : ∀ c ∈ r, ValidName c) (hrne : r ≠ [])
    (hda : st.DirsAbove (g ++ r)) (hfree : st.get (g ++ r) = none) :
    installFn (renderRel tdc) (renderRel g) st (renderRel (tdc ++ ["go"] ++ r)) (some .dir) none
      = (st.set (g ++ r) .dir, none) := by
  have hrel : ¬ renderRel r = "" := fun h => hrne ((renderRel_eq_empty r).mp h)
  simp only [installFn, render_go, replace_src, if_neg hrel, Node.isDir,
    join_goroot g r hg hgne hr,
    mkdir_render st _ (valid_append hg hr) (by simp [hgne]) hda,
    createAt_free st _ _ (by simp [hgne]) hda hfree]
  rfl

/-! ### The source tree -/

theorem prefix_append_cases {α : Type} {q a b : List α} (h : q <+: a ++ b) :
    (q <+: a ∧ q ≠ a) ∨ ∃ t, q = a ++ t ∧ t <+: b := by
  rcases List.prefix_or_prefix_of_prefix h (List.prefix_append a b) with h1 | h1
  · by_cases hq : q = a
    · right; exact ⟨[], by simp [hq], List.nil_prefix⟩
    · left; exact ⟨h1, hq⟩
  · obtain ⟨t, rfl⟩ := h1
    right
    exact ⟨t, rfl, (List.prefix_append_right_inj a).mp h⟩

theorem src_not_under {tdc g : Path} {base : FS} (ctx : WalkCtx tdc g base) (s : List String) :
    ¬ g <+: tdc ++ ["go"] ++ s := by
  intro h
  rcases List.prefix_or_prefix_of_prefix h (List.prefix_append (tdc ++ ["go"]) s) with h1 | h1
  · exact ctx.not_in h1
  · exact ctx.not_over h1

theorem above_src_not_under {tdc g : Path} {base : FS} (ctx : WalkCtx tdc g base) (q : Path)
    (hq : q <+: tdc ++ ["go"]) : ¬ g <+: q :=
  fun h => ctx.not_in (h.trans hq)

theorem tree_dirs {tdc g : Path} {base : FS} (ctx : WalkCtx tdc g base) :
    ∀ s : List String, base.get (tdc ++ ["go"] ++ s) ≠ none →
      (∀ c ∈ s, ValidName c) ∧
      ∀ t, t <+: s → t ≠ s → base.get (tdc ++ ["go"] ++ t) = some .dir := by
  intro s
  induction s using List.reverseRecOn with
  | nil =>
    intro _
    refine ⟨by simp, fun t ht hne => ?_⟩
    exact absurd (List.prefix_nil.mp ht) hne
  | append_singleton s n ih =>
    intro h
    rw [← List.append_assoc] at h
    obtain ⟨hdir, hn⟩ := ctx.src_tree s n h
    have hex : base.get (tdc ++ ["go"] ++ s) ≠ none := by rw [hdir]; simp
    obtain ⟨hv, hpre⟩ := ih hex
    refine ⟨valid_append hv (by intro c hc; rw [List.mem_singleton.mp hc]; exact hn), ?_⟩
    intro t ht hne
    rcases List.prefix_concat_iff.mp ht with h1 | h1
    · exact absurd h1 hne
    · by_cases hts : t = s
      · rw [hts]; exact hdir
      · exact hpre t h1 hts

/-- The ancestors of a node of the source tree are directories. -/
theorem tree_above {tdc g : Path} {base : FS} (ctx : WalkCtx tdc g base) (s : List String)
    (h : base.get (tdc ++ ["go"] ++ s) ≠ none) : base.DirsAbove (tdc ++ ["go"] ++ s) := by
  intro q hq hne
  rcases prefix_append_cases hq with ⟨h1, h2⟩ | ⟨t, rfl, ht⟩
  · exact ctx.src_above q h1 h2
  · by_cases hts : t = s
    · exact absurd (by rw [hts]) hne
    · exact (tree_dirs ctx s h).2 t ht hts

/-- Below a missing node or a regular file of the source tree there is nothing. -/
theorem tree_below {tdc g : Path} {base : FS} (ctx : WalkCtx tdc g base) (s t : List String)
    (ht : t ≠ []) (h : base.get (tdc ++ ["go"] ++ s) ≠ some .dir) :
    base.get (tdc ++ ["go"] ++ s ++ t) = none := by
  by_contra hex
  rw [List.append_assoc] at hex
  have := (tree_dirs ctx (s ++ t) hex).2 s (List.prefix_append s t) (by
    intro heq
    have := congrArg List.length heq
    rw [List.length_append] at this
    have : 0 < t.length := List.length_pos.mpr ht
    omega)
  exact h this

/-- A state that differs from the base only below `g` has the source tree and
its ancestors as they are in the base. -/
theorem frame_above_src {tdc g : Path} {base st : FS} (ctx : WalkCtx tdc g base)
    (hframe : ∀ q, ¬ g <+: q → st.get q = base.get q) (s : List String)
    (h : base.get (tdc ++ ["go"] ++ s) ≠ none) : st.DirsAbove (tdc ++ ["go"] ++ s) := by
  intro q hq hne
  have hng : ¬ g <+: q := by
    intro hg
    exact src_not_under ctx s (hg.trans hq)
  rw [hframe q hng]
  exact tree_above ctx s h q hq hne

/-! ### The walk copies the tree -/

theorem not_prefix_of_shorter {α : Type} {a q : List α} (h : q.length < a.length) : ¬ a <+: q := by
  intro hp
  have := hp.length_le
  omega

theorem child_disjoint {α : Type} (p : List α) (n m : α) (s : List α) (h : n ≠ m) :
    ¬ (p ++ [n]) <+: p ++ [m] ++ s := by
  intro hp
  rw [List.append_assoc, List.prefix_append_right_inj] at hp
  simp only [List.singleton_append, List.prefix_cons_iff] at hp
  rcases hp with hp | ⟨t, ht, _⟩
  · cases hp
  · simp only [List.cons.injEq] at ht
    exact h ht.1

theorem dirsAbove_child (st : FS) (p : Path) (n : String) (ha : st.DirsAbove p)
    (hd : st.get p = some .dir) : st.DirsAbove (p ++ [n]) := by
  intro q hq hne
  rcases List.prefix_concat_iff.mp hq with h1 | h1
  · exact absurd h1 hne
  · by_cases hqp : q = p
    · rw [hqp]; exact hd
    · exact ha q h1 hqp

/-- The loop over the names of a directory, when the walk of each child meets
`NodeSpec`. -/
theorem loop_spec {tdc g : Path} {base : FS} (ctx : WalkCtx tdc g base) (fuel : Nat)
    (hnode : NodeSpec tdc g base fuel) (r : List String)
    (hrex : base.get (tdc ++ ["go"] ++ r) = some .dir)
    (hbound : ∀ n s, base.get (tdc ++ ["go"] ++ r ++ [n] ++ s) ≠ none → s.length < fuel) :
    ∀ (ns : List String) (st : FS) (log : List Call), ns.Nodup →
      (∀ n ∈ ns, base.get (tdc ++ ["go"] ++ r ++ [n]) ≠ none) →
      (∀ q, ¬ g <+: q → st.get q = base.get q) → st.umask = base.umask →
      st.DirsAbove (g ++ r) → st.get (g ++ r) = some .dir →
      (∀ n ∈ ns, ∀ s, st.get (g ++ r ++ [n] ++ s) = none) →
      ∃ st1 log1,
        walkNames Prod.fst (logged (installFn (renderRel tdc) (renderRel g)))
            (walk Prod.fst (logged (installFn (renderRel tdc) (renderRel g))) fuel)
            (renderRel (tdc ++ ["go"] ++ r)) (st, log) ns
          = some ((st1, log ++ log1), none) ∧
        (∀ q, (∀ n ∈ ns, ¬ (g ++ r ++ [n]) <+: q) → st1.get q = st.get q) ∧
        st1.umask = base.umask ∧
        (∀ n ∈ ns, ∀ s, st1.get (g ++ r ++ [n] ++ s)
          = (base.get (tdc ++ ["go"] ++ r ++ [n] ++ s)).map (copyNode base.umask)) ∧
        ∀ c ∈ log1, CallOK tdc g base c := by
  have hvr : ∀ c ∈ r, ValidName c := (tree_dirs ctx r (by rw [hrex]; simp)).1
  intro ns
  induction ns with
  | nil =>
    intro st log _ _ _ hum _ _ _
    exact ⟨st, [], by simp [walkNames], fun _ _ => rfl, hum, by simp, by simp⟩
  | cons n rest ih =>
    intro st log hnd hex hframe hum habove hdir hempty
    have hn_ex : base.get (tdc ++ ["go"] ++ r ++ [n]) ≠ none := hex n (by simp)
    obtain ⟨nd, hnd_eq⟩ := Option.ne_none_iff_exists'.mp hn_ex
    have hvn : ValidName n := (ctx.src_tree r n hn_ex).2
    have hfile : filepathJoin [renderRel (tdc ++ ["go"] ++ r), n]
        = renderRel (tdc ++ ["go"] ++ (r ++ [n])) := by
      rw [join_child _ n (valid_append (valid_src ctx.td_valid) hvr) (by simp) hvn,
        List.append_assoc]
    have hnd_eq1 : base.get (tdc ++ ["go"] ++ (r ++ [n])) = some nd := by
      rw [← List.append_assoc]; exact hnd_eq
    have hstat : st.stat (renderRel (tdc ++ ["go"] ++ (r ++ [n]))) = .ok nd := by
      apply stat_render st _ (valid_append (valid_src ctx.td_valid)
        (valid_append hvr (by intro c hc; rw [List.mem_singleton.mp hc]; exact hvn))) (by simp)
      · exact frame_above_src ctx hframe (r ++ [n]) (by rw [hnd_eq1]; simp)
      · rw [hframe _ (src_not_under ctx (r ++ [n]))]; exact hnd_eq1
    obtain ⟨st1, log1, hwalk, hout, hum1, hcopy, hlog⟩ := hnode (r ++ [n]) nd st log (by simp)
      (valid_append hvr (by intro c hc; rw [List.mem_singleton.mp hc]; exact hvn)) hnd_eq1
      (by
        intro s hs
        apply hbound n s
        rw [List.append_assoc (tdc ++ ["go"]) r [n]]; exact hs)
      hframe hum
      (by rw [← List.append_assoc]; exact dirsAbove_child st (g ++ r) n habove hdir)
      (by
        intro s
        rw [← List.append_assoc g r [n]]
        exact hempty n (by simp) s)
    rw [← List.append_assoc g r [n]] at hout hcopy
    rw [← List.append_assoc (tdc ++ ["go"]) r [n]] at hcopy
    have hn_rest : n ∉ rest := (List.nodup_cons.mp hnd).1
    obtain ⟨st2, log2, hwalk2, hout2, hum2, hcopy2, hlog2⟩ := ih st1 (log ++ log1)
      (List.nodup_cons.mp hnd).2 (fun m hm => hex m (by simp [hm]))
      (by
        intro q hq
        rw [hout q (fun h => hq ((List.prefix_append g (r ++ [n])).trans
          (by rw [← List.append_assoc]; exact h)))]
        exact hframe q hq)
      hum1
      (by
        intro q hq hne
        rw [hout q (not_prefix_of_shorter (by
          have := hq.length_le
          simp only [List.length_append, List.length_singleton] at this ⊢
          omega))]
        exact habove q hq hne)
      (by
        rw [hout _ (not_prefix_of_shorter (by simp))]
        exact hdir)
      (by
        intro m hm s
        have hmn : n ≠ m := fun h => hn_rest (h ▸ hm)
        rw [hout _ (child_disjoint (g ++ r) n m s hmn)]
        exact hempty m (by simp [hm]) s)
    refine ⟨st2, log1 ++ log2, ?_, ?_, hum2, ?_, ?_⟩
    · simp only [walkNames, hfile, hstat, hwalk]
      rw [hwalk2, List.append_assoc]
    · intro q hq
      rw [hout2 q (fun m hm => hq m (by simp [hm])), hout q (hq n (by simp))]
    · intro m hm s
      rcases List.mem_cons.mp hm with rfl | hm1
      · rw [hout2 _ (fun k hk => child_disjoint (g ++ r) k m s (fun h => hn_rest (h ▸ hk)))]
        exact hcopy s
      · exact hcopy2 m hm1 s
    · intro c hc
      rcases List.mem_append.mp hc with h | h
      · exact hlog c h
      · exact hlog2 c h

theorem callOK_of {tdc g : Path} {base : FS} (ctx : WalkCtx tdc g base) (r : List String)
    (hvr : ∀ c ∈ r, ValidName c) (nd : Node)
    (hnd : base.get (tdc ++ ["go"] ++ r) = some nd) (st : FS)
    (hda : st.DirsAbove (g ++ r)) (hfree : st.get (g ++ r) = none)
    (hfn : (installFn (renderRel tdc) (renderRel g) st (renderRel (tdc ++ ["go"] ++ r))
      (some nd) none).2 = none) :
    CallOK tdc g base ⟨renderRel (tdc ++ ["go"] ++ r), some nd, st⟩ := by
  refine ⟨r, rfl, hnd.symm, by simp, fun _ => ⟨?_, ?_, ?_, ?_, ?_, hfree, hfn⟩⟩
  · simp only [render_go, replace_src]
  · simp only [render_go]
    exact join_src _ r (valid_src ctx.td_valid) (by simp) hvr
  · exact join_goroot g r ctx.g_valid ctx.g_ne hvr
  · exact resolve_render st _ (valid_append ctx.g_valid hvr) (by simp [ctx.g_ne]) hda
  · exact dirsAbove_parent st _ (by simp [ctx.g_ne]) hda

theorem prefix_antisymm {α : Type} {a b : List α} (h1 : a <+: b) (h2 : b <+: a) : a = b :=
  h1.eq_of_length_le h2.length_le

theorem ne_of_not_pre {α : Type} {a q : List α} (h : ¬ a <+: q) : q ≠ a :=
  fun hq => h (hq ▸ List.prefix_refl q)

theorem node_spec_file {tdc g : Path} {base : FS} (ctx : WalkCtx tdc g base) (fuel : Nat)
    (r : List String) (m : Nat) (d : Bytes) (st : FS) (log : List Call)
    (hrne : r ≠ []) (hvr : ∀ c ∈ r, ValidName c)
    (hnd : base.get (tdc ++ ["go"] ++ r) = some (.file m d))
    (hframe : ∀ q, ¬ g <+: q → st.get q = base.get q) (hum : st.umask = base.umask)
    (habove : st.DirsAbove (g ++ r)) (hempty : ∀ s, st.get (g ++ r ++ s) = none) :
    ∃ st1 log1,
      walk Prod.fst (logged (installFn (renderRel tdc) (renderRel g))) (fuel + 1) (st, log)
          (renderRel (tdc ++ ["go"] ++ r)) (.file m d) = some ((st1, log ++ log1), none) ∧
      (∀ q, ¬ (g ++ r) <+: q → st1.get q = st.get q) ∧ st1.umask = base.umask ∧
      (∀ s, st1.get (g ++ r ++ s)
        = (base.get (tdc ++ ["go"] ++ r ++ s)).map (copyNode base.umask)) ∧
      ∀ c ∈ log1, CallOK tdc g base c := by
  have hfree : st.get (g ++ r) = none := by simpa using hempty []
  have hsa : st.DirsAbove (tdc ++ ["go"] ++ r) :=
    frame_above_src ctx hframe r (by rw [hnd]; simp)
  have hsf : st.get (tdc ++ ["go"] ++ r) = some (.file m d) := by
    rw [hframe _ (src_not_under ctx r)]; exact hnd
  have hfn := installFn_file tdc g r st m d ctx.td_valid ctx.g_valid ctx.g_ne hvr hrne hsa hsf
    habove hfree
  have hgr : g ++ r ≠ [] := by simp [ctx.g_ne]
  refine ⟨st.set (g ++ r) (.file (fileMode st.umask 0o777) d),
    [⟨renderRel (tdc ++ ["go"] ++ r), some (.file m d), st⟩], ?_, ?_, hum, ?_, ?_⟩
  · rw [walk]
    simp only [Node.isDir, Bool.not_false, if_true, logged, hfn]
  · intro q hq
    exact get_set_ne st _ q _ (ne_of_not_pre hq)
  · intro s
    by_cases hs : s = []
    · subst hs
      simp only [List.append_nil, get_set_self st _ _ hgr, hnd, Option.map, copyNode, hum]
    · rw [get_set_ne st _ _ _ (by simpa using hs), hempty s,
        tree_below ctx r s hs (by rw [hnd]; simp)]
      rfl
  · intro c hc
    rw [List.mem_singleton.mp hc]
    exact callOK_of ctx r hvr _ hnd st habove hfree (by rw [hfn])

theorem node_spec_dir {tdc g : Path} {base : FS} (ctx : WalkCtx tdc g base) (fuel : Nat)
    (hnode : NodeSpec tdc g base fuel)
    (r : List String) (st : FS) (log : List Call)
    (hrne : r ≠ []) (hvr : ∀ c ∈ r, ValidName c)
    (hnd : base.get (tdc ++ ["go"] ++ r) = some .dir)
    (hbound : ∀ s, base.get (tdc ++ ["go"] ++ r ++ s) ≠ none → s.length < fuel + 1)
    (hframe : ∀ q, ¬ g <+: q → st.get q = base.get q) (hum : st.umask = base.umask)
    (habove : st.DirsAbove (g ++ r)) (hempty : ∀ s, st.get (g ++ r ++ s) = none) :
    ∃ st1 log1,
      walk Prod.fst (logged (installFn (renderRel tdc) (renderRel g))) (fuel + 1) (st, log)
          (renderRel (tdc ++ ["go"] ++ r)) .dir = some ((st1, log ++ log1), none) ∧
      (∀ q, ¬ (g ++ r) <+: q → st1.get q = st.get q) ∧ st1.umask = base.umask ∧
      (∀ s, st1.get (g ++ r ++ s)
        = (base.get (tdc ++ ["go"] ++ r ++ s)).map (copyNode base.umask)) ∧
      ∀ c ∈ log1, CallOK tdc g base c := by
  have hfree : st.get (g ++ r) = none := by simpa using hempty []
  have hsa : st.DirsAbove (tdc ++ ["go"] ++ r) :=
    frame_above_src ctx hframe r (by rw [hnd]; simp)
  have hsd : st.get (tdc ++ ["go"] ++ r) = some .dir := by
    rw [hframe _ (src_not_under ctx r)]; exact hnd
  have hfn := installFn_dir tdc g r st ctx.g_valid ctx.g_ne hvr hrne habove hfree
  have hgr : g ++ r ≠ [] := by simp [ctx.g_ne]
  have hnames := readDirNames_render st _ (valid_append (valid_src ctx.td_valid) hvr) (by simp)
    hsa hsd
  have hchild : ∀ n, n ∈ childNames (tdc ++ ["go"] ++ r) st.nodes ↔
      base.get (tdc ++ ["go"] ++ r ++ [n]) ≠ none := by
    intro n
    rw [mem_children, hframe _ (by
      rw [List.append_assoc]; exact src_not_under ctx (r ++ [n]))]
  obtain ⟨st2, log2, hwalk2, hout2, hum2, hcopy2, hlog2⟩ :=
    loop_spec ctx fuel hnode r hnd
      (by
        intro n s hs
        have := hbound ([n] ++ s) (by
          rw [← List.append_assoc]; exact hs)
        simp only [List.length_append, List.length_singleton] at this
        omega)
      (childNames (tdc ++ ["go"] ++ r) st.nodes) (st.set (g ++ r) .dir)
      (log ++ [⟨renderRel (tdc ++ ["go"] ++ r), some .dir, st⟩])
      (nodup_childNames _ _) (fun n hn => (hchild n).mp hn)
      (by
        intro q hq
        rw [get_set_ne st _ q _ (ne_of_not_pre (fun h => hq ((List.prefix_append g r).trans h)))]
        exact hframe q hq)
      hum
      (by
        intro q hq hne
        rw [get_set_ne st _ q _ hne]
        exact habove q hq hne)
      (get_set_self st _ _ hgr)
      (by
        intro n _ s
        rw [get_set_ne st _ _ _ (by simp), List.append_assoc]
        exact hempty ([n] ++ s))
  refine ⟨st2, [⟨renderRel (tdc ++ ["go"] ++ r), some .dir, st⟩] ++ log2, ?_, ?_, hum2, ?_, ?_⟩
  · rw [walk]
    simp only [Node.isDir, Bool.not_true, Bool.false_eq_true, if_false, hnames, logged, hfn]
    rw [hwalk2, List.append_assoc]
  · intro q hq
    rw [hout2 q (fun n _ h => hq ((List.prefix_append (g ++ r) [n]).trans h))]
    exact get_set_ne st _ q _ (ne_of_not_pre hq)
  · intro s
    cases s with
    | nil =>
      rw [List.append_nil, List.append_nil,
        hout2 _ (fun n _ => not_prefix_of_shorter (by simp)), get_set_self st _ _ hgr, hnd]
      rfl
    | cons n s1 =>
      have e1 : g ++ r ++ n :: s1 = g ++ r ++ [n] ++ s1 := by simp
      have e2 : tdc ++ ["go"] ++ r ++ n :: s1 = tdc ++ ["go"] ++ r ++ [n] ++ s1 := by simp
      rw [e1, e2]
      by_cases hn : n ∈ childNames (tdc ++ ["go"] ++ r) st.nodes
      · exact hcopy2 n hn s1
      · have hnone : base.get (tdc ++ ["go"] ++ r ++ [n]) = none := by
          by_contra h
          exact hn ((hchild n).mpr h)
        have hbase : base.get (tdc ++ ["go"] ++ r ++ [n] ++ s1) = none := by
          by_cases hs1 : s1 = []
          · rw [hs1, List.append_nil]; exact hnone
          · have := tree_below ctx (r ++ [n]) s1 hs1 (by
              rw [← List.append_assoc, hnone]; simp)
            rw [← List.append_assoc] at this
            exact this
        rw [hbase, hout2 _ (fun k hk => child_disjoint (g ++ r) k n s1 (fun h => hn (h ▸ hk))),
          get_set_ne st _ _ _ (by simp), List.append_assoc]
        rw [hempty ([n] ++ s1)]
        rfl
  · intro c hc
    rcases List.mem_append.mp hc with h | h
    · rw [List.mem_singleton.mp h]
      exact callOK_of ctx r hvr _ hnd st habove hfree (by rw [hfn])
    · exact hlog2 c h

/-- With fuel above the depth of the subtree, the walk of a node of the source
tree copies the subtree. -/
theorem node_spec {tdc g : Path} {base : FS} (ctx : WalkCtx tdc g base) :
    ∀ fuel, NodeSpec tdc g base fuel := by
  intro fuel
  induction fuel with
  | zero =>
    intro r nd st log _ _ hnd hbound _ _ _ _
    have := hbound [] (by rw [List.append_nil, hnd]; simp)
    simp at this
  | succ fuel ih =>
    intro r nd st log hrne hvr hnd hbound hframe hum habove hempty
    cases nd with
    | dir =>
      exact node_spec_dir ctx fuel ih r st log hrne hvr hnd hbound hframe hum habove hempty
    | file m d =>
      exact node_spec_file ctx fuel r m d st log hrne hvr hnd hframe hum habove hempty

/-! ### Removing and recreating the installation directory -/

theorem namei_names_inv (fs : FS) (p : List String) (hp : ∀ c ∈ p, ValidName c) :
    ∀ (cur x : Path), namei fs cur p = .ok x →
      x = cur ++ p ∧ ∀ q, q <+: p → q ≠ p → fs.get (cur ++ q) = some .dir := by
  induction p with
  | nil =>
    intro cur x h
    simp only [namei, Except.ok.injEq] at h
    refine ⟨by simp [h], fun q hq hne => absurd (List.prefix_nil.mp hq) hne⟩
  | cons c cs ih =>
    intro cur x h
    have hc := hp c (by simp)
    have hcs : ∀ y ∈ cs, ValidName y := fun y hy => hp y (by simp [hy])
    have h1 : ¬ (c = "" ∨ c = ".") := fun h => h.elim hc.1 hc.2.1
    rw [namei_cons] at h
    cases hg : fs.get cur with
    | none => rw [hg] at h; cases h
    | some nd =>
      rw [hg] at h
      cases nd with
      | file m d => cases h
      | dir =>
        simp only [if_neg h1, if_neg hc.2.2.1] at h
        obtain ⟨hx, hq⟩ := ih hcs _ _ h
        refine ⟨by simp [hx], ?_⟩
        intro q hq1 hne
        rcases List.prefix_cons_iff.mp hq1 with rfl | ⟨t, rfl, ht⟩
        · simpa using hg
        · have := hq t ht (by simpa using hne)
          simpa using this

theorem lookupNode_filter_below (g q : Path) (l : List (Path × Node)) :
    lookupNode q (l.filter (fun e => !(g.isPrefixOf e.1)))
      = if g <+: q then none else lookupNode q l := by
  induction l with
  | nil => simp [lookupNode]
  | cons e l ih =>
    obtain ⟨k, n⟩ := e
    by_cases hk : g <+: k
    · have hk1 : g.isPrefixOf k = true := List.isPrefixOf_iff_prefix.mpr hk
      rw [List.filter_cons_of_neg (by simp [hk1]), ih]
      by_cases hq : g <+: q
      · simp [hq]
      · have hkq : ¬ k = q := fun h => hq (h ▸ hk)
        simp [hq, lookupNode, hkq]
    · have hk1 : ¬ g.isPrefixOf k = true := fun h => hk (List.isPrefixOf_iff_prefix.mp h)
      rw [List.filter_cons_of_pos (by simp [hk1])]
      by_cases hkq : k = q
      · subst hkq
        simp [lookupNode, hk]
      · simp only [lookupNode, hkq, if_false, ih]

theorem get_removeTree (fs : FS) (g q : Path) (hg : g ≠ []) :
    (fs.removeTree g).get q = if g <+: q then none else fs.get q := by
  by_cases hq : q = []
  · subst hq
    have : ¬ g <+: [] := fun h => hg (List.prefix_nil.mp h)
    simp [FS.get, this]
  · simp only [FS.get, FS.removeTree, hq, if_false, lookupNode_filter_below]

theorem endsWithDot_render (g : List String) (hg : ∀ c ∈ g, ValidName c) (hne : g ≠ []) :
    endsWithDot (renderRel g) = false := by
  have hlast := hg _ (List.getLast_mem hne)
  have hsplit : renderRel g = renderRel g.dropLast ++ renderRel [g.getLast hne] := by
    rw [← renderRel_append, List.dropLast_append_getLast hne]
  have hdata : (renderRel g).data.reverse
      = (g.getLast hne).data.reverse ++ '/' :: (renderRel g.dropLast).data.reverse := by
    rw [hsplit]
    simp [String.data_append, renderRel]
  unfold endsWithDot
  rw [hdata]
  rcases hrev : (g.getLast hne).data.reverse with _ | ⟨a, _ | ⟨b, rest⟩⟩
  · exfalso
    apply hlast.1
    apply String.ext
    simpa using hrev
  · by_cases ha : a = '.'
    · exfalso
      apply hlast.2.1
      apply String.ext
      have := congrArg List.reverse hrev
      simpa [ha] using this
    · simp only [List.singleton_append]
      split
      · rename_i h; simp at h
      · rename_i h; simp only [List.cons.injEq] at h; exact absurd h.1 ha
      · rfl
  · have hb : b ≠ '/' := by
      intro hb
      apply hlast.2.2.2
      have : b ∈ (g.getLast hne).data.reverse := by rw [hrev]; simp
      rw [hb] at this
      simpa using this
    simp only [List.cons_append]
    split
    · rename_i h; simp at h
    · rename_i h
      simp only [List.cons.injEq] at h
      exact absurd h.2.1 hb
    · rfl

theorem mkdir_render_inv (fs fs1 : FS) (g : List String) (hg : ∀ c ∈ g, ValidName c)
    (hne : g ≠ []) (h : fs.mkdir (renderRel g) = .ok fs1) :
    fs.DirsAbove g ∧ fs.get g = none ∧ fs1 = fs.set g .dir := by
  obtain ⟨p, hn, hfree, _, hset, _⟩ := mkdir_ok h
  obtain ⟨c, cs, rfl⟩ := List.exists_cons_of_ne_nil hne
  rw [isRooted_render, if_pos rfl, splitSlash_renderRel _ hg, dropTrailingEmpty_render _ hg hne,
    namei_cons, get_nil] at hn
  simp only [true_or, if_true] at hn
  obtain ⟨hp, habove⟩ := namei_names_inv fs (c :: cs) hg [] p hn
  simp only [List.nil_append] at hp habove
  subst hp
  exact ⟨habove, hfree, hset⟩

theorem getLast_split_render (g : List String) (hg : ∀ c ∈ g, ValidName c) (hne : g ≠ []) :
    (dropTrailingEmpty (splitSlash (renderRel g))).getLast? ≠ some ".." := by
  rw [splitSlash_renderRel _ hg, dropTrailingEmpty_render _ hg hne]
  obtain ⟨c, cs, rfl⟩ := List.exists_cons_of_ne_nil hne
  rw [List.getLast?_cons_cons, List.getLast?_eq_getLast _ (by simp)]
  intro h
  simp only [Option.some.injEq] at h
  exact (hg _ (List.getLast_mem (by simp))).2.2.1 h

theorem removeAll_render (fs : FS) (g : List String) (hg : ∀ c ∈ g, ValidName c)
    (hne : g ≠ []) (hd : fs.DirsAbove g) :
    fs.removeAll (renderRel g) = .ok (fs.removeTree g) := by
  obtain ⟨c, cs, rfl⟩ := List.exists_cons_of_ne_nil hne
  have hno : ¬ (c :: cs = [] ∨
      (dropTrailingEmpty (splitSlash (renderRel (c :: cs)))).getLast? = some "..") :=
    fun h => h.elim hne (getLast_split_render _ hg hne)
  simp only [FS.removeAll, if_neg (renderRel_ne_empty c cs), endsWithDot_render _ hg hne,
    Bool.false_eq_true, if_false, resolve_render fs _ hg hne hd, if_neg hno]

theorem removeAll_render_inv (fs fs1 : FS) (g : List String) (hg : ∀ c ∈ g, ValidName c)
    (hne : g ≠ []) (h : fs.removeAll (renderRel g) = .ok fs1) :
    fs1 = fs ∨ (fs.DirsAbove g ∧ fs1 = fs.removeTree g) := by
  obtain ⟨c, cs, rfl⟩ := List.exists_cons_of_ne_nil hne
  have hno : ¬ (c :: cs = [] ∨
      (dropTrailingEmpty (splitSlash (renderRel (c :: cs)))).getLast? = some "..") :=
    fun h => h.elim hne (getLast_split_render _ hg hne)
  simp only [FS.removeAll, if_neg (renderRel_ne_empty c cs), endsWithDot_render _ hg hne,
    Bool.false_eq_true, if_false] at h
  cases hr : fs.resolve (renderRel (c :: cs)) with
  | error e =>
    rw [hr] at h
    cases e <;> simp at h
    exact Or.inl h.symm
  | ok p =>
    have hr1 := hr
    simp only [FS.resolve, if_neg (renderRel_ne_empty c cs), isRooted_render, if_true,
      splitSlash_renderRel _ hg] at hr1
    rw [namei_cons, get_nil] at hr1
    simp only [true_or, if_true] at hr1
    obtain ⟨hp, habove⟩ := namei_names_inv fs (c :: cs) hg [] p hr1
    simp only [List.nil_append] at hp habove
    subst hp
    rw [hr] at h
    simp only [if_neg hno, Except.ok.injEq] at h
    exact Or.inr ⟨habove, h.symm⟩

/-- The two steps before the walk: the file system handed to the walk is the
initial one with everything at and below `goroot` removed and `goroot` made
anew as an empty directory. -/
theorem install_steps (fs fs1 fs2 : FS) (g : List String) (hg : ∀ c ∈ g, ValidName c)
    (hne : g ≠ []) (h1 : fs.removeAll (renderRel g) = .ok fs1)
    (h2 : fs1.mkdir (renderRel g) = .ok fs2) :
    fs.DirsAbove g ∧ fs2 = (fs.removeTree g).set g .dir := by
  obtain ⟨habove1, hfree1, hset⟩ := mkdir_render_inv fs1 fs2 g hg hne h2
  rcases removeAll_render_inv fs fs1 g hg hne h1 with h | ⟨habove, h⟩
  · subst h
    have := removeAll_render fs1 g hg hne habove1
    rw [h1] at this
    simp only [Except.ok.injEq] at this
    refine ⟨habove1, ?_⟩
    rw [hset]
    rw [← this]
  · subst h
    exact ⟨habove, hset⟩

theorem base_get_outside (fs : FS) (g q : Path) (hne : g ≠ []) (hq : ¬ g <+: q) :
    ((fs.removeTree g).set g .dir).get q = fs.get q := by
  rw [get_set_ne _ _ _ _ (ne_of_not_pre hq), get_removeTree fs g q hne, if_neg hq]

theorem base_get_root (fs : FS) (g : Path) (hne : g ≠ []) :
    ((fs.removeTree g).set g .dir).get g = some .dir :=
  get_set_self _ _ _ hne

theorem base_get_below (fs : FS) (g s : Path) (hne : g ≠ []) (hs : s ≠ []) :
    ((fs.removeTree g).set g .dir).get (g ++ s) = none := by
  rw [get_set_ne _ _ _ _ (by simpa using hs), get_removeTree fs g _ hne,
    if_pos (List.prefix_append g s)]

/-! ### Well-formed file systems and the depth of a tree -/

theorem wf_above (fs : FS) (hwf : fs.WF) :
    ∀ p : Path, fs.get p ≠ none → fs.DirsAbove p ∧ ∀ c ∈ p, ValidName c := by
  intro p
  induction p using List.reverseRecOn with
  | nil =>
    intro _
    exact ⟨fun q hq hne => absurd (List.prefix_nil.mp hq) hne, by simp⟩
  | append_singleton p n ih =>
    intro h
    obtain ⟨hdir, hn⟩ := hwf p n h
    obtain ⟨habove, hv⟩ := ih (by rw [hdir]; simp)
    exact ⟨dirsAbove_child fs p n habove hdir,
      valid_append hv (by intro c hc; rw [List.mem_singleton.mp hc]; exact hn)⟩

theorem foldr_max_ge (l : List Nat) (x : Nat) (hx : x ∈ l) : x ≤ l.foldr max 0 := by
  induction l with
  | nil => cases hx
  | cons a l ih =>
    simp only [List.foldr_cons]
    rcases List.mem_cons.mp hx with rfl | h
    · exact Nat.le_max_left _ _
    · exact (ih h).trans (Nat.le_max_right _ _)

theorem depthBound_spec (fs : FS) (q : Path) (h : fs.get q ≠ none) : q.length < depthBound fs := by
  unfold depthBound
  by_cases hq : q = []
  · subst hq; simp
  · simp only [FS.get, hq, if_false] at h
    obtain ⟨e, he, heq⟩ := (lookupNode_ne_none q fs.nodes).mp h
    have : q.length ≤ (fs.nodes.map (fun e => e.1.length)).foldr max 0 :=
      foldr_max_ge _ _ (List.mem_map.mpr ⟨e, he, by rw [heq]⟩)
    omega

/-- The walk context holds in a well-formed file system. -/
theorem ctx_wf (fs : FS) (tdc g : Path) (hwf : fs.WF) (hg : ∀ c ∈ g, ValidName c)
    (hin : ¬ g <+: tdc ++ ["go"]) (hover : ¬ (tdc ++ ["go"]) <+: g)
    (hsrc : fs.get (tdc ++ ["go"]) = some .dir) :
    WalkCtx tdc g fs := by
  obtain ⟨habove, hv⟩ := wf_above fs hwf (tdc ++ ["go"]) (by rw [hsrc]; simp)
  exact
    { td_valid := fun c hc => hv c (by simp [hc])
      g_valid := hg
      g_ne := fun h => hin (h ▸ List.nil_prefix)
      not_in := hin
      not_over := hover
      src_dir := hsrc
      src_above := habove
      src_tree := fun s n h => hwf _ n h }

theorem wf_of_check (fs : FS) (h : wfCheck fs = true) : fs.WF := by
  intro p n hex
  simp only [FS.get, List.append_eq_nil, List.cons_ne_self, and_false, if_false] at hex
  obtain ⟨e, he, heq⟩ := (lookupNode_ne_none _ _).mp hex
  have := List.all_eq_true.mp h e he
  rw [heq] at this
  simpa using this

/-! ### The whole walk -/

/-- The walk from the root `td/go`, with the installation directory empty and
fuel above the depth of the tree: it succeeds, changes nothing outside
`goroot`, leaves in `goroot` the copy of the tree, and every call of the
callback is as it should be. -/
theorem walk_root_spec {tdc g : Path} {base : FS} (ctx : WalkCtx tdc g base) (fuel : Nat)
    (hbound : ∀ s, base.get (tdc ++ ["go"] ++ s) ≠ none → s.length < fuel)
    (hgdir : base.get g = some .dir) (hgabove : base.DirsAbove g)
    (hgempty : ∀ s, s ≠ [] → base.get (g ++ s) = none) :
    ∃ st1 log1,
      walkLogged (renderRel tdc) (renderRel g) fuel base = some ((st1, log1), none) ∧
      (∀ q, ¬ g <+: q → st1.get q = base.get q) ∧ st1.umask = base.umask ∧
      (∀ s, st1.get (g ++ s) = (base.get (tdc ++ ["go"] ++ s)).map (copyNode base.umask)) ∧
      ∀ c ∈ log1, CallOK tdc g base c := by
  have hvs := valid_src ctx.td_valid
  have hstat : base.stat (renderRel tdc ++ "/go") = .ok .dir := by
    rw [render_go]
    exact stat_render base _ hvs (by simp) ctx.src_above _ ctx.src_dir
  have hnames : base.readDirNames (renderRel tdc ++ "/go")
      = .ok (childNames (tdc ++ ["go"]) base.nodes) := by
    rw [render_go]
    exact readDirNames_render base _ hvs (by simp) ctx.src_above ctx.src_dir
  obtain ⟨k, rfl⟩ : ∃ k, fuel = k + 1 := by
    have := hbound [] (by rw [List.append_nil, ctx.src_dir]; simp)
    exact ⟨fuel - 1, by simp at this; omega⟩
  have hchild : ∀ n, n ∈ childNames (tdc ++ ["go"]) base.nodes ↔
      base.get (tdc ++ ["go"] ++ [n]) ≠ none := fun n => mem_children base _ n
  obtain ⟨st2, log2, hwalk2, hout2, hum2, hcopy2, hlog2⟩ :=
    loop_spec ctx k (node_spec ctx k) [] (by rw [List.append_nil]; exact ctx.src_dir)
      (by
        intro n s hs
        have := hbound ([n] ++ s) (by
          rw [List.append_nil] at hs
          rw [← List.append_assoc]; exact hs)
        simp only [List.length_append, List.length_singleton] at this
        omega)
      (childNames (tdc ++ ["go"]) base.nodes) base
      [⟨renderRel tdc ++ "/go", some .dir, base⟩]
      (nodup_childNames _ _)
      (fun n hn => by rw [List.append_nil]; exact (hchild n).mp hn)
      (fun _ _ => rfl) rfl
      (by rw [List.append_nil]; exact hgabove)
      (by rw [List.append_nil]; exact hgdir)
      (by
        intro n _ s
        rw [List.append_nil, List.append_assoc]
        exact hgempty _ (by simp))
  simp only [List.append_nil] at hwalk2 hout2 hcopy2
  refine ⟨st2, [⟨renderRel tdc ++ "/go", some .dir, base⟩] ++ log2, ?_, ?_, hum2, ?_, ?_⟩
  · simp only [walkLogged, filepathWalk, hstat]
    rw [walk]
    simp only [Node.isDir, Bool.not_true, Bool.false_eq_true, if_false, hnames, logged,
      installFn_root, List.nil_append]
    rw [← render_go] at hwalk2
    exact hwalk2
  · intro q hq
    exact hout2 q (fun n _ h => hq ((List.prefix_append g [n]).trans h))
  · intro s
    cases s with
    | nil =>
      rw [List.append_nil, List.append_nil,
        hout2 _ (fun n _ => not_prefix_of_shorter (by simp)), hgdir, ctx.src_dir]
      rfl
    | cons n s1 =>
      have e1 : g ++ n :: s1 = g ++ [n] ++ s1 := by simp
      have e2 : tdc ++ ["go"] ++ n :: s1 = tdc ++ ["go"] ++ [n] ++ s1 := by simp
      by_cases hn : n ∈ childNames (tdc ++ ["go"]) base.nodes
      · rw [e1, e2]; exact hcopy2 n hn s1
      · have hnone : base.get (tdc ++ ["go"] ++ [n]) = none := by
          by_contra h
          exact hn ((hchild n).mpr h)
        have hbase : base.get (tdc ++ ["go"] ++ [n] ++ s1) = none := by
          by_cases hs1 : s1 = []
          · rw [hs1, List.append_nil]; exact hnone
          · exact tree_below ctx [n] s1 hs1 (by rw [hnone]; simp)
        rw [e2, hbase, e1,
          hout2 _ (fun k hk => child_disjoint g k n s1 (fun h => hn (h ▸ hk))),
          ← e1, hgempty _ (by simp)]
        rfl
  · intro c hc
    rcases List.mem_append.mp hc with h | h
    · rw [List.mem_singleton.mp h]
      exact ⟨[], by rw [List.append_nil, render_go], by rw [List.append_nil, ctx.src_dir],
        by simp, fun h => absurd rfl h⟩
    · exact hlog2 c h

/-! ### The installer -/

theorem ctx_frame {tdc g : Path} {a b : FS} (ctx : WalkCtx tdc g a)
    (hframe : ∀ q, ¬ g <+: q → b.get q = a.get q) : WalkCtx tdc g b := by
  refine
    { td_valid := ctx.td_valid
      g_valid := ctx.g_valid
      g_ne := ctx.g_ne
      not_in := ctx.not_in
      not_over := ctx.not_over
      src_dir := ?_
      src_above := ?_
      src_tree := ?_ }
  · rw [hframe _ ctx.not_in]; exact ctx.src_dir
  · intro q hq hne
    rw [hframe _ (above_src_not_under ctx q hq)]
    exact ctx.src_above q hq hne
  · intro s n h
    have e : tdc ++ ["go"] ++ s ++ [n] = tdc ++ ["go"] ++ (s ++ [n]) := by simp
    rw [e, hframe _ (src_not_under ctx (s ++ [n])), ← e] at h
    rw [hframe _ (src_not_under ctx s)]
    exact ctx.src_tree s n h

theorem filepathWalk_mono_le {σ : Type} (fsOf : σ → FS) (fn : WalkFunc σ) (fuel fuel1 : Nat)
    (hle : fuel ≤ fuel1) (st : σ) (root : String) (x : σ × Option WalkErr)
    (h : filepathWalk fsOf fn fuel st root = some x) :
    filepathWalk fsOf fn fuel1 st root = some x := by
  unfold filepathWalk at h ⊢
  cases hs : (fsOf st).stat root with
  | error e => rw [hs] at h; exact h
  | ok info =>
    rw [hs] at h
    exact walk_mono_le fsOf fn fuel fuel1 hle st root info x h

/-- With enough fuel the walk of the installer succeeds on the file system in
which `goroot` was just recreated, and copies the tree. -/
theorem installWalk_total {tdc g : Path} {fs : FS} (ctx : WalkCtx tdc g fs)
    (hgabove : fs.DirsAbove g) (fuel : Nat)
    (hfuel : depthBound ((fs.removeTree g).set g .dir) ≤ fuel) :
    ∃ st1 log1,
      walkLogged (renderRel tdc) (renderRel g) fuel ((fs.removeTree g).set g .dir)
        = some ((st1, log1), none) ∧
      filepathWalk id (installFn (renderRel tdc) (renderRel g)) fuel
        ((fs.removeTree g).set g .dir) (renderRel tdc ++ "/go") = some (st1, none) ∧
      (∀ q, ¬ g <+: q → st1.get q = fs.get q) ∧ st1.umask = fs.umask ∧
      (∀ s, st1.get (g ++ s) = (fs.get (tdc ++ ["go"] ++ s)).map (copyNode fs.umask)) ∧
      ∀ c ∈ log1, CallOK tdc g ((fs.removeTree g).set g .dir) c := by
  have hne := ctx.g_ne
  have hframe : ∀ q, ¬ g <+: q → ((fs.removeTree g).set g .dir).get q = fs.get q :=
    fun q hq => base_get_outside fs g q hne hq
  have ctx1 : WalkCtx tdc g ((fs.removeTree g).set g .dir) := ctx_frame ctx hframe
  obtain ⟨st1, log1, hwalk, hout, hum, hcopy, hlog⟩ := walk_root_spec ctx1 fuel
    (by
      intro s hs
      have := depthBound_spec _ _ hs
      simp only [List.length_append] at this
      omega)
    (base_get_root fs g hne)
    (by
      intro q hq hneq
      rw [hframe q (fun h => hneq (prefix_antisymm hq h))]
      exact hgabove q hq hneq)
    (fun s hs => base_get_below fs g s hne hs)
  refine ⟨st1, log1, hwalk, ?_, ?_, hum, ?_, hlog⟩
  · have := filepathWalk_logged (installFn (renderRel tdc) (renderRel g)) fuel
      ((fs.removeTree g).set g .dir, []) (renderRel tdc ++ "/go")
    rw [← this]
    unfold walkLogged at hwalk
    rw [hwalk]
    rfl
  · intro q hq
    rw [hout q hq, hframe q hq]
  · intro s
    rw [hcopy s, hframe _ (src_not_under ctx s)]
    rfl

/-- Total correctness of the installer: with enough fuel it ends without a
fatal error, changes nothing outside `goroot`, and `goroot` holds the copy of
the tree. -/
theorem install_total {tdc g : Path} {fs : FS} (ctx : WalkCtx tdc g fs)
    (hgabove : fs.DirsAbove g) (fuel : Nat)
    (hfuel : depthBound ((fs.removeTree g).set g .dir) ≤ fuel) :
    ∃ fs1,
      install (renderRel tdc) (renderRel g) fuel fs = some ⟨fs1, none⟩ ∧
      (∀ q, ¬ g <+: q → fs1.get q = fs.get q) ∧ fs1.umask = fs.umask ∧
      (∀ s, fs1.get (g ++ s) = (fs.get (tdc ++ ["go"] ++ s)).map (copyNode fs.umask)) := by
  obtain ⟨st1, _, _, hwalk, hout, hum, hcopy, _⟩ := installWalk_total ctx hgabove fuel hfuel
  have h1 := removeAll_render fs g ctx.g_valid ctx.g_ne hgabove
  have habove1 : (fs.removeTree g).DirsAbove g := by
    intro q hq hneq
    rw [get_removeTree fs g q ctx.g_ne, if_neg (fun h => hneq (prefix_antisymm hq h))]
    exact hgabove q hq hneq
  have hfree1 : (fs.removeTree g).get g = none := by
    rw [get_removeTree fs g g ctx.g_ne, if_pos (List.prefix_refl g)]
  have h2 : (fs.removeTree g).mkdir (renderRel g) = .ok ((fs.removeTree g).set g .dir) := by
    rw [mkdir_render _ g ctx.g_valid ctx.g_ne habove1,
      createAt_free _ g _ ctx.g_ne habove1 hfree1]
  refine ⟨st1, ?_, hout, hum, hcopy⟩
  simp only [install, h1, h2, hwalk]

/-- Partial correctness of the installer: whenever it ends without a fatal
error, nothing outside `goroot` has changed and `goroot` holds the copy of the
tree. -/
theorem install_partial {tdc g : Path} {fs fs1 : FS} (ctx : WalkCtx tdc g fs) (fuel : Nat)
    (hrun : install (renderRel tdc) (renderRel g) fuel fs = some ⟨fs1, none⟩) :
    fs.DirsAbove g ∧
    (∀ q, ¬ g <+: q → fs1.get q = fs.get q) ∧ fs1.umask = fs.umask ∧
    (∀ s, fs1.get (g ++ s) = (fs.get (tdc ++ ["go"] ++ s)).map (copyNode fs.umask)) := by
  unfold install at hrun
  cases h1 : fs.removeAll (renderRel g) with
  | error e => rw [h1] at hrun; simp at hrun
  | ok fsa =>
    rw [h1] at hrun
    simp only at hrun
    cases h2 : fsa.mkdir (renderRel g) with
    | error e => rw [h2] at hrun; simp at hrun
    | ok fsb =>
      rw [h2] at hrun
      simp only at hrun
      obtain ⟨hgabove, hfsb⟩ := install_steps fs fsa fsb g ctx.g_valid ctx.g_ne h1 h2
      subst hfsb
      have hF : depthBound ((fs.removeTree g).set g .dir)
          ≤ max fuel (depthBound ((fs.removeTree g).set g .dir)) := Nat.le_max_right _ _
      obtain ⟨st1, _, _, hwalk, hout, hum, hcopy, _⟩ := installWalk_total ctx hgabove _ hF
      cases hw : filepathWalk id (installFn (renderRel tdc) (renderRel g)) fuel
          ((fs.removeTree g).set g .dir) (renderRel tdc ++ "/go") with
      | none => rw [hw] at hrun; simp at hrun
      | some x =>
        have hmono := filepathWalk_mono_le id _ fuel
          (max fuel (depthBound ((fs.removeTree g).set g .dir))) (Nat.le_max_left _ _) _ _ x hw
        rw [hwalk] at hmono
        simp only [Option.some.injEq] at hmono
        subst hmono
        rw [hw] at hrun
        simp only [Option.some.injEq, Outcome.mk.injEq, and_true] at hrun
        subst hrun
        exact ⟨hgabove, hout, hum, hcopy⟩

theorem install_mono_le (td goroot : String) (fuel fuel1 : Nat) (hle : fuel ≤ fuel1) (fs : FS)
    (out : Outcome) (h : install td goroot fuel fs = some out) :
    install td goroot fuel1 fs = some out := by
  unfold install at h ⊢
  cases h1 : fs.removeAll goroot with
  | error e => rw [h1] at h; exact h
  | ok fsa =>
    rw [h1] at h
    simp only at h ⊢
    cases h2 : fsa.mkdir goroot with
    | error e => rw [h2] at h; exact h
    | ok fsb =>
      rw [h2] at h
      simp only at h ⊢
      cases hw : filepathWalk id (installFn td goroot) fuel fsb (td ++ "/go") with
      | none => rw [hw] at h; cases h
      | some x =>
        rw [hw] at h
        rw [filepathWalk_mono_le id _ fuel fuel1 hle fsb _ x hw]
        exact h

/-- When `td` and `goroot` are clean absolute paths neither of which lies in the
other's tree, in a well-formed file system where `td/go` is a directory, and the
installer ends without a fatal error, then for every relative path `s` the node
at `goroot/s` is the copy of the node at `td/go/s`: a file with the same bytes
where there was a file, a directory where there was a directory, and nothing
where there was nothing, whatever `goroot` held before. -/
theorem install_replaces_goroot (tdc g : Path) (fs fs1 : FS) (fuel : Nat)
    (hwf : fs.WF) (hg : ∀ c ∈ g, ValidName c)
    (hin : ¬ g <+: tdc ++ ["go"]) (hover : ¬ (tdc ++ ["go"]) <+: g)
    (hsrc : fs.get (tdc ++ ["go"]) = some .dir)
    (hrun : install (renderRel tdc) (renderRel g) fuel fs = some ⟨fs1, none⟩) :
    (∀ s, fs1.get (g ++ s) = (fs.get (tdc ++ ["go"] ++ s)).map (copyNode fs.umask)) ∧
    (∀ s m d, fs.get (tdc ++ ["go"] ++ s) = some (.file m d) →
      fs1.readFile (renderRel (g ++ s)) = .ok d) ∧
    (∀ s, fs.get (tdc ++ ["go"] ++ s) = some .dir → fs1.get (g ++ s) = some .dir) ∧
    (∀ s, fs.get (tdc ++ ["go"] ++ s) = none → fs1.get (g ++ s) = none) := by
  have ctx := ctx_wf fs tdc g hwf hg hin hover hsrc
  obtain ⟨hgabove, hout, _, hcopy⟩ := install_partial ctx fuel hrun
  refine ⟨hcopy, ?_, ?_, ?_⟩
  · intro s m d h
    have hfile : fs1.get (g ++ s) = some (.file (fileMode fs.umask 0o777) d) := by
      rw [hcopy s, h]; rfl
    have hvs : ∀ c ∈ s, ValidName c := (tree_dirs ctx s (by rw [h]; simp)).1
    have habove : fs1.DirsAbove (g ++ s) := by
      intro q hq hne
      rcases prefix_append_cases hq with ⟨h1, h2⟩ | ⟨t, rfl, ht⟩
      · rw [hout q (fun hgq => h2 (prefix_antisymm h1 hgq))]
        exact hgabove q h1 h2
      · have hts : t ≠ s := fun hts => hne (by rw [hts])
        rw [hcopy t, (tree_dirs ctx s (by rw [h]; simp)).2 t ht hts]
        rfl
    exact readFile_render fs1 _ (valid_append hg hvs) (by simp [ctx.g_ne]) habove _ d hfile
  · intro s h; rw [hcopy s, h]; rfl
  · intro s h; rw [hcopy s, h]; rfl

/-- Where nothing exists at a clean absolute path, `Stat` of it fails. -/
theorem stat_render_none (fs : FS) (p : List String) (hp : ∀ c ∈ p, ValidName c) (hne : p ≠ [])
    (hg : fs.get p = none) : ∃ e, fs.stat (renderRel p) = .error e := by
  obtain ⟨c, cs, rfl⟩ := List.exists_cons_of_ne_nil hne
  unfold FS.stat
  cases hr : fs.resolve (renderRel (c :: cs)) with
  | error e => exact ⟨e, rfl⟩
  | ok q =>
    have hr1 := hr
    simp only [FS.resolve, if_neg (renderRel_ne_empty c cs), isRooted_render, if_true,
      splitSlash_renderRel _ hp] at hr1
    rw [namei_cons, get_nil] at hr1
    simp only [true_or, if_true] at hr1
    obtain ⟨hq, _⟩ := namei_names_inv fs (c :: cs) hp [] q hr1
    simp only [List.nil_append] at hq
    subst hq
    simp only [hg]
    exact ⟨.ENOENT, rfl⟩

/-- When `td/go` is not a directory there is no tree to copy: a run of the
installer without a fatal error leaves `goroot` as an empty directory, and
nothing lies below `td/go`. -/
theorem install_no_tree (tdc g : Path) (fs fs1 : FS) (fuel : Nat)
    (hwf : fs.WF) (htd : ∀ c ∈ tdc, ValidName c) (hg : ∀ c ∈ g, ValidName c)
    (hin : ¬ g <+: tdc ++ ["go"]) (hsrc : fs.get (tdc ++ ["go"]) ≠ some .dir)
    (hrun : install (renderRel tdc) (renderRel g) fuel fs = some ⟨fs1, none⟩) :
    fs1 = (fs.removeTree g).set g .dir ∧
    ∀ s, s ≠ [] → fs.get (tdc ++ ["go"] ++ s) = none := by
  have hgne : g ≠ [] := fun h => hin (h ▸ List.nil_prefix)
  have hvalid : ∀ c ∈ tdc ++ ["go"], ValidName c :=
    valid_append htd (by intro c hc; rw [List.mem_singleton.mp hc]; decide)
  have hne : tdc ++ ["go"] ≠ [] := by simp
  have hbelow : ∀ s, s ≠ [] → fs.get (tdc ++ ["go"] ++ s) = none := by
    intro s hs
    by_contra hcon
    have habove := (wf_above fs hwf _ hcon).1
    exact hsrc (habove (tdc ++ ["go"]) (List.prefix_append _ _) (by simpa using hs))
  refine ⟨?_, hbelow⟩
  unfold install at hrun
  cases h1 : fs.removeAll (renderRel g) with
  | error e => rw [h1] at hrun; simp at hrun
  | ok fsa =>
    rw [h1] at hrun
    simp only at hrun
    cases h2 : fsa.mkdir (renderRel g) with
    | error e => rw [h2] at hrun; simp at hrun
    | ok fsb =>
      rw [h2] at hrun
      simp only at hrun
      obtain ⟨_, hfsb⟩ := install_steps fs fsa fsb g hg hgne h1 h2
      subst hfsb
      have hsame : ((fs.removeTree g).set g .dir).get (tdc ++ ["go"]) = fs.get (tdc ++ ["go"]) :=
        base_get_outside fs g _ hgne hin
      have hwalk : filepathWalk id (installFn (renderRel tdc) (renderRel g)) fuel
          ((fs.removeTree g).set g .dir) (renderRel tdc ++ "/go")
            = some ((fs.removeTree g).set g .dir, none) ∨
          filepathWalk id (installFn (renderRel tdc) (renderRel g)) fuel
          ((fs.removeTree g).set g .dir) (renderRel tdc ++ "/go") = none := by
        cases hnode : fs.get (tdc ++ ["go"]) with
        | none =>
          obtain ⟨e, he⟩ := stat_render_none ((fs.removeTree g).set g .dir) _ hvalid hne
            (by rw [hsame, hnode])
          rw [← render_go] at he
          exact Or.inl (filepathWalk_root_error _ _ fuel _ e he)
        | some nd =>
          cases nd with
          | dir => exact absurd hnode hsrc
          | file m d =>
            have habove : ((fs.removeTree g).set g .dir).DirsAbove (tdc ++ ["go"]) := by
              intro q hq hqne
              rw [base_get_outside fs g q hgne (fun hgq => hin (hgq.trans hq))]
              exact (wf_above fs hwf _ (by rw [hnode]; simp)).1 q hq hqne
            have hstat := stat_render ((fs.removeTree g).set g .dir) _ hvalid hne habove
              (.file m d) (by rw [hsame, hnode])
            rw [← render_go] at hstat
            cases fuel with
            | zero =>
              right
              simp only [filepathWalk, id, hstat, walk]
            | succ k =>
              left
              simp only [filepathWalk, id, hstat, walk, Node.isDir, Bool.not_false, if_true,
                installFn_root]
      rcases hwalk with hw | hw
      · rw [hw] at hrun
        simp only [Option.some.injEq, Outcome.mk.injEq, and_true] at hrun
        exact hrun.symm
      · rw [hw] at hrun
        simp at hrun

/-- C4 (amended): let the scratch directory `td` and the installation directory
`goroot` be clean absolute paths such that neither of `td/go` and `goroot` lies
in the other's tree, in a well-formed file system.  When the installer (remove
`goroot`, recreate it, walk `td/go` and copy) ends without a fatal error,
`goroot` is a directory and for every non-empty relative path `s` the node at
`goroot/s` is the copy of the node at `td/go/s`: a file with the same bytes where
there was a file (and `ReadFile` returns these bytes), a directory where there
was a directory, and nothing where there was nothing, whatever `goroot` held
before the run. -/
theorem C4_install_replaces_goroot (tdc g : Path) (fs fs1 : FS) (fuel : Nat)
    (hwf : fs.WF) (htd : ∀ c ∈ tdc, ValidName c) (hg : ∀ c ∈ g, ValidName c)
    (hin : ¬ g <+: tdc ++ ["go"]) (hover : ¬ (tdc ++ ["go"]) <+: g)
    (hrun : install (renderRel tdc) (renderRel g) fuel fs = some ⟨fs1, none⟩) :
    fs1.get g = some .dir ∧
    (∀ s, s ≠ [] →
      fs1.get (g ++ s) = (fs.get (tdc ++ ["go"] ++ s)).map (copyNode fs.umask)) ∧
    (∀ s m d, s ≠ [] → fs.get (tdc ++ ["go"] ++ s) = some (.file m d) →
      fs1.get (g ++ s) = some (.file (fileMode fs.umask 0o777) d) ∧
      fs1.readFile (renderRel (g ++ s)) = .ok d) ∧
    (∀ s, s ≠ [] → fs.get (tdc ++ ["go"] ++ s) = some .dir → fs1.get (g ++ s) = some .dir) ∧
    (∀ s, s ≠ [] → fs.get (tdc ++ ["go"] ++ s) = none → fs1.get (g ++ s) = none) := by
  have hgne : g ≠ [] := fun h => hin (h ▸ List.nil_prefix)
  by_cases hsrc : fs.get (tdc ++ ["go"]) = some .dir
  · obtain ⟨hcopy, hread, hdir, hnone⟩ :=
      install_replaces_goroot tdc g fs fs1 fuel hwf hg hin hover hsrc hrun
    refine ⟨?_, fun s _ => hcopy s, fun s m d _ h => ⟨?_, hread s m d h⟩,
      fun s _ => hdir s, fun s _ => hnone s⟩
    · have := hdir [] (by simpa using hsrc)
      simpa using this
    · rw [hcopy s, h]; rfl
  · obtain ⟨hfs1, hbelow⟩ := install_no_tree tdc g fs fs1 fuel hwf htd hg hin hsrc hrun
    subst hfs1
    refine ⟨base_get_root fs g hgne, fun s hs => ?_, fun s m d hs h => ?_, fun s hs h => ?_,
      fun s hs _ => base_get_below fs g s hgne hs⟩
    · rw [base_get_below fs g s hgne hs, hbelow s hs]; rfl
    · rw [hbelow s hs] at h; cases h
    · rw [hbelow s hs] at h; cases h

theorem C4_witness :
    install "/tmp/gup1" "/usr/go" 3 fsExtracted = some ⟨fsInstalled, none⟩ ∧
    fsInstalled.get (["usr", "go"] ++ ["old"]) = none ∧
    fsInstalled.get (["usr", "go"] ++ ["bin"]) = some .dir ∧
    fsInstalled.readFile (renderRel (["usr", "go"] ++ ["bin", "tool"])) = .ok ['X'] :=
  have hrun : install (renderRel ["tmp", "gup1"]) (renderRel ["usr", "go"]) 3 fsExtracted
      = some ⟨fsInstalled, none⟩ := by decide
  have h := C4_install_replaces_goroot ["tmp", "gup1"] ["usr", "go"] fsExtracted fsInstalled 3
    (wf_of_check _ (by decide)) (by decide) (by decide) (by decide) (by decide) hrun
  ⟨hrun, h.2.2.2.2 ["old"] (by decide) (by decide), h.2.2.2.1 ["bin"] (by decide) (by decide),
    (h.2.2.1 ["bin", "tool"] 0o755 ['X'] (by decide) (by decide)).2⟩

/-- C4 (the claim as worded fails): the scratch directory `/tmp/gup1` holds the
extracted tree `go/VERSION`, `go/bin/tool`.  With `goroot = /tmp/gup1/go` the
installer removes the extracted tree, makes the directory anew, walks the empty
directory and ends without a fatal error, `goroot` being empty.  With
`goroot = /tmp/gup1/go/bin` the run ends without a fatal error and `goroot` holds
`VERSION`, `bin` and `bin/VERSION` but no `bin/tool`.  With `goroot = /tmp` the
scratch directory is removed with `goroot`, the failing `Lstat` of the walk root
is not looked at by the callback, and the run ends without a fatal error with an
empty `goroot`. -/
theorem C4_counterexample :
    fsExtracted.readFile "/tmp/gup1/go/bin/tool" = .ok ['X'] ∧
    (install "/tmp/gup1" "/tmp/gup1/go" 3 fsExtracted).map
        (fun out => (out.fatal, out.fs.readDirNames "/tmp/gup1/go",
          out.fs.stat "/tmp/gup1/go/bin/tool"))
      = some (none, .ok [], .error .ENOENT) ∧
    (install "/tmp/gup1" "/tmp/gup1/go/bin" 3 fsExtracted).map
        (fun out => (out.fatal, out.fs.readDirNames "/tmp/gup1/go/bin",
          out.fs.readDirNames "/tmp/gup1/go/bin/bin"))
      = some (none, .ok ["VERSION", "bin"], .ok ["VERSION"]) ∧
    (install "/tmp/gup1" "/tmp" 3 fsExtracted).map
        (fun out => (out.fatal, out.fs.readDirNames "/tmp", out.fs.stat "/tmp/gup1/go"))
      = some (none, .ok [], .error .ENOENT) := by
  refine ⟨by decide, by decide, by decide, by decide⟩

/-- C5: let `td` and `goroot` be clean absolute paths neither of which lies in
the other's tree, in a well-formed file system where `td/go` is a directory.
After a run of the installer that ended without a fatal error, a second run with
the same `td` and `goroot` (and enough fuel) also ends without a fatal error,
and `goroot` holds the same nodes at the same paths as after the first run. -/
theorem C5_install_idempotent (tdc g : Path) (fs fs1 : FS) (fuel : Nat)
    (hwf : fs.WF) (hg : ∀ c ∈ g, ValidName c)
    (hin : ¬ g <+: tdc ++ ["go"]) (hover : ¬ (tdc ++ ["go"]) <+: g)
    (hsrc : fs.get (tdc ++ ["go"]) = some .dir)
    (hrun : install (renderRel tdc) (renderRel g) fuel fs = some ⟨fs1, none⟩) :
    ∃ N fs2,
      (∀ fuel2, N ≤ fuel2 →
        install (renderRel tdc) (renderRel g) fuel2 fs1 = some ⟨fs2, none⟩) ∧
      (∀ s, fs2.get (g ++ s) = fs1.get (g ++ s)) ∧
      (∀ q, ¬ g <+: q → fs2.get q = fs1.get q) := by
  have ctx := ctx_wf fs tdc g hwf hg hin hover hsrc
  obtain ⟨hgabove, hout, hum, hcopy⟩ := install_partial ctx fuel hrun
  have ctx1 : WalkCtx tdc g fs1 := ctx_frame ctx hout
  have hgabove1 : fs1.DirsAbove g := by
    intro q hq hne
    rw [hout q (fun h => hne (prefix_antisymm hq h))]
    exact hgabove q hq hne
  obtain ⟨fs2, hrun2, hout2, _, hcopy2⟩ := install_total ctx1 hgabove1 _ (Nat.le_refl _)
  refine ⟨_, fs2, fun fuel2 h2 => install_mono_le _ _ _ fuel2 h2 fs1 _ hrun2, ?_, hout2⟩
  intro s
  rw [hcopy2 s, hcopy s, hout _ (src_not_under ctx s), hum]

theorem C5_witness :
    ∃ N fs2,
      (∀ fuel2, N ≤ fuel2 → install "/tmp/gup1" "/usr/go" fuel2 fsInstalled = some ⟨fs2, none⟩) ∧
      (∀ s, fs2.get (["usr", "go"] ++ s) = fsInstalled.get (["usr", "go"] ++ s)) ∧
      (∀ q, ¬ ["usr", "go"] <+: q → fs2.get q = fsInstalled.get q) :=
  C5_install_idempotent ["tmp", "gup1"] ["usr", "go"] fsExtracted fsInstalled 3
    (wf_of_check _ (by decide)) (by decide) (by decide) (by decide) (by decide) (by decide)

/-- C10: let `td` and `goroot` be clean absolute paths neither of which lies in
the other's tree, in a well-formed file system `base` where `td/go` is a
directory and `goroot` is an empty directory.  With enough fuel the walk succeeds,
and every call of the callback is for a node `td/go/r` of the tree, with the
node as `info`; when `r` is not empty, the relative path computed is `/r`, the
path joined for reading is the walked path, the destination joined is
`goroot/r` and resolves there, its parent is a directory and the destination
does not exist at the moment of the call, and the callback returns nil. -/
theorem C10_walk_invariant (tdc g : Path) (base : FS)
    (hwf : base.WF) (hg : ∀ c ∈ g, ValidName c)
    (hin : ¬ g <+: tdc ++ ["go"]) (hover : ¬ (tdc ++ ["go"]) <+: g)
    (hsrc : base.get (tdc ++ ["go"]) = some .dir)
    (hgdir : base.get g = some .dir) (hgempty : ∀ s, s ≠ [] → base.get (g ++ s) = none) :
    ∃ N, ∀ fuel, N ≤ fuel → ∃ st log,
      walkLogged (renderRel tdc) (renderRel g) fuel base = some ((st, log), none) ∧
      filepathWalk id (installFn (renderRel tdc) (renderRel g)) fuel base
        (renderRel tdc ++ "/go") = some (st, none) ∧
      ∀ c ∈ log, ∃ r : List String,
        c.path = renderRel (tdc ++ ["go"] ++ r) ∧
        c.info = base.get (tdc ++ ["go"] ++ r) ∧ c.info ≠ none ∧
        (r ≠ [] →
          stringsReplace1 c.path (renderRel tdc ++ "/go") "" = renderRel r ∧
          filepathJoin [renderRel tdc ++ "/go", renderRel r] = c.path ∧
          filepathJoin [renderRel g ++ "/", renderRel r] = renderRel (g ++ r) ∧
          c.fs.resolve (renderRel (g ++ r)) = .ok (g ++ r) ∧
          c.fs.get (g ++ r).dropLast = some .dir ∧
          c.fs.get (g ++ r) = none ∧
          (installFn (renderRel tdc) (renderRel g) c.fs c.path c.info none).2 = none) := by
  have ctx := ctx_wf base tdc g hwf hg hin hover hsrc
  refine ⟨depthBound base, fun fuel hfuel => ?_⟩
  obtain ⟨st, log, hwalk, _, _, _, hlog⟩ := walk_root_spec ctx fuel
    (by
      intro s hs
      have := depthBound_spec _ _ hs
      simp only [List.length_append] at this
      omega)
    hgdir (wf_above base hwf g (by rw [hgdir]; simp)).1 hgempty
  refine ⟨st, log, hwalk, ?_, fun c hc => hlog c hc⟩
  have := filepathWalk_logged (installFn (renderRel tdc) (renderRel g)) fuel (base, [])
    (renderRel tdc ++ "/go")
  rw [← this]
  unfold walkLogged at hwalk
  rw [hwalk]
  rfl

theorem empty_of_check (fs : FS) (g : Path) (h : emptyCheck fs g = true) :
    ∀ s, s ≠ [] → fs.get (g ++ s) = none := by
  intro s hs
  by_contra hex
  have hne : g ++ s ≠ [] := by simp [hs]
  simp only [FS.get, hne, if_false] at hex
  obtain ⟨e, he, heq⟩ := (lookupNode_ne_none _ _).mp hex
  have := List.all_eq_true.mp h e he
  rw [heq] at this
  simp only [Bool.or_eq_true, Bool.not_eq_true', decide_eq_true_eq] at this
  rcases this with h1 | h1
  · have : g.isPrefixOf (g ++ s) = true := List.isPrefixOf_iff_prefix.mpr (List.prefix_append g s)
    rw [h1] at this
    cases this
  · have := congrArg List.length h1
    simp only [List.length_append] at this
    have : 0 < s.length := List.length_pos.mpr hs
    omega

theorem C10_witness :
    ∃ N, ∀ fuel, N ≤ fuel → ∃ st log,
      walkLogged "/tmp/gup1" "/usr/go" fuel fsFresh = some ((st, log), none) ∧
      filepathWalk id (installFn "/tmp/gup1" "/usr/go") fuel fsFresh "/tmp/gup1/go"
        = some (st, none) ∧
      ∀ c ∈ log, ∃ r : List String,
        c.path = renderRel (["tmp", "gup1"] ++ ["go"] ++ r) ∧
        c.info = fsFresh.get (["tmp", "gup1"] ++ ["go"] ++ r) ∧ c.info ≠ none ∧
        (r ≠ [] →
          stringsReplace1 c.path ("/tmp/gup1" ++ "/go") "" = renderRel r ∧
          filepathJoin ["/tmp/gup1" ++ "/go", renderRel r] = c.path ∧
          filepathJoin ["/usr/go" ++ "/", renderRel r] = renderRel (["usr", "go"] ++ r) ∧
          c.fs.resolve (renderRel (["usr", "go"] ++ r)) = .ok (["usr", "go"] ++ r) ∧
          c.fs.get (["usr", "go"] ++ r).dropLast = some .dir ∧
          c.fs.get (["usr", "go"] ++ r) = none ∧
          (installFn "/tmp/gup1" "/usr/go" c.fs c.path c.info none).2 = none) :=
  C10_walk_invariant ["tmp", "gup1"] ["usr", "go"] fsFresh
    (wf_of_check _ (by decide)) (by decide) (by decide) (by decide) (by decide) (by decide)
    (empty_of_check _ _ (by decide))

/-! ### Targets of archive entries -/

theorem splitChars_no_slash (l : List Char) : ∀ x ∈ splitChars l, '/' ∉ x := by
  induction l with
  | nil => intro x hx; simp [splitChars] at hx; simp [hx]
  | cons c cs ih =>
    obtain ⟨hd, tl, hsp⟩ := List.exists_cons_of_ne_nil (splitChars_ne_nil cs)
    by_cases hc : c = '/'
    · subst hc
      rw [splitChars_slash]
      intro x hx
      rcases List.mem_cons.mp hx with rfl | h
      · simp
      · exact ih x h
    · rw [splitChars_cons_of_ne c hc cs hd tl hsp]
      intro x hx
      rcases List.mem_cons.mp hx with rfl | h
      · intro hmem
        rcases List.mem_cons.mp hmem with h1 | h1
        · exact hc h1.symm
        · exact ih hd (by rw [hsp]; simp) h1
      · exact ih x (by rw [hsp]; simp [h])

theorem splitSlash_no_slash (s : String) : ∀ c ∈ splitSlash s, '/' ∉ c.data := by
  intro c hc
  simp only [splitSlash, List.mem_map] at hc
  obtain ⟨x, hx, rfl⟩ := hc
  exact splitChars_no_slash s.data x hx

theorem cleanComps_rooted_valid :
    ∀ (l acc : List String), (∀ c ∈ acc, ValidName c) → (∀ c ∈ l, '/' ∉ c.data) →
      ∀ c ∈ cleanComps true acc l, ValidName c := by
  intro l
  induction l with
  | nil =>
    intro acc hacc _ c hc
    simp only [cleanComps, List.mem_reverse] at hc
    exact hacc c hc
  | cons x rest ih =>
    intro acc hacc hl
    have hrest : ∀ c ∈ rest, '/' ∉ c.data := fun c hc => hl c (by simp [hc])
    by_cases h1 : x = "" ∨ x = "."
    · rw [cleanComps_cons_skip true acc rest x h1]
      exact ih acc hacc hrest
    · by_cases h2 : x = ".."
      · subst h2
        cases acc with
        | nil =>
          have : cleanComps true [] (".." :: rest) = cleanComps true [] rest := by
            simp [cleanComps]
          rw [this]
          exact ih [] hacc hrest
        | cons top acc1 =>
          have htop : top ≠ ".." := (hacc top (by simp)).2.2.1
          have : cleanComps true (top :: acc1) (".." :: rest) = cleanComps true acc1 rest := by
            simp [cleanComps, htop]
          rw [this]
          exact ih acc1 (fun c hc => hacc c (by simp [hc])) hrest
      · have hv : ValidName x := by
          refine ⟨fun h => h1 (Or.inl h), fun h => h1 (Or.inr h), h2, hl x (by simp)⟩
        rw [cleanComps_cons_name true acc rest x hv]
        apply ih (x :: acc) _ hrest
        intro c hc
        rcases List.mem_cons.mp hc with rfl | h
        · exact hv
        · exact hacc c h

/-- The result of `filepath.Clean` on a rooted path is `/` or a rendered list of
valid names. -/
theorem filepathClean_rooted (s : String) (hs : isRooted s = true) :
    ∃ comps : List String, (∀ c ∈ comps, ValidName c) ∧ filepathClean s = absString comps := by
  refine ⟨cleanComps true [] (splitSlash s),
    cleanComps_rooted_valid _ [] (by simp) (splitSlash_no_slash s), ?_⟩
  have hne : s ≠ "" := by
    intro h; subst h; simp [isRooted] at hs
  simp only [filepathClean, if_neg hne, hs, if_true]
  cases hc : cleanComps true [] (splitSlash s) with
  | nil => simp [joinSlash, absString]
  | cons c cs =>
    rw [slash_joinSlash, if_neg (renderRel_ne_empty c cs)]
    simp [absString]

theorem target_form (td name : String) (htd : isRooted td = true) :
    ∃ comps : List String, (∀ c ∈ comps, ValidName c) ∧
      filepathJoin [td ++ "/", name] = absString comps := by
  have h0 : td ++ "/" ≠ "" := by
    intro h
    have := congrArg String.data h
    simp [String.data_append] at this
  have hr : isRooted (td ++ "/" ++ "/" ++ name) = true := by
    unfold isRooted at htd ⊢
    simp only [String.data_append]
    cases hd : td.data with
    | nil => rw [hd] at htd; simp at htd
    | cons a as => rw [hd] at htd; simpa using htd
  obtain ⟨comps, hv, hc⟩ := filepathClean_rooted _ hr
  exact ⟨comps, hv, by simp only [filepathJoin, if_neg h0, joinSlash, hc]⟩

theorem resolve_abs (fs : FS) (comps : List String) (hv : ∀ c ∈ comps, ValidName c) (p : Path)
    (h : fs.resolve (absString comps) = .ok p) : p = comps ∧ fs.DirsAbove comps := by
  cases comps with
  | nil =>
    have : fs.resolve (absString []) = .ok [] := by
      simp only [absString, if_true]
      have h1 : splitSlash "/" = ["", ""] := by decide
      have h2 : isRooted "/" = true := by decide
      have h3 : ("/" : String) ≠ "" := by decide
      simp only [FS.resolve, if_neg h3, h1, h2, if_true]
      rw [namei_cons, get_nil]
      simp only [true_or, if_true]
      rw [namei_cons, get_nil]
      simp [namei]
    rw [this] at h
    simp only [Except.ok.injEq] at h
    exact ⟨h.symm, fun q hq hne => absurd (List.prefix_nil.mp hq) hne⟩
  | cons c cs =>
    simp only [absString, if_false, FS.resolve, if_neg (renderRel_ne_empty c cs), isRooted_render,
      if_true, splitSlash_renderRel _ hv, reduceCtorEq] at h
    rw [namei_cons, get_nil] at h
    simp only [true_or, if_true] at h
    obtain ⟨hp, habove⟩ := namei_names_inv fs (c :: cs) hv [] p h
    simp only [List.nil_append] at hp habove
    exact ⟨hp, habove⟩

theorem resolve_abs_ok (fs : FS) (comps : List String) (hv : ∀ c ∈ comps, ValidName c)
    (hd : fs.DirsAbove comps) : fs.resolve (absString comps) = .ok comps := by
  cases comps with
  | nil =>
    simp only [absString, if_true]
    have h1 : splitSlash "/" = ["", ""] := by decide
    have h2 : isRooted "/" = true := by decide
    have h3 : ("/" : String) ≠ "" := by decide
    simp only [FS.resolve, if_neg h3, h1, h2, if_true]
    rw [namei_cons, get_nil]
    simp only [true_or, if_true]
    rw [namei_cons, get_nil]
    simp [namei]
  | cons c cs =>
    simp only [absString, if_false, reduceCtorEq]
    exact resolve_render fs _ hv (by simp) hd

theorem absString_inj (a b : List String) (ha : ∀ c ∈ a, ValidName c)
    (hb : ∀ c ∈ b, ValidName c) (h : absString a = absString b) : a = b := by
  have hsa : ∀ l : List String, (∀ c ∈ l, ValidName c) →
      (splitSlash (absString l)).filter (fun c => decide (c ≠ "")) = l := by
    intro l hl
    have hfil : l.filter (fun c => decide (c ≠ "")) = l :=
      List.filter_eq_self.mpr (fun c hc => by simpa using (hl c hc).1)
    cases l with
    | nil =>
      have h1 : splitSlash "/" = ["", ""] := by decide
      simp [absString, h1]
    | cons c cs =>
      simp only [absString, if_false, reduceCtorEq, splitSlash_renderRel _ hl]
      rw [List.filter_cons_of_neg (by simp), hfil]
  rw [← hsa a ha, ← hsa b hb, h]

/-! ### One pass of the extraction loop -/

theorem mkdirAllFrom_skip (fs : FS) (cur : Path) (c : String) (rest : List String)
    (h : c = "" ∨ c = ".") : mkdirAllFrom fs cur (c :: rest) = mkdirAllFrom fs cur rest := by
  rw [mkdirAllFrom, if_pos h]

theorem mkdirAllFrom_name (fs : FS) (cur : Path) (c : String) (rest : List String)
    (h : ValidName c) :
    mkdirAllFrom fs cur (c :: rest) =
      match fs.get (cur ++ [c]) with
      | some (.file _ _) => .error .ENOTDIR
      | some .dir => mkdirAllFrom fs (cur ++ [c]) rest
      | none => mkdirAllFrom (fs.set (cur ++ [c]) .dir) (cur ++ [c]) rest := by
  have h1 : ¬ (c = "" ∨ c = ".") := fun hh => hh.elim h.1 h.2.1
  rw [mkdirAllFrom, if_neg h1, if_neg h.2.2.1]

theorem mkdirAllFrom_spec (comps : List String) (hv : ∀ c ∈ comps, ValidName c) :
    ∀ (fs fs1 : FS) (cur : Path), fs.get cur = some .dir →
      mkdirAllFrom fs cur comps = .ok fs1 →
      fs.Sub fs1 ∧ (∀ q, q <+: comps → fs1.get (cur ++ q) = some .dir) ∧
      (∀ q m d, fs1.get q = some (.file m d) → fs.get q = some (.file m d)) := by
  induction comps with
  | nil =>
    intro fs fs1 cur hcur h
    simp only [mkdirAllFrom, Except.ok.injEq] at h
    subst h
    refine ⟨sub_refl fs, ?_, fun _ _ _ h => h⟩
    intro q hq
    rw [List.prefix_nil.mp hq, List.append_nil]
    exact hcur
  | cons c cs ih =>
    intro fs fs1 cur hcur h
    have hc := hv c (by simp)
    have hcs : ∀ x ∈ cs, ValidName x := fun x hx => hv x (by simp [hx])
    rw [mkdirAllFrom_name fs cur c cs hc] at h
    have key : ∀ fsm : FS, fs.Sub fsm → fsm.get (cur ++ [c]) = some .dir →
        (∀ q m d, fsm.get q = some (.file m d) → fs.get q = some (.file m d)) →
        mkdirAllFrom fsm (cur ++ [c]) cs = .ok fs1 →
        fs.Sub fs1 ∧ (∀ q, q <+: c :: cs → fs1.get (cur ++ q) = some .dir) ∧
        (∀ q m d, fs1.get q = some (.file m d) → fs.get q = some (.file m d)) := by
      intro fsm hsub hdir hfiles hrec
      obtain ⟨hsub1, hdirs, hfiles1⟩ := ih hcs fsm fs1 (cur ++ [c]) hdir hrec
      refine ⟨sub_trans hsub hsub1, ?_, fun q m d hq => hfiles q m d (hfiles1 q m d hq)⟩
      intro q hq
      rcases List.prefix_cons_iff.mp hq with rfl | ⟨t, rfl, ht⟩
      · rw [List.append_nil]
        exact sub_trans hsub hsub1 cur _ hcur
      · have := hdirs t ht
        simpa using this
    cases hg : fs.get (cur ++ [c]) with
    | none =>
      rw [hg] at h
      refine key (fs.set (cur ++ [c]) .dir) (sub_set_of_free fs _ _ hg)
        (get_set_self fs _ _ (by simp)) ?_ h
      intro q m d hq
      by_cases hqc : q = cur ++ [c]
      · rw [hqc, get_set_self fs _ _ (by simp)] at hq; cases hq
      · rw [get_set_ne fs _ q _ hqc] at hq; exact hq
    | some nd =>
      rw [hg] at h
      cases nd with
      | file m d => cases h
      | dir => exact key fs (sub_refl fs) hg (fun _ _ _ hq => hq) h

theorem mkdirAll_abs (fs fs1 : FS) (comps : List String) (hv : ∀ c ∈ comps, ValidName c)
    (h : fs.mkdirAll (absString comps) = .ok fs1) :
    fs.Sub fs1 ∧ (∀ q, q <+: comps → fs1.get q = some .dir) ∧
    (∀ q m d, fs1.get q = some (.file m d) → fs.get q = some (.file m d)) := by
  have hfrom : mkdirAllFrom fs [] comps = .ok fs1 := by
    cases comps with
    | nil =>
      have h1 : splitSlash "/" = ["", ""] := by decide
      have h2 : isRooted "/" = true := by decide
      have h3 : ("/" : String) ≠ "" := by decide
      simp only [absString, if_true, FS.mkdirAll, if_neg h3, h2, get_nil, h1] at h
      rw [mkdirAllFrom_skip _ _ _ _ (Or.inl rfl), mkdirAllFrom_skip _ _ _ _ (Or.inl rfl)] at h
      exact h
    | cons c cs =>
      simp only [absString, if_false, reduceCtorEq, FS.mkdirAll,
        if_neg (renderRel_ne_empty c cs), isRooted_render, if_true, get_nil,
        splitSlash_renderRel _ hv] at h
      rw [mkdirAllFrom_skip _ _ _ _ (Or.inl rfl)] at h
      exact h
  have := mkdirAllFrom_spec comps hv fs fs1 [] (get_nil fs) hfrom
  simpa using this

theorem TypeReg_ne_TypeDir : TypeReg ≠ TypeDir := by decide

/-- A directory entry that does not end the run. -/
theorem step_dir (td : String) (fs fs1 : FS) (e : Entry) (comps : List String)
    (hv : ∀ c ∈ comps, ValidName c) (ht : target td e = absString comps)
    (hd : e.header.typeflag = TypeDir) (h : extractEntry td fs e = .ok fs1) :
    fs.Sub fs1 ∧ (∀ q m d, fs1.get q = some (.file m d) → fs.get q = some (.file m d)) ∧
    fs1.DirsAbove comps ∧
    (fs1.get comps = some .dir ∨ ∃ m d, fs.get comps = some (.file m d)) := by
  unfold target at ht
  simp only [extractEntry, ht, hd, if_true] at h
  cases hs : fs.stat (absString comps) with
  | ok n =>
    rw [hs] at h
    simp only [Except.ok.injEq] at h
    subst h
    unfold FS.stat at hs
    cases hr : fs.resolve (absString comps) with
    | error e => rw [hr] at hs; cases hs
    | ok p =>
      rw [hr] at hs
      simp only at hs
      obtain ⟨hp, habove⟩ := resolve_abs fs comps hv p hr
      subst hp
      refine ⟨sub_refl fs, fun _ _ _ hq => hq, habove, ?_⟩
      cases hg : fs.get p with
      | none => rw [hg] at hs; cases hs
      | some nd =>
        cases nd with
        | dir => exact Or.inl rfl
        | file m d => exact Or.inr ⟨m, d, rfl⟩
  | error err =>
    rw [hs] at h
    simp only at h
    cases hm : fs.mkdirAll (absString comps) with
    | error e2 => rw [hm] at h; cases h
    | ok fs2 =>
      rw [hm] at h
      simp only [Except.ok.injEq] at h
      subst h
      obtain ⟨hsub, hdirs, hfiles⟩ := mkdirAll_abs fs fs2 comps hv hm
      exact ⟨hsub, hfiles, fun q hq _ => hdirs q hq, Or.inl (hdirs comps (List.prefix_refl _))⟩

/-- A regular-file entry that does not end the run. -/
theorem step_reg (td : String) (fs fs1 : FS) (e : Entry) (comps : List String)
    (hv : ∀ c ∈ comps, ValidName c) (ht : target td e = absString comps)
    (hr : e.header.typeflag = TypeReg) (h : extractEntry td fs e = .ok fs1) :
    fs.DirsAbove comps ∧ (∀ q, q ≠ comps → fs1.get q = fs.get q) ∧
    fs.get comps ≠ some .dir ∧
    (fs.get comps = none →
      fs1.get comps = some (.file (fileMode fs.umask e.header.mode) e.data)) ∧
    (∀ m old, fs.get comps = some (.file m old) →
      fs1.get comps = some (.file m (e.data ++ old.drop e.data.length))) := by
  unfold target at ht
  simp only [extractEntry, ht, hr, if_neg TypeReg_ne_TypeDir, if_true] at h
  unfold FS.openFile at h
  cases hres : fs.resolve (absString comps) with
  | error err => rw [hres] at h; cases h
  | ok p =>
    rw [hres] at h
    simp only at h
    obtain ⟨hp, habove⟩ := resolve_abs fs comps hv p hres
    subst hp
    have hne : p ≠ [] → True := fun _ => trivial
    cases hg : fs.get p with
    | none =>
      rw [hg] at h
      simp only at h
      have hpne : p ≠ [] := by
        intro hp; rw [hp, get_nil] at hg; cases hg
      rw [createAt_free fs p _ hpne habove hg] at h
      simp only [FS.writeAt0, get_set_self fs p _ hpne, List.drop_nil, List.append_nil,
        Except.ok.injEq] at h
      subst h
      refine ⟨habove, ?_, (by simp), fun _ => ?_, fun m old hh => (by cases hh)⟩
      · intro q hq
        rw [get_set_ne _ _ q _ hq, get_set_ne _ _ q _ hq]
      · exact get_set_self _ p _ hpne
    | some nd =>
      rw [hg] at h
      cases nd with
      | dir => cases h
      | file m old =>
        have hpne : p ≠ [] := by
          intro hp; rw [hp, get_nil] at hg; cases hg
        simp only [FS.writeAt0, hg, Except.ok.injEq] at h
        subst h
        refine ⟨habove, fun q hq => get_set_ne _ _ q _ hq, (by simp), fun hh => (by cases hh), ?_⟩
        intro m1 old1 hh
        simp only [Option.some.injEq, Node.file.injEq] at hh
        rw [get_set_self _ p _ hpne, hh.1, hh.2]

/-! ### The extraction loop as a whole -/

theorem step_any (td : String) (htd : isRooted td = true) (fs fs1 : FS) (e : Entry)
    (h : extractEntry td fs e = .ok fs1) :
    (∀ q, fs.get q = some .dir → fs1.get q = some .dir) ∧
    (∀ q, (e.header.typeflag = TypeReg → target td e ≠ absString q) →
      ∀ m d, fs1.get q = some (.file m d) ↔ fs.get q = some (.file m d)) := by
  obtain ⟨comps, hv, ht⟩ := target_form td e.header.name htd
  by_cases hd : e.header.typeflag = TypeDir
  · obtain ⟨hsub, hfiles, _, _⟩ := step_dir td fs fs1 e comps hv ht hd h
    exact ⟨fun q hq => hsub q _ hq, fun q _ m d => ⟨hfiles q m d, hsub q _⟩⟩
  · by_cases hr : e.header.typeflag = TypeReg
    · obtain ⟨_, hsame, hnd, _, _⟩ := step_reg td fs fs1 e comps hv ht hr h
      constructor
      · intro q hq
        rw [hsame q (fun hqc => hnd (hqc ▸ hq))]
        exact hq
      · intro q hq m d
        have hne : q ≠ comps := by
          intro hqc
          apply hq hr
          rw [hqc]
          exact ht
        rw [hsame q hne]
    · rw [extractEntry_other td fs e hd hr] at h
      simp only [Except.ok.injEq] at h
      subst h
      exact ⟨fun _ hq => hq, fun _ _ _ _ => Iff.rfl⟩

theorem extractEntries_cons_ok (td : String) (fs fs2 : FS) (e : Entry) (es : List Entry)
    (h : extractEntries td fs (e :: es) = ⟨fs2, none⟩) :
    ∃ fs1, extractEntry td fs e = .ok fs1 ∧ extractEntries td fs1 es = ⟨fs2, none⟩ := by
  simp only [extractEntries] at h
  cases he : extractEntry td fs e with
  | error f => rw [he] at h; simp at h
  | ok fs1 => rw [he] at h; exact ⟨fs1, rfl, h⟩

theorem extractEntries_append_ok (td : String) :
    ∀ (pre : List Entry) (fs fs2 : FS) (post : List Entry),
      extractEntries td fs (pre ++ post) = ⟨fs2, none⟩ →
      ∃ fs1, extractEntries td fs pre = ⟨fs1, none⟩ ∧ extractEntries td fs1 post = ⟨fs2, none⟩ := by
  intro pre
  induction pre with
  | nil => intro fs fs2 post h; exact ⟨fs, rfl, h⟩
  | cons e es ih =>
    intro fs fs2 post h
    rw [List.cons_append] at h
    obtain ⟨fsa, he, hrest⟩ := extractEntries_cons_ok td fs fs2 e _ h
    obtain ⟨fs1, h1, h2⟩ := ih fsa fs2 post hrest
    refine ⟨fs1, ?_, h2⟩
    simp only [extractEntries, he]
    exact h1

/-- Over a run of the loop without fatal error, directories stay, and the file
at a path stays as it is when no regular-file entry has that path as target. -/
theorem extractEntries_persist (td : String) (htd : isRooted td = true) :
    ∀ (es : List Entry) (fs fs1 : FS), extractEntries td fs es = ⟨fs1, none⟩ →
      (∀ q, fs.get q = some .dir → fs1.get q = some .dir) ∧
      (∀ q, (∀ e ∈ es, e.header.typeflag = TypeReg → target td e ≠ absString q) →
        ∀ m d, fs1.get q = some (.file m d) ↔ fs.get q = some (.file m d)) := by
  intro es
  induction es with
  | nil =>
    intro fs fs1 h
    simp only [extractEntries, Outcome.mk.injEq, and_true] at h
    subst h
    exact ⟨fun _ hq => hq, fun _ _ _ _ => Iff.rfl⟩
  | cons e es ih =>
    intro fs fs1 h
    obtain ⟨fsa, he, hrest⟩ := extractEntries_cons_ok td fs fs1 e es h
    obtain ⟨hA, hB⟩ := step_any td htd fs fsa e he
    obtain ⟨hA1, hB1⟩ := ih fsa fs1 hrest
    refine ⟨fun q hq => hA1 q (hA q hq), ?_⟩
    intro q hq m d
    rw [hB1 q (fun e1 he1 => hq e1 (by simp [he1])) m d, hB q (hq e (by simp)) m d]

theorem stat_abs (fs : FS) (comps : List String) (hv : ∀ c ∈ comps, ValidName c)
    (hd : fs.DirsAbove comps) (n : Node) (hg : fs.get comps = some n) :
    fs.stat (absString comps) = .ok n := by
  simp only [FS.stat, resolve_abs_ok fs comps hv hd, hg]

theorem no_file_of_stat (fs : FS) (hwf : fs.WF) (comps : List String)
    (hv : ∀ c ∈ comps, ValidName c)
    (h : ∀ m d, fs.stat (absString comps) ≠ .ok (.file m d)) :
    ∀ m d, fs.get comps ≠ some (.file m d) := by
  intro m d hg
  have habove := (wf_above fs hwf comps (by rw [hg]; simp)).1
  exact h m d (stat_abs fs comps hv habove _ hg)

/-- C6 (as amended): let the scratch path be absolute and the file system
well-formed, and let the loop run over a stream without fatal error.  For an
entry of the stream whose target is not a regular file before the loop and is
the target of no other regular-file entry of the stream: if it is a directory
entry, its target is a directory afterwards; if it is a regular-file entry, its
target afterwards holds exactly the entry's bytes. -/
theorem C6_extraction_reproduces_entries (td : String) (fs0 fs1 : FS) (pre post : List Entry)
    (e : Entry) (htd : isRooted td = true) (hwf : fs0.WF)
    (hrun : extractEntries td fs0 (pre ++ e :: post) = ⟨fs1, none⟩)
    (hinit : ∀ m d, fs0.stat (target td e) ≠ .ok (.file m d))
    (huniq : ∀ e1 ∈ pre ++ post, e1.header.typeflag = TypeReg → target td e1 ≠ target td e) :
    (e.header.typeflag = TypeDir → fs1.stat (target td e) = .ok .dir) ∧
    (e.header.typeflag = TypeReg → fs1.readFile (target td e) = .ok e.data) := by
  obtain ⟨comps, hv, ht⟩ := target_form td e.header.name htd
  have ht1 : target td e = absString comps := ht
  rw [ht1] at hinit huniq ⊢
  obtain ⟨fsa, hpre, hrest⟩ := extractEntries_append_ok td pre fs0 fs1 (e :: post) hrun
  obtain ⟨fsb, hstep, hpost⟩ := extractEntries_cons_ok td fsa fs1 e post hrest
  obtain ⟨_, hBpre⟩ := extractEntries_persist td htd pre fs0 fsa hpre
  obtain ⟨hApost, hBpost⟩ := extractEntries_persist td htd post fsb fs1 hpost
  have hnofile0 := no_file_of_stat fs0 hwf comps hv hinit
  have hnofile : ∀ m d, fsa.get comps ≠ some (.file m d) := by
    intro m d h
    exact hnofile0 m d
      ((hBpre comps (fun e1 he1 => huniq e1 (by simp [he1])) m d).mp h)
  have habove_final : fsb.DirsAbove comps → fs1.DirsAbove comps :=
    fun h q hq hne => hApost q (h q hq hne)
  constructor
  · intro hd
    obtain ⟨_, _, habove, hdir⟩ := step_dir td fsa fsb e comps hv ht1 hd hstep
    have hdirb : fsb.get comps = some .dir := by
      rcases hdir with h | ⟨m, d, h⟩
      · exact h
      · exact absurd h (hnofile m d)
    exact stat_abs fs1 comps hv (habove_final habove) _ (hApost comps hdirb)
  · intro hr
    obtain ⟨habove, hsame, hnd, hnew, _⟩ := step_reg td fsa fsb e comps hv ht1 hr hstep
    have hnone : fsa.get comps = none := by
      cases hg : fsa.get comps with
      | none => rfl
      | some nd =>
        cases nd with
        | dir => exact absurd hg hnd
        | file m d => exact absurd hg (hnofile m d)
    have haboveb : fsb.DirsAbove comps := by
      intro q hq hne
      rw [hsame q hne]
      exact habove q hq hne
    have hfinal : fs1.get comps = some (.file (fileMode fsa.umask e.header.mode) e.data) :=
      (hBpost comps (fun e1 he1 => huniq e1 (by simp [he1])) _ _).mpr (hnew hnone)
    simp only [FS.readFile, resolve_abs_ok fs1 comps hv (habove_final haboveb), hfinal]

theorem C6_witness :
    fsTool.stat "/tmp/gup1/go/bin" = .ok .dir ∧
    fsTool.readFile "/tmp/gup1/go/bin/tool" = .ok ['X'] :=
  ⟨(C6_extraction_reproduces_entries "/tmp/gup1" fsScratch fsTool []
      [⟨⟨"go/bin/tool", TypeReg, 0o755⟩, ['X']⟩] ⟨⟨"go/bin/", TypeDir, 0o755⟩, []⟩
      (by decide) (wf_of_check _ (by decide)) (by decide)
      (fun m d h => by
        have h0 : fsScratch.stat (target "/tmp/gup1" ⟨⟨"go/bin/", TypeDir, 0o755⟩, []⟩)
            = .error .ENOENT := by decide
        rw [h0] at h; cases h)
      (by decide)).1 rfl,
   (C6_extraction_reproduces_entries "/tmp/gup1" fsScratch fsTool
      [⟨⟨"go/bin/", TypeDir, 0o755⟩, []⟩] [] ⟨⟨"go/bin/tool", TypeReg, 0o755⟩, ['X']⟩
      (by decide) (wf_of_check _ (by decide)) (by decide)
      (fun m d h => by
        have h0 : fsScratch.stat (target "/tmp/gup1" ⟨⟨"go/bin/tool", TypeReg, 0o755⟩, ['X']⟩)
            = .error .ENOENT := by decide
        rw [h0] at h; cases h)
      (by decide)).2 rfl⟩

/-- C6 (counterexample): the stream with two regular-file entries named `a`,
first with bytes `XY`, then with bytes `Z`, is processed without fatal error, and
afterwards the target `/tmp/gup1/a` of both holds `ZY`, the byte stream of
neither; and after a regular-file entry `a` a directory entry `a/` is processed
without fatal error while its target stays a regular file. -/
theorem C6_counterexample :
    (extractEntries "/tmp/gup1" fsScratch dupStream).fatal = none ∧
    (∀ e ∈ dupStream, e.header.typeflag = TypeReg ∧ target "/tmp/gup1" e = "/tmp/gup1/a") ∧
    (extractEntries "/tmp/gup1" fsScratch dupStream).fs.readFile "/tmp/gup1/a"
      = .ok ['Z', 'Y'] ∧
    (∀ e ∈ dupStream, e.data ≠ ['Z', 'Y']) ∧
    (extractEntries "/tmp/gup1" fsScratch fileThenDir).fatal = none ∧
    (∃ e ∈ fileThenDir, e.header.typeflag = TypeDir ∧
      (extractEntries "/tmp/gup1" fsScratch fileThenDir).fs.stat (target "/tmp/gup1" e)
        = .ok (.file 0o644 ['X', 'Y'])) := by
  refine ⟨by decide, by decide, by decide, by decide, by decide, ?_⟩
  exact ⟨⟨⟨"a/", TypeDir, 0o755⟩, []⟩, by decide, by decide, by decide⟩

/-! ### Targets outside the scratch directory -/

theorem cleanComps_pop (acc rest : List String) (top : String) (htop : ValidName top) :
    cleanComps true (top :: acc) (".." :: rest) = cleanComps true acc rest := by
  simp [cleanComps, htop.2.2.1]

/-- The target of the name `../x` is the sibling `x` of the scratch directory. -/
theorem join_dotdot (tdc : List String) (hv : ∀ c ∈ tdc, ValidName c) (hne : tdc ≠ []) :
    filepathJoin [renderRel tdc ++ "/", "../x"] = renderRel (tdc.dropLast ++ ["x"]) := by
  obtain ⟨c, cs, hcs⟩ := List.exists_cons_of_ne_nil hne
  have hx : ValidName "x" := ⟨by decide, by decide, by decide, by decide⟩
  have h0 : renderRel tdc ++ "/" ≠ "" := by
    intro h0
    have := congrArg String.data h0
    simp [String.data_append] at this
  have hdata : (renderRel tdc ++ "/" ++ "/" ++ "../x").data
      = (renderRel tdc).data ++ "//../x".data := by
    simp [String.data_append]
  have hsplit : splitSlash (renderRel tdc ++ "/" ++ "/" ++ "../x")
      = "" :: (tdc ++ ["", "..", "x"]) := by
    have hy : splitChars "//../x".data = [] :: [[], "..".data, "x".data] := by decide
    simp only [splitSlash, hdata, splitChars_render tdc hv _ _ hy, List.map_cons,
      List.map_append, map_mk_map_data, List.map_nil]
  have hs : renderRel tdc ++ "/" ++ "/" ++ "../x" ≠ "" := by
    intro h
    have := congrArg String.data h
    rw [hdata, hcs, renderRel_data_cons] at this
    cases this
  have hr : isRooted (renderRel tdc ++ "/" ++ "/" ++ "../x") = true := by
    simp [isRooted, hdata, hcs, renderRel_data_cons]
  have hrev : tdc.reverse = tdc.getLast hne :: tdc.dropLast.reverse := by
    conv_lhs => rw [← List.dropLast_append_getLast hne]
    simp
  have hcomps : cleanComps true [] (splitSlash (renderRel tdc ++ "/" ++ "/" ++ "../x"))
      = tdc.dropLast ++ ["x"] := by
    rw [hsplit, cleanComps_cons_skip true [] _ "" (Or.inl rfl), cleanComps_valid true tdc hv,
      List.append_nil, cleanComps_cons_skip true _ _ "" (Or.inl rfl), hrev,
      cleanComps_pop _ _ _ (hv _ (List.getLast_mem hne)), cleanComps_cons_name true _ _ "x" hx]
    simp [cleanComps]
  have hout : tdc.dropLast ++ ["x"] ≠ [] := by simp
  obtain ⟨d, ds, hds⟩ := List.exists_cons_of_ne_nil hout
  simp only [filepathJoin, if_neg h0, joinSlash, filepathClean, if_neg hs, hr, hcomps, if_true]
  rw [hds, slash_joinSlash, if_neg (renderRel_ne_empty _ _)]

theorem mkdirAllFrom_ok (comps : List String) (hv : ∀ c ∈ comps, ValidName c) :
    ∀ (fs : FS) (cur : Path),
      (∀ q, q <+: comps → ∀ m d, fs.get (cur ++ q) ≠ some (.file m d)) →
      ∃ fs1, mkdirAllFrom fs cur comps = .ok fs1 := by
  induction comps with
  | nil => intro fs cur _; exact ⟨fs, rfl⟩
  | cons c cs ih =>
    intro fs cur h
    have hc := hv c (by simp)
    have hcs : ∀ x ∈ cs, ValidName x := fun x hx => hv x (by simp [hx])
    rw [mkdirAllFrom_name fs cur c cs hc]
    have hstep : ∀ q, q <+: cs → ∀ m d, fs.get (cur ++ [c] ++ q) ≠ some (.file m d) := by
      intro q hq m d
      have := h (c :: q) (by simpa using hq) m d
      simpa using this
    cases hg : fs.get (cur ++ [c]) with
    | none =>
      apply ih hcs
      intro q hq m d
      by_cases hqn : q = []
      · subst hqn
        rw [List.append_nil, get_set_self fs _ _ (by simp)]
        simp
      · rw [get_set_ne fs _ _ _ (by simpa using hqn)]
        exact hstep q hq m d
    | some nd =>
      cases nd with
      | dir => exact ih hcs fs (cur ++ [c]) hstep
      | file m d =>
        exfalso
        have := h [c] (by simp) m d
        exact this hg

theorem mkdirAll_render_ok (fs : FS) (p : List String) (hv : ∀ c ∈ p, ValidName c)
    (hne : p ≠ []) (hd : fs.DirsAbove p) (hfree : fs.get p = none) :
    ∃ fs1, fs.mkdirAll (renderRel p) = .ok fs1 ∧ fs1.get p = some .dir ∧ fs.Sub fs1 := by
  obtain ⟨c, cs, rfl⟩ := List.exists_cons_of_ne_nil hne
  have hnofile : ∀ q, q <+: c :: cs → ∀ m d, fs.get ([] ++ q) ≠ some (.file m d) := by
    intro q hq m d hg
    rw [List.nil_append] at hg
    by_cases hqp : q = c :: cs
    · rw [hqp, hfree] at hg; cases hg
    · rw [hd q hq hqp] at hg; cases hg
  obtain ⟨fs1, hfs1⟩ := mkdirAllFrom_ok (c :: cs) hv fs [] hnofile
  have hall : fs.mkdirAll (absString (c :: cs)) = .ok fs1 := by
    simp only [absString, if_false, reduceCtorEq, FS.mkdirAll,
      if_neg (renderRel_ne_empty c cs), isRooted_render, if_true, get_nil,
      splitSlash_renderRel _ hv]
    rw [mkdirAllFrom_skip _ _ _ _ (Or.inl rfl)]
    exact hfs1
  obtain ⟨hsub, hdirs, _⟩ := mkdirAll_abs fs fs1 (c :: cs) hv hall
  simp only [absString, if_false, reduceCtorEq] at hall
  exact ⟨fs1, hall, hdirs _ (List.prefix_refl _), hsub⟩

theorem sibling_not_below (tdc : List String) (hne : tdc ≠ [])
    (hl : tdc.getLast hne ≠ "x") : ¬ tdc <+: tdc.dropLast ++ ["x"] := by
  intro h
  have hlen : tdc.length = (tdc.dropLast ++ ["x"]).length := by
    simp only [List.length_append, List.length_dropLast, List.length_singleton]
    have : 0 < tdc.length := List.length_pos.mpr hne
    omega
  have heq := h.eq_of_length hlen
  have h2 : tdc.dropLast ++ [tdc.getLast hne] = tdc.dropLast ++ ["x"] := by
    rw [List.dropLast_append_getLast hne]; exact heq
  have := List.append_cancel_left h2
  simp only [List.cons.injEq, and_true] at this
  exact hl this

/-- C9: the target of an entry is `filepath.Join(td+"/", name)` with no check.
For every clean absolute scratch path `td` whose last element is not `x`, the
name `../x` (which has a `..` element) has the target `x` next to the scratch
directory, which does not lie below `td`; and when that location is free and
its parent exists, a regular-file entry of that name is created there with the
entry's bytes, and a directory entry of that name is created there. -/
theorem C9_no_traversal_check (tdc : List String) (fs : FS)
    (hv : ∀ c ∈ tdc, ValidName c) (hne : tdc ≠ []) (hl : tdc.getLast hne ≠ "x")
    (habove : fs.DirsAbove (tdc.dropLast ++ ["x"]))
    (hfree : fs.get (tdc.dropLast ++ ["x"]) = none) :
    ".." ∈ splitSlash "../x" ∧
    filepathJoin [renderRel tdc ++ "/", "../x"] = renderRel (tdc.dropLast ++ ["x"]) ∧
    fs.resolve (renderRel (tdc.dropLast ++ ["x"])) = .ok (tdc.dropLast ++ ["x"]) ∧
    ¬ tdc <+: tdc.dropLast ++ ["x"] ∧
    (∀ (m : Nat) (data : Bytes),
      extractEntry (renderRel tdc) fs ⟨⟨"../x", TypeReg, m⟩, data⟩
        = .ok (fs.set (tdc.dropLast ++ ["x"]) (.file (fileMode fs.umask m) data))) ∧
    (∀ m : Nat, ∃ fs1,
      extractEntry (renderRel tdc) fs ⟨⟨"../x", TypeDir, m⟩, []⟩ = .ok fs1 ∧
      fs1.get (tdc.dropLast ++ ["x"]) = some .dir) := by
  have hx : ValidName "x" := ⟨by decide, by decide, by decide, by decide⟩
  have hvp : ∀ c ∈ tdc.dropLast ++ ["x"], ValidName c :=
    valid_append (fun c hc => hv c (List.mem_of_mem_dropLast hc))
      (by intro c hc; rw [List.mem_singleton.mp hc]; exact hx)
  have hpne : tdc.dropLast ++ ["x"] ≠ [] := by simp
  have hjoin := join_dotdot tdc hv hne
  have hres := resolve_render fs _ hvp hpne habove
  refine ⟨by decide, hjoin, hres, sibling_not_below tdc hne hl, ?_, ?_⟩
  · intro m data
    simp only [extractEntry, hjoin, if_neg TypeReg_ne_TypeDir, if_true, FS.openFile, hres, hfree,
      createAt_free fs _ _ hpne habove hfree, FS.writeAt0, get_set_self fs _ _ hpne,
      List.drop_nil, List.append_nil]
    simp [FS.set]
  · intro m
    obtain ⟨fs1, hmk, hdir, _⟩ := mkdirAll_render_ok fs _ hvp hpne habove hfree
    refine ⟨fs1, ?_, hdir⟩
    have hstat : fs.stat (renderRel (tdc.dropLast ++ ["x"])) = .error .ENOENT := by
      simp only [FS.stat, hres, hfree]
    simp only [extractEntry, hjoin, if_true, hstat, hmk]

theorem C9_witness :
    filepathJoin ["/tmp/gup1" ++ "/", "../x"] = "/tmp/x" ∧
    ¬ (["tmp", "gup1"] <+: ["tmp", "x"]) ∧
    (∀ (m : Nat) (data : Bytes),
      extractEntry "/tmp/gup1" fsScratch ⟨⟨"../x", TypeReg, m⟩, data⟩
        = .ok (fsScratch.set ["tmp", "x"] (.file (fileMode 0o022 m) data))) :=
  have h := C9_no_traversal_check ["tmp", "gup1"] fsScratch (by decide) (by decide) (by decide)
    (by
      intro q hq hne
      have hq' : q = [] ∨ q = ["tmp"] ∨ q = ["tmp", "x"] := by
        rcases List.prefix_cons_iff.mp hq with rfl | ⟨t, rfl, ht⟩
        · exact Or.inl rfl
        · rcases List.prefix_cons_iff.mp ht with rfl | ⟨t1, rfl, ht1⟩
          · exact Or.inr (Or.inl rfl)
          · rw [List.prefix_nil.mp ht1]; exact Or.inr (Or.inr rfl)
      rcases hq' with rfl | rfl | rfl
      · rfl
      · decide
      · exact absurd rfl hne)
    (by decide)
  ⟨h.2.1, h.2.2.2.1, h.2.2.2.2.1⟩

end Gup
